import Mathlib

/-!
# PDAL pipeline reader: a shallow embedding of `PipelineReaderJSON.cpp`

The development follows `src/pdal/PipelineReaderJSON.cpp` and
`src/pdal/FileSpec.hpp`.

* JSON values (`NL::json`) are an inductive type with the value kinds the
  parser of a JSON text can produce.
* `Stage *` is a handle: the index of the stage in the list of stages the
  `PipelineManager` owns.  `nullptr` is `none`.
* A C++ exception is a value of `Exn`.  The manager is passed by reference, so
  whatever was created before a `throw` stays in it: a failing run returns the
  exception together with the manager as it was when the exception left
  `parsePipeline`.
* `size_t` is `Nat` with explicit `% 2 ^ 64` where the source can wrap
  (`last = tree.size() - 1`).
* `Utils::glob` reads the file system; it is a parameter `glob` of the
  functions that use it.
-/

namespace pdal

/-! ## JSON values -/

/-- An IEEE-754 double, carried by its 64-bit pattern; the reader only passes
doubles through. -/
structure Double where
  bits : Nat
deriving DecidableEq

/-- The value kinds of `NL::json` that parsing a JSON text produces.  An object
is its list of members (in `std::map` order, keys pairwise different). -/
inductive Json where
  | null : Json
  | boolean (b : Bool) : Json
  | number_unsigned (n : Nat) : Json
  | number_integer (i : Int) : Json
  | number_float (d : Double) : Json
  | string (s : String) : Json
  | array (elems : List Json) : Json
  | object (members : List (String × Json)) : Json

/-- What leaves a function by `throw`: `pdal_error(what)`, or an exception of
the JSON library (identified by its number, 302 = `type must be string`,
304 = `cannot use at() with` a non-array, 401 = index out of range). -/
inductive Exn where
  | pdal_error (what : String) : Exn
  | json_exception (id : Nat) : Exn
deriving DecidableEq

namespace Json

def is_null : Json → Bool
  | null => true
  | _ => false

def is_string : Json → Bool
  | string _ => true
  | _ => false

def is_array : Json → Bool
  | array _ => true
  | _ => false

def is_object : Json → Bool
  | object _ => true
  | _ => false

/-- The method `size()`: 0 for null, the number of elements or members for an
array or object, 1 for every other value. -/
def size : Json → Nat
  | null => 0
  | array elems => elems.length
  | object members => members.length
  | _ => 1

/-- The method `at(i)`: the element of an array, exception 401 past its end,
exception 304 on a value that is not an array. -/
def at_ : Json → Nat → Except Exn Json
  | array elems, i =>
    match elems.get? i with
    | some node => .ok node
    | none => .error (.json_exception 401)
  | _, _ => .error (.json_exception 304)

/-- The method `find(key)`: the value of the member `key` of an object; `none`
stands for `end()`, which is also the answer of every value that is not an
object. -/
def find : Json → String → Option Json
  | object members, key => members.lookup key
  | _, _ => none

/-- The call `node.erase(it)` for the iterator `it = node.find(key)`. -/
def erase : Json → String → Json
  | object members, key => object (members.eraseP (fun m => m.1 == key))
  | j, _ => j

/-- The call `get<std::string>()`; exception 302 on a value that is not a
string. -/
def get_string : Json → Except Exn String
  | string s => .ok s
  | _ => .error (.json_exception 302)

/-- The keys of `items()` over an array are the indices in decimal. -/
def indexed : Nat → List Json → List (String × Json)
  | _, [] => []
  | i, v :: vs => (Nat.repr i, v) :: indexed (i + 1) vs

/-- The iteration `node.items()`: the members of an object, the elements of an
array under their index, nothing for null, and a scalar itself under the
empty key. -/
def items : Json → List (String × Json)
  | object members => members
  | array elems => indexed 0 elems
  | null => []
  | j => [("", j)]

end Json

/-! ## Utilities of the library that are not in the sources at hand -/

namespace Utils

/-- Modelled from the spec: `Utils::startsWith` (pdal/util/Utils.hpp is not
among the sources), "`type` starts with the Reader namespace prefix": `s`
begins with the characters of `pre`. -/
def startsWith (s pre : String) : Bool :=
  pre.data.isPrefixOf s.data

/-- Modelled from the spec: `Utils::glob` (pdal/util/FileUtils is not among
the sources, only its test is): the path "is expanded via glob matching
against the filesystem".  The file system is the list `files` of the paths
that exist, `fits pattern path` says whether a path matches a pattern; the
result is the existing paths that match, in the order of the file system. -/
def glob (files : List String) (fits : String → String → Bool) (pattern : String) :
    List String :=
  files.filter (fun path => fits pattern path)

end Utils

/-! ## FileSpec -/

abbrev StringMap := List (String × String)

/-- The class `FileSpec`: a path with optional headers and query. -/
structure FileSpec where
  m_path : String := ""
  m_headers : StringMap := []
  m_query : StringMap := []
deriving DecidableEq

namespace FileSpec

def valid (spec : FileSpec) : Bool :=
  !spec.m_path.data.isEmpty

def onlyFilename (spec : FileSpec) : Bool :=
  spec.m_headers.isEmpty && spec.m_query.isEmpty

/-- Modelled from the spec: the string-to-string pairs of a `headers` or
`query` field (FileSpec.cpp is not among the sources); `none` when a member
is not a string. -/
def stringPairs : List (String × Json) → Option StringMap
  | [] => some []
  | (k, .string v) :: rest =>
    match stringPairs rest with
    | some m => some ((k, v) :: m)
    | none => none
  | _ :: _ => none

/-- Modelled from the spec: one optional field `headers` or `query` of a
locator object (FileSpec.cpp is not among the sources): absent gives the empty
map, an object of string-to-string pairs gives these pairs, "any other shape
for these fields fails with a descriptive reason naming the field". -/
def extractMap (node : Json) (field : String) : Except String StringMap :=
  match node.find field with
  | none => .ok []
  | some (.object members) =>
    match stringPairs members with
    | some m => .ok m
    | none => .error ("'filename' sub-argument '" ++ field ++ "' must be an object of " ++
        "string key-value pairs.")
  | some _ => .error ("'filename' sub-argument '" ++ field ++ "' must be an object of " ++
        "string key-value pairs.")

/-- Modelled from the spec: `FileSpec::parse` (FileSpec.cpp is not among the
sources).  "If `node` is a plain string, it is the path.  If `node` is a
structured object, it must contain a `path` field (string; absence or wrong
type fails with a descriptive reason); it may contain `headers` and `query`
fields."  Every other value fails. -/
def parse (json : Json) : Except String FileSpec :=
  match json with
  | .string s => .ok { m_path := s }
  | .object members =>
    match (Json.object members).find "path" with
    | some (.string p) =>
      match extractMap (.object members) "headers" with
      | .error reason => .error reason
      | .ok headers =>
        match extractMap (.object members) "query" with
        | .error reason => .error reason
        | .ok query => .ok { m_path := p, m_headers := headers, m_query := query }
    | some _ => .error "'filename' object 'path' member must be specified as a string."
    | none => .error "'filename' object must contain 'path' member."
  | _ => .error "'filename' must be specified as a string or object."

end FileSpec

/-! ## Options -/

/-- Modelled from the spec: the typed value of an option (Options.hpp is not
among the sources): "string, unsigned integer, signed integer, double, bool,
structured/nested value, or a homogeneous list of the above". -/
inductive OptionValue where
  | string (s : String) : OptionValue
  | unsigned (n : Nat) : OptionValue
  | signed (i : Int) : OptionValue
  | double (d : Double) : OptionValue
  | bool (b : Bool) : OptionValue
  | json (j : Json) : OptionValue
  | list (elems : List Json) : OptionValue

/-- Modelled from the spec: the Option Bag (Options.hpp is not among the
sources), "a sequence of (name, typed value) pairs; names may repeat". -/
abbrev Options := List (String × OptionValue)

/-- Modelled from the spec: `Options::add` appends one pair; values under one
name accumulate. -/
def Options.add (options : Options) (name : String) (value : OptionValue) : Options :=
  options ++ [(name, value)]

/-! ## Stages and the pipeline manager -/

inductive Role where
  | Reader : Role
  | Filter : Role
  | Writer : Role
deriving DecidableEq

/-- Modelled from the spec: a stage (Stage.hpp is not among the sources), with
"`role`, `tag`, `options`, `inputs` (ordered list of references to earlier
stages)", the driver name it was created for and its file. -/
structure Stage where
  role : Role
  m_fileSpec : FileSpec
  m_driver : String
  m_options : Options
  m_tag : String
  m_inputs : List Nat := []

structure ReaderCreationOptions where
  m_fileSpec : FileSpec
  m_driver : String
  m_options : Options
  m_tag : String

structure StageCreationOptions where
  m_filename : String
  m_driver : String
  m_options : Options
  m_tag : String

/-- Modelled from the spec: the pipeline manager (PipelineManager.hpp is not
among the sources) "is the sole owner of stage lifetime": the stages in
creation order, and the lines written to its log. -/
structure PipelineManager where
  m_stages : List Stage := []
  m_log : List String := []

namespace PipelineManager

/-- Modelled from the spec: `makeReader(locator, type, options, tag) -> Stage`
appends one Reader stage without inputs and returns its handle. -/
def makeReader (manager : PipelineManager) (ops : ReaderCreationOptions) :
    PipelineManager × Nat :=
  ({ manager with m_stages := manager.m_stages ++
      [{ role := .Reader, m_fileSpec := ops.m_fileSpec, m_driver := ops.m_driver,
         m_options := ops.m_options, m_tag := ops.m_tag }] },
   manager.m_stages.length)

/-- Modelled from the spec: `makeWriter(path, type, options, tag) -> Stage`. -/
def makeWriter (manager : PipelineManager) (ops : StageCreationOptions) :
    PipelineManager × Nat :=
  ({ manager with m_stages := manager.m_stages ++
      [{ role := .Writer, m_fileSpec := { m_path := ops.m_filename }, m_driver := ops.m_driver,
         m_options := ops.m_options, m_tag := ops.m_tag }] },
   manager.m_stages.length)

/-- Modelled from the spec: `makeFilter(type, options, tag) -> Stage`. -/
def makeFilter (manager : PipelineManager) (ops : StageCreationOptions) :
    PipelineManager × Nat :=
  ({ manager with m_stages := manager.m_stages ++
      [{ role := .Filter, m_fileSpec := { m_path := ops.m_filename }, m_driver := ops.m_driver,
         m_options := ops.m_options, m_tag := ops.m_tag }] },
   manager.m_stages.length)

/-- The stage list after `s->setInput(*ts)` for the stage with handle `s`. -/
def setInputAt : List Stage → Nat → Nat → List Stage
  | [], _, _ => []
  | st :: rest, 0, ts => { st with m_inputs := st.m_inputs ++ [ts] } :: rest
  | st :: rest, s + 1, ts => st :: setInputAt rest s ts

/-- Modelled from the spec: `s->setInput(*ts)` appends the reference `ts` to
the inputs of stage `s`. -/
def setInput (manager : PipelineManager) (s ts : Nat) : PipelineManager :=
  { manager with m_stages := setInputAt manager.m_stages s ts }

/-- Modelled from the spec: `leaves()`, the "stages that are not referenced as
an input by any other stage", in creation order, each with its handle. -/
def leaves (manager : PipelineManager) : List (Nat × Stage) :=
  manager.m_stages.enum.filter
    (fun hs => manager.m_stages.all (fun st => !st.m_inputs.contains hs.1))

/-- One line written to the log at level Error. -/
def logError (manager : PipelineManager) (line : String) : PipelineManager :=
  { manager with m_log := manager.m_log ++ [line] }

end PipelineManager

/-- Modelled from the spec: `Stage::getName`, the "stage-type name" of a stage
(Stage.hpp is not among the sources): the driver name it was created for. -/
def Stage.getName (s : Stage) : String := s.m_driver

/-- Modelled from the spec: the characters of a tag name after the first,
"letters/digits/underscore". -/
def isTagChar (c : Char) : Bool :=
  c.isAlphanum || c == '_'

/-- Modelled from the spec: `Stage::parseTagName(o, pos)` (Stage.hpp is not
among the sources): "tag names must start with a letter and contain only
letters/digits/underscore thereafter".  It reads a tag name of `o` from `pos`
on and returns whether one starts there and the position after it. -/
def Stage.parseTagName (o : String) (pos : Nat) : Bool × Nat :=
  match o.data.drop pos with
  | [] => (false, pos)
  | c :: rest =>
    if c.isAlpha then (true, pos + 1 + (rest.takeWhile isTagChar).length)
    else (false, pos)

/-! ## The tag map -/

/-- The type `TagMap = std::map<std::string, Stage *>`: at most one entry for a
key. -/
abbrev TagMap := List (String × Nat)

/-- The call `tags.find(tag)`; `none` is `tags.end()`. -/
def TagMap.find (tags : TagMap) (tag : String) : Option Nat :=
  tags.lookup tag

/-- The assignment `tags[tag] = s`. -/
def TagMap.assign (tags : TagMap) (tag : String) (s : Nat) : TagMap :=
  (tag, s) :: tags.filter (fun e => e.1 != tag)

/-! ## Extraction of the recognised keys of a node

Each function returns what the source returns together with the node as the
call leaves it (the source erases the key it has read). -/

def extractType (node : Json) : Except Exn (String × Json) :=
  match node.find "type" with
  | none => .ok ("", node)
  | some val =>
    if val.is_null then .ok ("", node.erase "type")
    else
      match val with
      | .string s => .ok (s, node.erase "type")
      | _ => .error (.pdal_error "JSON pipeline: 'type' must be specified as a string.")

def extractTag (node : Json) (tags : TagMap) : Except Exn (String × Json) :=
  match node.find "tag" with
  | none => .ok ("", node)
  | some val =>
    let read : Except Exn String :=
      if val.is_null then .ok ""
      else
        match val with
        | .string tag =>
          if (tags.find tag).isSome then
            .error (.pdal_error ("JSON pipeline: duplicate tag '" ++ tag ++ "'."))
          else .ok tag
        | _ => .error (.pdal_error "JSON pipeline: tag must be specified as a string.")
    match read with
    | .error e => .error e
    | .ok tag =>
      let parsed := Stage.parseTagName tag 0
      if !parsed.1 || parsed.2 != tag.data.length then
        .error (.pdal_error ("JSON pipeline: Invalid tag name '" ++ tag ++ "'.  " ++
          "Must start with letter.  Remainder can be letters, " ++
          "digits or underscores."))
      else .ok (tag, node.erase "tag")

def extractFilename (node : Json) : Except Exn (FileSpec × Json) :=
  match node.find "filename" with
  | none => .ok ({}, node)
  | some val =>
    match FileSpec.parse val with
    | .error what => .error (.pdal_error what)
    | .ok spec => .ok (spec, node.erase "filename")

def handleInputTag (tag : String) (tags : TagMap) (inputs : List Nat) :
    Except Exn (List Nat) :=
  match tags.find tag with
  | none => .error (.pdal_error ("JSON pipeline: Invalid pipeline: " ++
      "undefined stage tag '" ++ tag ++ "'."))
  | some s => .ok (inputs ++ [s])

/-- The loop `for (auto& input : val)` of `extractInputs`. -/
def extractInputList (tags : TagMap) : List Json → List Nat → Except Exn (List Nat)
  | [], inputs => .ok inputs
  | input :: rest, inputs =>
    match input with
    | .string tag =>
      match handleInputTag tag tags inputs with
      | .error e => .error e
      | .ok inputs1 => extractInputList tags rest inputs1
    | _ => .error (.pdal_error ("JSON pipeline: 'inputs' tag must " ++
        " be specified as a string or array of strings."))

def extractInputs (node : Json) (tags : TagMap) : Except Exn (List Nat × Json) :=
  match node.find "inputs" with
  | none => .ok ([], node)
  | some val =>
    let read : Except Exn (List Nat) :=
      match val with
      | .string tag => handleInputTag tag tags []
      | .array elems => extractInputList tags elems []
      | _ => .error (.pdal_error ("JSON pipeline: 'inputs' tag must " ++
          " be specified as a string or array of strings."))
    match read with
    | .error e => .error e
    | .ok inputs => .ok (inputs, node.erase "inputs")

/-- The function `extractOption`: whether the value could be converted, and the
options after the call. -/
def extractOption (options : Options) (name : String) (node : Json) : Bool × Options :=
  match node with
  | .string s => (true, options.add name (.string s))
  | .number_unsigned n => (true, options.add name (.unsigned n))
  | .number_integer i => (true, options.add name (.signed i))
  | .number_float d => (true, options.add name (.double d))
  | .boolean b => (true, options.add name (.bool b))
  | .array elems => (true, options.add name (.list elems))
  | .null => (true, options.add name (.string ""))
  | .object _ => (false, options)

/-- The loop `for (const NL::json& val : subnode)` of `extractOptions`. -/
def extractOptionList (name : String) : List Json → Options → Except Exn Options
  | [], options => .ok options
  | val :: rest, options =>
    if val.is_object then extractOptionList name rest (options.add name (.json val))
    else
      match extractOption options name val with
      | (true, options1) => extractOptionList name rest options1
      | (false, _) => .error (.pdal_error ("JSON pipeline: Invalid value type for " ++
          "option list '" ++ name ++ "'."))

/-- The loop `for (auto& it : node.items())` of `extractOptions`.  The call of
`loadPlugin` has no effect on the options; of it only `get<std::string>()` on
the value of `plugin` is kept, which throws when the value is not a string. -/
def extractOptionItems : List (String × Json) → Options → Except Exn Options
  | [], options => .ok options
  | (name, subnode) :: rest, options =>
    if name = "plugin" then
      match subnode.get_string with
      | .error e => .error e
      | .ok _ => extractOptionItems rest options
    else
      match subnode with
      | .array elems =>
        match extractOptionList name elems options with
        | .error e => .error e
        | .ok options1 => extractOptionItems rest options1
      | .object _ => extractOptionItems rest (options.add name (.json subnode))
      | _ =>
        match extractOption options name subnode with
        | (true, options1) => extractOptionItems rest options1
        | (false, _) => .error (.pdal_error ("JSON pipeline: Value of stage option '" ++
            name ++ "' cannot be converted."))

def extractOptions (node : Json) : Except Exn Options :=
  extractOptionItems node.items []

/-! ## parsePipeline -/

/-- The locals of the loop body after lines 75-95 of the source. -/
structure NodeParts where
  spec : FileSpec := {}
  tag : String := ""
  type : String := ""
  specifiedInputs : List Nat := []
  options : Options := []

/-- Lines 82-95: a string is a filename; of every other node the keys are
extracted in the order type, filename, tag, inputs, options. -/
def extractNode (node : Json) (tags : TagMap) : Except Exn NodeParts :=
  match node with
  | .string s => .ok { spec := { m_path := s } }
  | _ =>
    match extractType node with
    | .error e => .error e
    | .ok (type, node1) =>
      match extractFilename node1 with
      | .error e => .error e
      | .ok (spec, node2) =>
        match extractTag node2 tags with
        | .error e => .error e
        | .ok (tag, node3) =>
          match extractInputs node3 tags with
          | .error e => .error e
          | .ok (specifiedInputs, node4) =>
            match extractOptions node4 with
            | .error e => .error e
            | .ok options =>
              .ok { spec := spec, tag := tag, type := type,
                    specifiedInputs := specifiedInputs, options := options }

/-- The state the loop of `parsePipeline` carries from node to node. -/
structure LoopState where
  manager : PipelineManager
  tags : TagMap := []
  inputs : List Nat := []

/-- The state of one node after its stages are made: the manager, the input
set and the pointer `s`. -/
structure Wired where
  manager : PipelineManager
  inputs : List Nat
  s : Option Nat

/-- The loop `for (const std::string& path : files)` of lines 108-118.  A
`throw` leaves the manager with the reader made just before it. -/
def makeReaders (parts : NodeParts) :
    List String → Wired → Except (Exn × PipelineManager) Wired
  | [], w => .ok w
  | path :: rest, w =>
    let made := w.manager.makeReader
      { m_fileSpec := { parts.spec with m_path := path }, m_driver := parts.type,
        m_options := parts.options, m_tag := parts.tag }
    if parts.specifiedInputs.length != 0 then
      .error (.pdal_error ("JSON pipeline: Inputs not permitted for " ++
        " reader: '" ++ path ++ "'."), made.1)
    else makeReaders parts rest { manager := made.1, inputs := w.inputs ++ [made.2], s := some made.2 }

/-- The loop `for (Stage *ts : inputs) s->setInput(*ts);`. -/
def setInputs (manager : PipelineManager) (s : Nat) : List Nat → PipelineManager
  | [] => manager
  | ts :: rest => setInputs (manager.setInput s ts) s rest

/-- The value of `last = tree.size() - 1` in `size_t`. -/
def lastIndex (tree : Json) : Nat :=
  (tree.size + 2 ^ 64 - 1) % 2 ^ 64

/-- Lines 104-106: the files of a reader node, the matches of the glob or,
when there is none, the path itself. -/
def readerFiles (glob : String → List String) (path : String) : List String :=
  let files := glob path
  if files.isEmpty then files ++ [path] else files

/-- Lines 97-139: making and wiring the stage(s) of one node. -/
def wireNode (glob : String → List String) (last i : Nat) (parts : NodeParts)
    (manager : PipelineManager) (inputs : List Nat) :
    Except (Exn × PipelineManager) Wired :=
  if (parts.type.data.isEmpty && (i == 0 || i != last)) ||
      Utils.startsWith parts.type "readers." then
    let files := readerFiles glob parts.spec.m_path
    makeReaders parts files { manager := manager, inputs := inputs, s := none }
  else if parts.type.data.isEmpty || Utils.startsWith parts.type "writers." then
    let made := manager.makeWriter
      { m_filename := parts.spec.m_path, m_driver := parts.type,
        m_options := parts.options, m_tag := parts.tag }
    .ok { manager := setInputs made.1 made.2 inputs, inputs := [made.2], s := some made.2 }
  else
    let options :=
      if parts.spec.valid then parts.options.add "filename" (.string parts.spec.m_path)
      else parts.options
    let made := manager.makeFilter
      { m_filename := "", m_driver := parts.type, m_options := options, m_tag := parts.tag }
    .ok { manager := setInputs made.1 made.2 inputs, inputs := [made.2], s := some made.2 }

/-- Lines 142-143: `if (tag.size()) tags[tag] = s;`.  Every branch of lines
101-139 stores a stage in `s`, so `none` does not reach the assignment. -/
def registerTag (tags : TagMap) (tag : String) (s : Option Nat) : TagMap :=
  if tag.data.length != 0 then
    match s with
    | some h => tags.assign tag h
    | none => tags
  else tags

/-- The body of the loop of `parsePipeline` for the node at index `i`. -/
def loopBody (glob : String → List String) (last i : Nat) (node : Json) (st : LoopState) :
    Except (Exn × PipelineManager) LoopState :=
  match extractNode node st.tags with
  | .error e => .error (e, st.manager)
  | .ok parts =>
    let inputs := if !parts.specifiedInputs.isEmpty then parts.specifiedInputs else st.inputs
    match wireNode glob last i parts st.manager inputs with
    | .error e => .error e
    | .ok w =>
      .ok { manager := w.manager, tags := registerTag st.tags parts.tag w.s, inputs := w.inputs }

/-- The loop `for (size_t i = 0; i < tree.size(); ++i)`; `todo` is
`tree.size() - i`, the number of iterations still to run. -/
def parseLoop (glob : String → List String) (tree : Json) (last : Nat) :
    Nat → Nat → LoopState → Except (Exn × PipelineManager) LoopState
  | 0, _, st => .ok st
  | todo + 1, i, st =>
    match tree.at_ i with
    | .error e => .error (e, st.manager)
    | .ok node =>
      match loopBody glob last i node st with
      | .error e => .error e
      | .ok st1 => parseLoop glob tree last todo (i + 1) st1

/-- The name under which a leaf is reported (line 155). -/
def leafName (s : Stage) : String :=
  if s.m_tag.data.length != 0 then s.m_tag else s.getName

/-- Lines 146-158: the warning about several leaves. -/
def reportLeaves (manager : PipelineManager) : PipelineManager :=
  let llist := manager.leaves
  if llist.length > 1 then
    let m1 := manager.logError "Pipeline has multiple leaf nodes.\n"
    let m2 := m1.logError "Only the first of the following leaf nodes will be run.\n"
    llist.foldl (fun m s => m.logError ("    " ++ leafName s.2 ++ "\n")) m2
  else manager

/-- How a call of `parsePipeline` ends: the manager after it, and the
exception that left it, if one did. -/
structure Run where
  manager : PipelineManager
  thrown : Option Exn

def parsePipeline (glob : String → List String) (tree : Json) (manager : PipelineManager) :
    Run :=
  match parseLoop glob tree (lastIndex tree) tree.size 0 { manager := manager } with
  | .error (e, m) => { manager := m, thrown := some e }
  | .ok st => { manager := reportLeaves st.manager, thrown := none }

/-! ## readPipeline -/

/-- Lines 368-371: the text of a parse error from after its first right
bracket on, the whole text when it has none. -/
def afterBracket (s : String) : String :=
  match s.data.dropWhile (fun c => c != ']') with
  | [] => s
  | _ :: rest => String.mk rest

/-- Lines 375-381 of `PipelineReaderJSON::readPipeline`: what is done with the
parsed root. -/
def readRoot (glob : String → List String) (root : Json) (manager : PipelineManager) : Run :=
  let it := root.find "pipeline"
  match root.is_object, it with
  | true, some tree => parsePipeline glob tree manager
  | _, _ =>
    if root.is_array then parsePipeline glob root manager
    else { manager := manager,
           thrown := some (.pdal_error "Pipeline: root element is not a pipeline.") }

/-- The method `PipelineReaderJSON::readPipeline(std::istream&)`.  The parser of
the JSON library is the parameter `parse`: it gives the value of the text, or
the text `what()` of its `parse_error`. -/
def readPipeline (parse : String → Except String Json) (glob : String → List String)
    (input : String) (manager : PipelineManager) : Run :=
  match parse input with
  | .error what =>
    { manager := manager, thrown := some (.pdal_error ("Pipeline:" ++ afterBracket what)) }
  | .ok root => readRoot glob root manager

/-! ## FileUtils -/

/-- The characters of `l` after its last `sep`, all of `l` when it has none. -/
def afterLast (sep : Char) (l : List Char) : List Char :=
  (l.reverse.takeWhile (fun c => c != sep)).reverse

namespace FileUtils

/-- Modelled from the spec: `FileUtils::getFilename` (pdal/util/FileUtils is
not among the sources, its unit test is), on a platform that is not Windows:
the part of the path after its last separator `/`, the whole path when it has
none. -/
def getFilename (path : String) : String :=
  String.mk (afterLast '/' path.data)

/-- Modelled from the spec: `FileUtils::extension` (pdal/util/FileUtils is not
among the sources, its unit test is): "the suffix of p's final path component
starting at that component's last '.', or the empty string when the final
component contains no '.'". -/
def extension (path : String) : String :=
  let name := (getFilename path).data
  if name.contains '.' then String.mk ('.' :: afterLast '.' name)
  else ""

/-- Modelled from the spec: `FileUtils::stem` (pdal/util/FileUtils is not among
the sources, its unit test is): "the final component with that extension
removed, with "." and ".." being their own stems". -/
def stem (path : String) : String :=
  let name := (getFilename path).data
  if name = ['.'] ∨ name = ['.', '.'] then String.mk name
  else String.mk (name.take (name.length - (extension path).data.length))

end FileUtils

/-! ## Definitions used to state the properties -/

/-- The rule of the specification for the role of the node at index `i` of a
list of `n` nodes: "a Reader if its `type` is empty and it is either the first
node or not the last node in the sequence, or if `type` starts with the Reader
namespace prefix.  Otherwise it is a Writer if `type` is empty or starts with
the Writer namespace prefix.  Otherwise it is a Filter." -/
def specRole (type : String) (i n : Nat) : Role :=
  if (type = "" ∧ (i = 0 ∨ i ≠ n - 1)) ∨ Utils.startsWith type "readers." = true then .Reader
  else if type = "" ∨ Utils.startsWith type "writers." = true then .Writer
  else .Filter

/-- The type of a node as lines 82-88 find it: empty for a bare string, else
what `extractType` returns (a node whose `type` cannot be read has none). -/
def nodeType (node : Json) : String :=
  match node with
  | .string _ => ""
  | _ =>
    match extractType node with
    | .ok (type, _) => type
    | .error _ => ""

/-- The manager after the body of the loop, whether it ended or threw. -/
def managerAfter :
    Except (Exn × PipelineManager) LoopState → PipelineManager
  | .ok st => st.manager
  | .error (_, m) => m

/-- The Reader stage that `makeReader` adds for the file `path` of a node. -/
def readerStage (parts : NodeParts) (path : String) : Stage :=
  { role := .Reader, m_fileSpec := { parts.spec with m_path := path }, m_driver := parts.type,
    m_options := parts.options, m_tag := parts.tag, m_inputs := [] }

/-- The Writer stage of a node, with the inputs it is wired to. -/
def writerStage (parts : NodeParts) (inputs : List Nat) : Stage :=
  { role := .Writer, m_fileSpec := { m_path := parts.spec.m_path }, m_driver := parts.type,
    m_options := parts.options, m_tag := parts.tag, m_inputs := inputs }

/-- The options of the Filter stage of a node (lines 131-132). -/
def filterOptions (parts : NodeParts) : Options :=
  if parts.spec.valid then parts.options.add "filename" (.string parts.spec.m_path)
  else parts.options

/-- The Filter stage of a node, with the inputs it is wired to. -/
def filterStage (parts : NodeParts) (inputs : List Nat) : Stage :=
  { role := .Filter, m_fileSpec := { m_path := "" }, m_driver := parts.type,
    m_options := filterOptions parts, m_tag := parts.tag, m_inputs := inputs }

/-- The input set a node is wired with (lines 92-93): the inputs it specifies,
when it specifies any, else the set accumulated so far. -/
def currentInputs (parts : NodeParts) (inputs : List Nat) : List Nat :=
  if !parts.specifiedInputs.isEmpty then parts.specifiedInputs else inputs

/-- The condition of line 101-102 under which a node is handled as a reader. -/
def readerCond (type : String) (i last : Nat) : Bool :=
  (type.data.isEmpty && (i == 0 || i != last)) || Utils.startsWith type "readers."

/-- The condition of line 120 under which a node that is no reader is handled
as a writer. -/
def writerCond (type : String) : Bool :=
  type.data.isEmpty || Utils.startsWith type "writers."

/-- The role of the stages lines 101-139 make for a node. -/
def codeRole (type : String) (i last : Nat) : Role :=
  if readerCond type i last then .Reader
  else if writerCond type then .Writer
  else .Filter

/-- The strings of a list of JSON strings; `none` when an element is not a
string. -/
def stringList : List Json → Option (List String)
  | [] => some []
  | .string s :: rest =>
    match stringList rest with
    | some names => some (s :: names)
    | none => none
  | _ :: _ => none

/-- The tags a value of `inputs` names, in declared order, when the value is
"a string or a list of strings". -/
def declaredInputs : Json → Option (List String)
  | .string s => some [s]
  | .array elems => stringList elems
  | _ => none

/-- The message of the throw of `handleInputTag`. -/
def undefinedTag (tag : String) : Exn :=
  .pdal_error ("JSON pipeline: Invalid pipeline: " ++ "undefined stage tag '" ++ tag ++ "'.")

/-- The invariant of the loop behind the acyclicity of the graph, for a
manager that held `n0` stages before the call: the inputs of every stage made
since, the handles of the input set and the handles bound to tags all point
to stages made since and, for a stage, made before it. -/
def handlesEarlier (n0 : Nat) (st : LoopState) : Prop :=
  n0 ≤ st.manager.m_stages.length ∧
  (∀ (k : Nat) (s : Stage), n0 ≤ k → st.manager.m_stages[k]? = some s →
    ∀ h ∈ s.m_inputs, n0 ≤ h ∧ h < k) ∧
  (∀ h ∈ st.inputs, n0 ≤ h ∧ h < st.manager.m_stages.length) ∧
  (∀ (t : String) (h : Nat), TagMap.find st.tags t = some h →
    n0 ≤ h ∧ h < st.manager.m_stages.length)

/-- The syntax of a tag name in the words of the specification: it "must
start with a letter and contain only letters/digits/underscore thereafter". -/
def validTagName (t : String) : Bool :=
  match t.data with
  | [] => false
  | c :: rest => c.isAlpha && rest.all isTagChar

/-- The message of the throw of `extractTag` for a tag that is no tag name. -/
def invalidTagName (tag : String) : Exn :=
  .pdal_error ("JSON pipeline: Invalid tag name '" ++ tag ++ "'.  " ++
    "Must start with letter.  Remainder can be letters, " ++
    "digits or underscores.")

/-- The typed value one JSON value gives as a single option entry: "objects
pass through structured", a list is kept as the list of its elements, and a
scalar is coerced by its type, "null coerces to an empty string". -/
def entryValue : Json → OptionValue
  | .string s => .string s
  | .number_unsigned n => .unsigned n
  | .number_integer i => .signed i
  | .number_float d => .double d
  | .boolean b => .bool b
  | .null => .string ""
  | .array elems => .list elems
  | .object members => .json (.object members)

/-- The entries the member `name` of a node with the value `value` adds to the
Option Bag: none for `plugin`, one for each element of a list, else one. -/
def memberEntries (name : String) (value : Json) : Options :=
  if name = "plugin" then []
  else
    match value with
    | .array elems => elems.map (fun v => (name, entryValue v))
    | v => [(name, entryValue v)]

/-- The Option Bag of the members of a node, in their order. -/
def specEntries : List (String × Json) → Options
  | [] => []
  | (name, value) :: rest => memberEntries name value ++ specEntries rest

/-- Modelled from the spec: how the parser of the JSON library (not among the
sources) stores an integer of the text: a non-negative one as an unsigned
number, a negative one as a signed number. -/
def Json.ofInteger (i : Int) : Json :=
  if 0 ≤ i then .number_unsigned i.toNat else .number_integer i

/-- The keys of a node that `extractNode` reads before the options. -/
def recognisedKeys : List String := ["type", "filename", "tag", "inputs"]

/-- The edge of the graph from a stage to one of its inputs: the stage with the
handle `a` has the handle `b` among its inputs. -/
def feeds (stages : List Stage) (a b : Nat) : Prop :=
  ∃ s : Stage, stages[a]? = some s ∧ b ∈ s.m_inputs

/-- The handles of the stages of a list that are no input of a stage of the
list, in creation order. -/
def leafHandles (stages : List Stage) : List Nat :=
  (List.range stages.length).filter
    (fun h => stages.all (fun st => !st.m_inputs.contains h))

/-- The invariant of the loop over nodes that specify no inputs, for a manager
that held no stage before the call: handles point to earlier stages, the input
set is the list of the leaves, and every stage is reached from a stage of the
input set along inputs. -/
def leavesAreInputs (st : LoopState) : Prop :=
  handlesEarlier 0 st ∧
  st.inputs = leafHandles st.manager.m_stages ∧
  ∀ h : Nat, h < st.manager.m_stages.length →
    ∃ r ∈ st.inputs, Relation.ReflTransGen (feeds st.manager.m_stages) r h

/-! ## Basic facts about the embedding -/

theorem data_eq_nil_iff (s : String) : s.data = [] ↔ s = "" := by
  constructor
  · intro h
    cases s with
    | mk d => simp only at h; subst h; rfl
  · intro h; subst h; rfl

theorem lastIndex_array (elems : List Json) (h0 : 0 < elems.length)
    (hn : elems.length < 2 ^ 64) : lastIndex (.array elems) = elems.length - 1 := by
  simp only [lastIndex, Json.size]
  omega

/-- For an index of a list that fits `size_t` the conditions of the source
choose the role the rule of the specification gives. -/
theorem cond_specRole (type : String) (i n : Nat) (hi : i < n) (hn : n < 2 ^ 64) :
    (readerCond type i ((n + 2 ^ 64 - 1) % 2 ^ 64) = true ↔ specRole type i n = .Reader) ∧
    (readerCond type i ((n + 2 ^ 64 - 1) % 2 ^ 64) = false ∧ writerCond type = true ↔
      specRole type i n = .Writer) ∧
    (readerCond type i ((n + 2 ^ 64 - 1) % 2 ^ 64) = false ∧ writerCond type = false ↔
      specRole type i n = .Filter) := by
  have hl : (n + 2 ^ 64 - 1) % 2 ^ 64 = n - 1 := by omega
  rw [hl]
  have hr : readerCond type i (n - 1) = true ↔
      ((type = "" ∧ (i = 0 ∨ i ≠ n - 1)) ∨ Utils.startsWith type "readers." = true) := by
    simp [readerCond, data_eq_nil_iff]
  have hw : writerCond type = true ↔ (type = "" ∨ Utils.startsWith type "writers." = true) := by
    simp [writerCond, data_eq_nil_iff]
  unfold specRole
  by_cases h1 : (type = "" ∧ (i = 0 ∨ i ≠ n - 1)) ∨ Utils.startsWith type "readers." = true
  · have h1c := hr.mpr h1
    simp [h1, h1c]
  · have h1c : readerCond type i (n - 1) = false := by
      cases hc : readerCond type i (n - 1) with
      | false => rfl
      | true => exact absurd (hr.mp hc) h1
    by_cases h2 : type = "" ∨ Utils.startsWith type "writers." = true
    · have h2c := hw.mpr h2
      simp [h1, h1c, h2, h2c]
    · have h2c : writerCond type = false := by
        cases hc : writerCond type with
        | false => rfl
        | true => exact absurd (hw.mp hc) h2
      simp [h1, h1c, h2, h2c]

theorem setInputAt_last (pre : List Stage) (st : Stage) (ts : Nat) :
    PipelineManager.setInputAt (pre ++ [st]) pre.length ts =
      pre ++ [{ st with m_inputs := st.m_inputs ++ [ts] }] := by
  induction pre with
  | nil => rfl
  | cons a pre ih => simp [PipelineManager.setInputAt, ih]

theorem setInputs_last (l : List Nat) :
    ∀ (m : PipelineManager) (pre : List Stage) (st : Stage), m.m_stages = pre ++ [st] →
      (setInputs m pre.length l).m_stages = pre ++ [{ st with m_inputs := st.m_inputs ++ l }] ∧
      (setInputs m pre.length l).m_log = m.m_log := by
  induction l with
  | nil => intro m pre st h; simp [setInputs, h]
  | cons ts rest ih =>
    intro m pre st h
    have h1 : (m.setInput pre.length ts).m_stages =
        pre ++ [{ st with m_inputs := st.m_inputs ++ [ts] }] := by
      simp [PipelineManager.setInput, h, setInputAt_last]
    have h2 := ih (m.setInput pre.length ts) pre _ h1
    simp only [setInputs]
    refine ⟨?_, ?_⟩
    · rw [h2.1]; simp
    · rw [h2.2]; rfl

/-- Without specified inputs the loop over the files makes one Reader per file
and appends their handles to the input set. -/
theorem makeReaders_ok (parts : NodeParts) (h0 : parts.specifiedInputs = []) (files : List String) :
    ∀ w : Wired, ∃ w1 : Wired, makeReaders parts files w = .ok w1 ∧
      w1.manager.m_stages = w.manager.m_stages ++ files.map (readerStage parts) ∧
      w1.manager.m_log = w.manager.m_log ∧
      w1.inputs = w.inputs ++ List.range' w.manager.m_stages.length files.length ∧
      w1.s = if files = [] then w.s
        else some (w.manager.m_stages.length + files.length - 1) := by
  induction files with
  | nil => intro w; exact ⟨w, rfl, by simp, rfl, by simp, by simp⟩
  | cons path rest ih =>
    intro w
    obtain ⟨w1, e1, e2, e3, e4, e5⟩ := ih
      { manager := (w.manager.makeReader
          { m_fileSpec := { parts.spec with m_path := path }, m_driver := parts.type,
            m_options := parts.options, m_tag := parts.tag }).1,
        inputs := w.inputs ++ [w.manager.m_stages.length],
        s := some w.manager.m_stages.length }
    refine ⟨w1, ?_, ?_, ?_, ?_, ?_⟩
    · simp only [makeReaders, h0, List.length_nil, bne_self_eq_false]
      exact e1
    · rw [e2]; simp [PipelineManager.makeReader, readerStage]
    · rw [e3]; rfl
    · rw [e4]; simp [PipelineManager.makeReader, List.range'_succ]
    · rw [e5]
      by_cases hr : rest = []
      · simp [hr, PipelineManager.makeReader]
      · have hl : 0 < rest.length := List.length_pos.mpr hr
        simp [hr, PipelineManager.makeReader]

/-- With specified inputs the loop over the files throws after the first
Reader is made. -/
theorem makeReaders_throw (parts : NodeParts) (h0 : parts.specifiedInputs ≠ [])
    (path : String) (rest : List String) (w : Wired) :
    makeReaders parts (path :: rest) w =
      .error (.pdal_error ("JSON pipeline: Inputs not permitted for " ++
        " reader: '" ++ path ++ "'."),
        { w.manager with m_stages := w.manager.m_stages ++ [readerStage parts path] }) := by
  have h1 : (parts.specifiedInputs.length != 0) = true := by
    cases h : parts.specifiedInputs with
    | nil => exact absurd h h0
    | cons a l => rfl
  simp only [makeReaders, h1, if_true]
  rfl

theorem readerFiles_ne_nil (glob : String → List String) (path : String) :
    readerFiles glob path ≠ [] := by
  unfold readerFiles
  cases h : glob path with
  | nil => simp
  | cons a l => simp

theorem wireNode_reader_ok (glob : String → List String) (last i : Nat) (parts : NodeParts)
    (manager : PipelineManager) (inputs : List Nat)
    (hR : readerCond parts.type i last = true) (h0 : parts.specifiedInputs = []) :
    ∃ w : Wired, wireNode glob last i parts manager inputs = .ok w ∧
      w.manager.m_stages = manager.m_stages ++
        (readerFiles glob parts.spec.m_path).map (readerStage parts) ∧
      w.manager.m_log = manager.m_log ∧
      w.inputs = inputs ++
        List.range' manager.m_stages.length (readerFiles glob parts.spec.m_path).length ∧
      w.s = some (manager.m_stages.length + (readerFiles glob parts.spec.m_path).length - 1) := by
  obtain ⟨w, e1, e2, e3, e4, e5⟩ := makeReaders_ok parts h0 (readerFiles glob parts.spec.m_path)
    { manager := manager, inputs := inputs, s := none }
  refine ⟨w, ?_, e2, e3, e4, ?_⟩
  · unfold readerCond at hR
    simp only [wireNode, hR, if_true]
    exact e1
  · rw [e5]; simp [readerFiles_ne_nil]

theorem wireNode_reader_throw (glob : String → List String) (last i : Nat) (parts : NodeParts)
    (manager : PipelineManager) (inputs : List Nat)
    (hR : readerCond parts.type i last = true) (h0 : parts.specifiedInputs ≠ []) :
    ∃ path rest, readerFiles glob parts.spec.m_path = path :: rest ∧
      wireNode glob last i parts manager inputs =
        .error (.pdal_error ("JSON pipeline: Inputs not permitted for " ++
          " reader: '" ++ path ++ "'."),
          { manager with m_stages := manager.m_stages ++ [readerStage parts path] }) := by
  cases hf : readerFiles glob parts.spec.m_path with
  | nil => exact absurd hf (readerFiles_ne_nil glob _)
  | cons path rest =>
    refine ⟨path, rest, rfl, ?_⟩
    unfold readerCond at hR
    simp only [wireNode, hR, if_true, hf]
    exact makeReaders_throw parts h0 path rest _

theorem wireNode_writer (glob : String → List String) (last i : Nat) (parts : NodeParts)
    (manager : PipelineManager) (inputs : List Nat)
    (hR : readerCond parts.type i last = false) (hW : writerCond parts.type = true) :
    ∃ w : Wired, wireNode glob last i parts manager inputs = .ok w ∧
      w.manager.m_stages = manager.m_stages ++ [writerStage parts inputs] ∧
      w.manager.m_log = manager.m_log ∧
      w.inputs = [manager.m_stages.length] ∧
      w.s = some manager.m_stages.length := by
  unfold readerCond at hR
  unfold writerCond at hW
  have hs := setInputs_last inputs
    (manager.makeWriter
      { m_filename := parts.spec.m_path, m_driver := parts.type,
        m_options := parts.options, m_tag := parts.tag }).1 manager.m_stages _ rfl
  refine ⟨Wired.mk (setInputs (manager.makeWriter
      { m_filename := parts.spec.m_path, m_driver := parts.type,
        m_options := parts.options, m_tag := parts.tag }).1 manager.m_stages.length inputs)
      [manager.m_stages.length] (some manager.m_stages.length),
    ?_, hs.1.trans ?_, hs.2, rfl, rfl⟩
  · simp only [wireNode, hR, hW, if_true, Bool.false_eq_true, if_false]
    rfl
  · simp [writerStage]

theorem wireNode_filter (glob : String → List String) (last i : Nat) (parts : NodeParts)
    (manager : PipelineManager) (inputs : List Nat)
    (hR : readerCond parts.type i last = false) (hW : writerCond parts.type = false) :
    ∃ w : Wired, wireNode glob last i parts manager inputs = .ok w ∧
      w.manager.m_stages = manager.m_stages ++ [filterStage parts inputs] ∧
      w.manager.m_log = manager.m_log ∧
      w.inputs = [manager.m_stages.length] ∧
      w.s = some manager.m_stages.length := by
  unfold readerCond at hR
  unfold writerCond at hW
  have hs := setInputs_last inputs
    (manager.makeFilter
      { m_filename := "", m_driver := parts.type,
        m_options := filterOptions parts, m_tag := parts.tag }).1 manager.m_stages _ rfl
  refine ⟨Wired.mk (setInputs (manager.makeFilter
      { m_filename := "", m_driver := parts.type,
        m_options := filterOptions parts, m_tag := parts.tag }).1 manager.m_stages.length inputs)
      [manager.m_stages.length] (some manager.m_stages.length),
    ?_, hs.1.trans ?_, hs.2, rfl, rfl⟩
  · simp only [wireNode, hR, hW, if_true, Bool.false_eq_true, if_false]
    rfl
  · simp [filterStage]

/-- After the keys of a node are extracted the body of the loop is the wiring
with the input set of lines 92-93 followed by the registration of the tag. -/
theorem loopBody_of_extract (glob : String → List String) (last i : Nat) (node : Json)
    (st : LoopState) (parts : NodeParts) (hx : extractNode node st.tags = .ok parts) :
    loopBody glob last i node st =
      match wireNode glob last i parts st.manager (currentInputs parts st.inputs) with
      | .error e => .error e
      | .ok w => .ok { manager := w.manager, tags := registerTag st.tags parts.tag w.s,
                       inputs := w.inputs } := by
  simp only [loopBody, hx, currentInputs]


theorem codeRole_eq_specRole (type : String) (i n : Nat) (hi : i < n) (hn : n < 2 ^ 64) :
    codeRole type i ((n + 2 ^ 64 - 1) % 2 ^ 64) = specRole type i n := by
  obtain ⟨h1, h2, h3⟩ := cond_specRole type i n hi hn
  unfold codeRole
  cases hR : readerCond type i ((n + 2 ^ 64 - 1) % 2 ^ 64) with
  | true => simp only [if_true]; exact (h1.mp hR).symm
  | false =>
    cases hW : writerCond type with
    | true => simp only [Bool.false_eq_true, if_false, if_true]; exact (h2.mp ⟨hR, hW⟩).symm
    | false => simp only [Bool.false_eq_true, if_false]; exact (h3.mp ⟨hR, hW⟩).symm

/-- The stages the body of the loop adds for a node whose keys could be
extracted: they are appended to the stages of the manager, all have the role
the conditions of the source choose, and there is at least one when the body
ends without a throw. -/
theorem loopBody_created (glob : String → List String) (last i : Nat) (node : Json)
    (st : LoopState) (parts : NodeParts) (hx : extractNode node st.tags = .ok parts) :
    ∃ new : List Stage,
      (managerAfter (loopBody glob last i node st)).m_stages = st.manager.m_stages ++ new ∧
      (∀ s ∈ new, s.role = codeRole parts.type i last) ∧
      ((∃ st1, loopBody glob last i node st = .ok st1) → new ≠ []) := by
  rw [loopBody_of_extract glob last i node st parts hx]
  unfold codeRole
  cases hR : readerCond parts.type i last with
  | true =>
    by_cases h0 : parts.specifiedInputs = []
    · obtain ⟨w, e1, e2, -, -, -⟩ := wireNode_reader_ok glob last i parts st.manager
        (currentInputs parts st.inputs) hR h0
      refine ⟨(readerFiles glob parts.spec.m_path).map (readerStage parts), ?_, ?_, ?_⟩
      · rw [e1]; exact e2
      · intro s hs
        obtain ⟨path, -, rfl⟩ := List.mem_map.mp hs
        rfl
      · intro _ h
        exact readerFiles_ne_nil glob _ (List.map_eq_nil_iff.mp h)
    · obtain ⟨path, rest, -, e1⟩ := wireNode_reader_throw glob last i parts st.manager
        (currentInputs parts st.inputs) hR h0
      refine ⟨[readerStage parts path], ?_, ?_, ?_⟩
      · rw [e1]; rfl
      · intro s hs
        rw [List.mem_singleton.mp hs]; rfl
      · intro _ h; exact absurd h (by simp)
  | false =>
    cases hW : writerCond parts.type with
    | true =>
      obtain ⟨w, e1, e2, -, -, -⟩ := wireNode_writer glob last i parts st.manager
        (currentInputs parts st.inputs) hR hW
      refine ⟨[writerStage parts (currentInputs parts st.inputs)], ?_, ?_, ?_⟩
      · rw [e1]; exact e2
      · intro s hs
        rw [List.mem_singleton.mp hs]; rfl
      · intro _ h; exact absurd h (by simp)
    | false =>
      obtain ⟨w, e1, e2, -, -, -⟩ := wireNode_filter glob last i parts st.manager
        (currentInputs parts st.inputs) hR hW
      refine ⟨[filterStage parts (currentInputs parts st.inputs)], ?_, ?_, ?_⟩
      · rw [e1]; exact e2
      · intro s hs
        rw [List.mem_singleton.mp hs]; rfl
      · intro _ h; exact absurd h (by simp)

theorem foldl_logError_stages (names : List (Nat × Stage)) :
    ∀ m : PipelineManager,
      (names.foldl (fun m s => m.logError ("    " ++ leafName s.2 ++ "\n")) m).m_stages =
        m.m_stages := by
  induction names with
  | nil => intro m; rfl
  | cons a rest ih => intro m; simp only [List.foldl_cons]; rw [ih]; rfl

/-- The warning about several leaves leaves the stages as they are. -/
theorem reportLeaves_stages (m : PipelineManager) : (reportLeaves m).m_stages = m.m_stages := by
  unfold reportLeaves
  by_cases h : m.leaves.length > 1
  · simp only [h, if_true]
    rw [foldl_logError_stages]; rfl
  · simp only [h, if_false]

theorem at_array (elems : List Json) (i : Nat) (hi : i < elems.length) :
    (Json.array elems).at_ i = .ok elems[i] := by
  simp [Json.at_, List.getElem?_eq_getElem hi]

/-- One iteration of the loop over an array. -/
theorem parseLoop_succ (glob : String → List String) (elems : List Json) (last todo i : Nat)
    (hi : i < elems.length) (st : LoopState) :
    parseLoop glob (.array elems) last (todo + 1) i st =
      match loopBody glob last i elems[i] st with
      | .error e => .error e
      | .ok st1 => parseLoop glob (.array elems) last todo (i + 1) st1 := by
  simp only [parseLoop, at_array elems i hi]

/-- A run of the loop that ends is a run of its first iterations followed by
a run of the remaining ones. -/
theorem parseLoop_add (glob : String → List String) (tree : Json) (last : Nat) (a b : Nat) :
    ∀ (i : Nat) (st : LoopState),
      parseLoop glob tree last (a + b) i st =
        match parseLoop glob tree last a i st with
        | .error e => .error e
        | .ok st1 => parseLoop glob tree last b (i + a) st1 := by
  induction a with
  | zero => intro i st; simp [parseLoop]
  | succ a ih =>
    intro i st
    have h : a + 1 + b = (a + b) + 1 := by omega
    rw [h]
    simp only [parseLoop]
    cases tree.at_ i with
    | error e => rfl
    | ok node =>
      simp only []
      cases loopBody glob last i node st with
      | error e => rfl
      | ok st1 =>
        simp only []
        rw [ih (i + 1) st1]
        have h2 : i + 1 + a = i + (a + 1) := by omega
        rw [h2]

/-- The body of the loop for a reader node without specified inputs. -/
theorem loopBody_reader_ok (glob : String → List String) (last i : Nat) (node : Json)
    (st : LoopState) (parts : NodeParts) (hx : extractNode node st.tags = .ok parts)
    (hR : readerCond parts.type i last = true) (h0 : parts.specifiedInputs = []) :
    ∃ st1 : LoopState, loopBody glob last i node st = .ok st1 ∧
      st1.manager.m_stages = st.manager.m_stages ++
        (readerFiles glob parts.spec.m_path).map (readerStage parts) ∧
      st1.manager.m_log = st.manager.m_log ∧
      st1.inputs = st.inputs ++
        List.range' st.manager.m_stages.length (readerFiles glob parts.spec.m_path).length ∧
      st1.tags = registerTag st.tags parts.tag
        (some (st.manager.m_stages.length + (readerFiles glob parts.spec.m_path).length - 1)) := by
  have hc : currentInputs parts st.inputs = st.inputs := by simp [currentInputs, h0]
  obtain ⟨w, e1, e2, e3, e4, e5⟩ := wireNode_reader_ok glob last i parts st.manager
    (currentInputs parts st.inputs) hR h0
  rw [loopBody_of_extract glob last i node st parts hx, e1]
  refine ⟨_, rfl, e2, e3, ?_, ?_⟩
  · rw [← hc]; exact e4
  · simp only [e5]

/-- The body of the loop for a reader node with specified inputs. -/
theorem loopBody_reader_throw (glob : String → List String) (last i : Nat) (node : Json)
    (st : LoopState) (parts : NodeParts) (hx : extractNode node st.tags = .ok parts)
    (hR : readerCond parts.type i last = true) (h0 : parts.specifiedInputs ≠ []) :
    ∃ path rest, readerFiles glob parts.spec.m_path = path :: rest ∧
      loopBody glob last i node st =
        .error (.pdal_error ("JSON pipeline: Inputs not permitted for " ++
          " reader: '" ++ path ++ "'."),
          { st.manager with m_stages := st.manager.m_stages ++ [readerStage parts path] }) := by
  obtain ⟨path, rest, e1, e2⟩ := wireNode_reader_throw glob last i parts st.manager
    (currentInputs parts st.inputs) hR h0
  refine ⟨path, rest, e1, ?_⟩
  rw [loopBody_of_extract glob last i node st parts hx, e2]

/-- The body of the loop for a writer node. -/
theorem loopBody_writer (glob : String → List String) (last i : Nat) (node : Json)
    (st : LoopState) (parts : NodeParts) (hx : extractNode node st.tags = .ok parts)
    (hR : readerCond parts.type i last = false) (hW : writerCond parts.type = true) :
    ∃ st1 : LoopState, loopBody glob last i node st = .ok st1 ∧
      st1.manager.m_stages = st.manager.m_stages ++
        [writerStage parts (currentInputs parts st.inputs)] ∧
      st1.manager.m_log = st.manager.m_log ∧
      st1.inputs = [st.manager.m_stages.length] ∧
      st1.tags = registerTag st.tags parts.tag (some st.manager.m_stages.length) := by
  obtain ⟨w, e1, e2, e3, e4, e5⟩ := wireNode_writer glob last i parts st.manager
    (currentInputs parts st.inputs) hR hW
  rw [loopBody_of_extract glob last i node st parts hx, e1]
  exact ⟨_, rfl, e2, e3, e4, by simp only [e5]⟩

/-- The body of the loop for a filter node. -/
theorem loopBody_filter (glob : String → List String) (last i : Nat) (node : Json)
    (st : LoopState) (parts : NodeParts) (hx : extractNode node st.tags = .ok parts)
    (hR : readerCond parts.type i last = false) (hW : writerCond parts.type = false) :
    ∃ st1 : LoopState, loopBody glob last i node st = .ok st1 ∧
      st1.manager.m_stages = st.manager.m_stages ++
        [filterStage parts (currentInputs parts st.inputs)] ∧
      st1.manager.m_log = st.manager.m_log ∧
      st1.inputs = [st.manager.m_stages.length] ∧
      st1.tags = registerTag st.tags parts.tag (some st.manager.m_stages.length) := by
  obtain ⟨w, e1, e2, e3, e4, e5⟩ := wireNode_filter glob last i parts st.manager
    (currentInputs parts st.inputs) hR hW
  rw [loopBody_of_extract glob last i node st parts hx, e1]
  exact ⟨_, rfl, e2, e3, e4, by simp only [e5]⟩

/-- The files of a path whose glob has at most one match. -/
theorem readerFiles_single (glob : String → List String) (a : String)
    (h : (glob a).length ≤ 1) :
    ∃ pa, readerFiles glob a = [pa] ∧ (glob a = [] → pa = a) ∧ (glob a ≠ [] → glob a = [pa]) := by
  unfold readerFiles
  cases hg : glob a with
  | nil => exact ⟨a, by simp, fun _ => rfl, fun h => absurd rfl h⟩
  | cons x l =>
    cases l with
    | nil => exact ⟨x, by simp, fun h => by simp at h, fun _ => rfl⟩
    | cons y l => rw [hg] at h; simp at h

/-- The stages and the exception of a run in terms of the loop. -/
theorem parsePipeline_ok (glob : String → List String) (tree : Json) (manager : PipelineManager)
    (st : LoopState)
    (h : parseLoop glob tree (lastIndex tree) tree.size 0 { manager := manager } = .ok st) :
    (parsePipeline glob tree manager).thrown = none ∧
    (parsePipeline glob tree manager).manager.m_stages = st.manager.m_stages := by
  unfold parsePipeline
  rw [h]
  exact ⟨rfl, reportLeaves_stages _⟩

theorem parsePipeline_error (glob : String → List String) (tree : Json)
    (manager : PipelineManager) (e : Exn) (m : PipelineManager)
    (h : parseLoop glob tree (lastIndex tree) tree.size 0 { manager := manager } =
      .error (e, m)) :
    parsePipeline glob tree manager = { manager := m, thrown := some e } := by
  unfold parsePipeline
  rw [h]

/-- The run over the list of three bare paths whose first two match at most
one file each. -/
theorem run_reader_reader_writer (glob : String → List String) (a b c : String)
    (ha : (glob a).length ≤ 1) (hb : (glob b).length ≤ 1) :
    (parsePipeline glob (.array [.string a, .string b, .string c]) {}).thrown = none ∧
    ∃ pa pb, readerFiles glob a = [pa] ∧ readerFiles glob b = [pb] ∧
      (parsePipeline glob (.array [.string a, .string b, .string c]) {}).manager.m_stages =
        [readerStage { spec := { m_path := a } } pa, readerStage { spec := { m_path := b } } pb,
         writerStage { spec := { m_path := c } } [0, 1]] := by
  obtain ⟨pa, ea, -, -⟩ := readerFiles_single glob a ha
  obtain ⟨pb, eb, -, -⟩ := readerFiles_single glob b hb
  have hl : lastIndex (.array [.string a, .string b, .string c]) = 2 :=
    lastIndex_array [.string a, .string b, .string c] (by simp)
      (by simp only [List.length_cons, List.length_nil]; norm_num)
  obtain ⟨st1, b1, m1, -, i1, -⟩ := loopBody_reader_ok glob 2 0 (.string a)
    { manager := {} } { spec := { m_path := a } } rfl rfl rfl
  obtain ⟨st2, b2, m2, -, i2, -⟩ := loopBody_reader_ok glob 2 1 (.string b)
    st1 { spec := { m_path := b } } rfl rfl rfl
  obtain ⟨st3, b3, m3, -, -, -⟩ := loopBody_writer glob 2 2 (.string c)
    st2 { spec := { m_path := c } } rfl rfl rfl
  have hrun : parseLoop glob (.array [.string a, .string b, .string c])
      (lastIndex (.array [.string a, .string b, .string c]))
      (Json.array [.string a, .string b, .string c]).size 0 { manager := {} } = .ok st3 := by
    rw [hl]
    simp only [Json.size, List.length_cons, List.length_nil, parseLoop, Json.at_, List.get?,
      b1, b2, b3]
  obtain ⟨r1, r2⟩ := parsePipeline_ok glob _ {} st3 hrun
  refine ⟨r1, pa, pb, ea, eb, ?_⟩
  rw [r2, m3, m2, m1, ea, eb]
  have hi2 : st2.inputs = [0, 1] := by
    rw [i2, i1, m1, ea, eb]; rfl
  have hc : currentInputs { spec := { m_path := c } } st2.inputs = [0, 1] := by
    rw [hi2]; rfl
  rw [hc]
  rfl


/-- The type among the extracted parts of a node is the type of the node. -/
theorem extractNode_type (node : Json) (tags : TagMap) (parts : NodeParts)
    (hx : extractNode node tags = .ok parts) : parts.type = nodeType node := by
  cases node
  case string s => simp only [extractNode] at hx; cases hx; rfl
  all_goals
    simp only [extractNode] at hx
    simp only [nodeType]
    split at hx
    · cases hx
    · rename_i type node1 h1
      rw [h1]
      simp only []
      split at hx
      · cases hx
      · split at hx
        · cases hx
        · split at hx
          · cases hx
          · split at hx
            · cases hx
            · cases hx; rfl

/-- A body of the loop that ends has extracted the keys of its node. -/
theorem loopBody_ok_extract (glob : String → List String) (last i : Nat) (node : Json)
    (st st1 : LoopState) (h : loopBody glob last i node st = .ok st1) :
    ∃ parts, extractNode node st.tags = .ok parts := by
  unfold loopBody at h
  cases hx : extractNode node st.tags with
  | error e => rw [hx] at h; cases h
  | ok parts => exact ⟨parts, rfl⟩

/-- A run over reader nodes only keeps the input set it starts with as the
beginning of the input set it ends with. -/
theorem reader_segment (glob : String → List String) (elems : List Json)
    (hn : elems.length < 2 ^ 64) :
    ∀ (k i0 : Nat) (st1 st2 : LoopState), i0 + k ≤ elems.length →
      (∀ m, m < k → ∀ node, elems[i0 + m]? = some node →
        specRole (nodeType node) (i0 + m) elems.length = .Reader) →
      parseLoop glob (.array elems) (lastIndex (.array elems)) k i0 st1 = .ok st2 →
      ∃ later, st2.inputs = st1.inputs ++ later := by
  intro k
  induction k with
  | zero =>
    intro i0 st1 st2 _ _ h
    simp only [parseLoop] at h
    cases h
    exact ⟨[], by simp⟩
  | succ k ih =>
    intro i0 st1 st2 hle hread h
    have hi : i0 < elems.length := by omega
    rw [parseLoop_succ glob elems _ k i0 hi st1] at h
    cases hb : loopBody glob (lastIndex (.array elems)) i0 elems[i0] st1 with
    | error e => rw [hb] at h; cases h
    | ok st1a =>
      rw [hb] at h
      simp only [] at h
      obtain ⟨parts, hx⟩ := loopBody_ok_extract glob _ i0 _ st1 st1a hb
      have hrole := hread 0 (by omega) elems[i0] (by simp [List.getElem?_eq_getElem hi])
      rw [← extractNode_type _ _ _ hx] at hrole
      have hR := (cond_specRole parts.type i0 elems.length hi hn).1.mpr hrole
      have h0 : parts.specifiedInputs = [] := by
        by_contra hne
        obtain ⟨path, rest, -, e⟩ := loopBody_reader_throw glob (lastIndex (.array elems)) i0
          elems[i0] st1 parts hx hR hne
        rw [e] at hb; cases hb
      obtain ⟨st1b, e1, -, -, e4, -⟩ := loopBody_reader_ok glob (lastIndex (.array elems)) i0
        elems[i0] st1 parts hx hR h0
      rw [e1] at hb
      have heq : st1b = st1a := Except.ok.inj hb
      subst heq
      obtain ⟨later, hl⟩ := ih (i0 + 1) st1b st2 (by omega)
        (fun m hm node hnode => by
          have h1 : i0 + 1 + m = i0 + (m + 1) := by omega
          rw [h1] at hnode ⊢
          exact hread (m + 1) (by omega) node hnode) h
      exact ⟨_, by rw [hl, e4, List.append_assoc]⟩

/-- The run over a list of one bare path. -/
theorem run_single_path (glob : String → List String) (p : String) (manager : PipelineManager) :
    (parsePipeline glob (.array [.string p]) manager).thrown = none ∧
    (parsePipeline glob (.array [.string p]) manager).manager.m_stages =
      manager.m_stages ++ (readerFiles glob p).map (readerStage { spec := { m_path := p } }) := by
  have hl : lastIndex (.array [.string p]) = 0 :=
    lastIndex_array [.string p] (by simp) (by simp only [List.length_cons, List.length_nil]; norm_num)
  obtain ⟨st1, b1, m1, -, -, -⟩ := loopBody_reader_ok glob 0 0 (.string p)
    { manager := manager } { spec := { m_path := p } } rfl rfl rfl
  have hrun : parseLoop glob (.array [.string p]) (lastIndex (.array [.string p]))
      (Json.array [.string p]).size 0 { manager := manager } = .ok st1 := by
    rw [hl]
    simp only [Json.size, List.length_cons, List.length_nil, parseLoop, Json.at_, List.get?, b1]
  obtain ⟨r1, r2⟩ := parsePipeline_ok glob _ manager st1 hrun
  exact ⟨r1, by rw [r2, m1]⟩

/-! ### Facts about the extraction of the keys -/

theorem lookup_eraseP_ne (k k2 : String) (h : k ≠ k2) (ms : List (String × Json)) :
    (ms.eraseP (fun m => m.1 == k)).lookup k2 = ms.lookup k2 := by
  induction ms with
  | nil => rfl
  | cons a rest ih =>
    obtain ⟨a1, a2⟩ := a
    by_cases hak : a1 = k
    · subst hak
      have hne : (k2 == a1) = false := by simpa using fun h2 => h h2.symm
      simp [List.eraseP_cons, List.lookup_cons, hne]
    · have hf : (a1 == k) = false := by simpa using hak
      simp only [List.eraseP_cons, hf, cond_false, List.lookup_cons, Bool.false_eq_true, if_false]
      rw [ih]

/-- Erasing a key leaves the values of the other keys. -/
theorem find_erase_ne (node : Json) (k k2 : String) (h : k ≠ k2) :
    (node.erase k).find k2 = node.find k2 := by
  cases node <;> simp only [Json.erase, Json.find]
  exact lookup_eraseP_ne k k2 h _

theorem extractType_find (node node1 : Json) (type k : String)
    (h : extractType node = .ok (type, node1)) (hk : "type" ≠ k) :
    node1.find k = node.find k := by
  unfold extractType at h
  split at h
  · cases h; rfl
  · split at h
    · cases h; exact find_erase_ne _ _ _ hk
    · split at h
      · cases h; exact find_erase_ne _ _ _ hk
      · cases h

theorem extractFilename_find (node node2 : Json) (spec : FileSpec) (k : String)
    (h : extractFilename node = .ok (spec, node2)) (hk : "filename" ≠ k) :
    node2.find k = node.find k := by
  unfold extractFilename at h
  split at h
  · cases h; rfl
  · split at h
    · cases h
    · cases h; exact find_erase_ne _ _ _ hk

theorem extractTag_find (node node3 : Json) (tags : TagMap) (tag k : String)
    (h : extractTag node tags = .ok (tag, node3)) (hk : "tag" ≠ k) :
    node3.find k = node.find k := by
  unfold extractTag at h
  split at h
  · cases h; rfl
  · simp only [] at h
    split at h
    · cases h
    · split at h
      · cases h
      · cases h; exact find_erase_ne _ _ _ hk

/-- The extraction of the keys of a node that is no string, step by step. -/
theorem extractNode_steps (node : Json) (tags : TagMap) (parts : NodeParts)
    (hns : ∀ s, node ≠ .string s) (hx : extractNode node tags = .ok parts) :
    ∃ node1 node2 node3 node4,
      extractType node = .ok (parts.type, node1) ∧
      extractFilename node1 = .ok (parts.spec, node2) ∧
      extractTag node2 tags = .ok (parts.tag, node3) ∧
      extractInputs node3 tags = .ok (parts.specifiedInputs, node4) ∧
      extractOptions node4 = .ok parts.options := by
  cases node
  case string s => exact absurd rfl (hns s)
  all_goals
    simp only [extractNode] at hx
    split at hx
    · cases hx
    · rename_i type node1 h1
      split at hx
      · cases hx
      · rename_i spec node2 h2
        split at hx
        · cases hx
        · rename_i tag node3 h3
          split at hx
          · cases hx
          · rename_i inputs node4 h4
            split at hx
            · cases hx
            · rename_i options h5
              cases hx
              exact ⟨node1, node2, node3, node4, h1, h2, h3, h4, h5⟩

/-- A throw of `extractTag` leaves the body of the loop before any stage is
made. -/
theorem extractNode_tag_throw (node node1 node2 : Json) (tags : TagMap) (type : String)
    (spec : FileSpec) (e : Exn) (hns : ∀ s, node ≠ .string s)
    (h1 : extractType node = .ok (type, node1))
    (h2 : extractFilename node1 = .ok (spec, node2))
    (h3 : extractTag node2 tags = .error e) :
    extractNode node tags = .error e := by
  cases node
  case string s => exact absurd rfl (hns s)
  all_goals simp only [extractNode, h1, h2, h3]

/-- A throw of `extractInputs` leaves the body of the loop before any stage is
made. -/
theorem extractNode_inputs_throw (node node1 node2 node3 : Json) (tags : TagMap)
    (type tag : String) (spec : FileSpec) (e : Exn) (hns : ∀ s, node ≠ .string s)
    (h1 : extractType node = .ok (type, node1))
    (h2 : extractFilename node1 = .ok (spec, node2))
    (h3 : extractTag node2 tags = .ok (tag, node3))
    (h4 : extractInputs node3 tags = .error e) :
    extractNode node tags = .error e := by
  cases node
  case string s => exact absurd rfl (hns s)
  all_goals simp only [extractNode, h1, h2, h3, h4]

theorem find_some_not_string (node : Json) (k : String) (v : Json)
    (h : node.find k = some v) : ∀ s, node ≠ .string s := by
  intro s hs
  subst hs
  simp [Json.find] at h

/-! ### Facts about the tag map -/

theorem find_assign_self (tags : TagMap) (t : String) (h : Nat) :
    (tags.assign t h).find t = some h := by
  simp [TagMap.assign, TagMap.find, List.lookup_cons]

theorem lookup_filter_ne (t t2 : String) (hne : t2 ≠ t) (tags : TagMap) :
    (tags.filter (fun e => e.1 != t)).lookup t2 = tags.lookup t2 := by
  induction tags with
  | nil => rfl
  | cons a rest ih =>
    obtain ⟨a1, a2⟩ := a
    by_cases ha : a1 = t
    · subst ha
      have h1 : (t2 == a1) = false := by simpa using hne
      simp [List.filter_cons, List.lookup_cons, h1, ih]
    · have h1 : (a1 != t) = true := by simpa using ha
      simp only [List.filter_cons, h1, if_true, List.lookup_cons]
      rw [ih]

theorem find_assign_ne (tags : TagMap) (t t2 : String) (h : Nat) (hne : t2 ≠ t) :
    (tags.assign t h).find t2 = tags.find t2 := by
  have h1 : (t2 == t) = false := by simpa using hne
  simp only [TagMap.assign, TagMap.find, List.lookup_cons, h1]
  exact lookup_filter_ne t t2 hne tags

/-- A tag that is registered stays registered. -/
theorem registerTag_isSome (tags : TagMap) (tag t : String) (s : Option Nat)
    (h : (TagMap.find tags t).isSome = true) :
    (TagMap.find (registerTag tags tag s) t).isSome = true := by
  unfold registerTag
  split
  · cases s with
    | none => exact h
    | some hd =>
      by_cases ht : t = tag
      · subst ht; rw [find_assign_self]; rfl
      · rw [find_assign_ne _ _ _ _ ht]; exact h
  · exact h

/-- The tag map after a body of the loop that ends. -/
theorem loopBody_ok_tags (glob : String → List String) (last i : Nat) (node : Json)
    (st st1 : LoopState) (parts : NodeParts) (hx : extractNode node st.tags = .ok parts)
    (hb : loopBody glob last i node st = .ok st1) :
    ∃ h, st1.tags = registerTag st.tags parts.tag (some h) := by
  cases hR : readerCond parts.type i last with
  | true =>
    by_cases h0 : parts.specifiedInputs = []
    · obtain ⟨st2, e1, -, -, -, e5⟩ := loopBody_reader_ok glob last i node st parts hx hR h0
      rw [e1] at hb
      have heq : st2 = st1 := Except.ok.inj hb
      subst heq
      exact ⟨_, e5⟩
    · obtain ⟨path, rest, -, e⟩ := loopBody_reader_throw glob last i node st parts hx hR h0
      rw [e] at hb; cases hb
  | false =>
    cases hW : writerCond parts.type with
    | true =>
      obtain ⟨st2, e1, -, -, -, e5⟩ := loopBody_writer glob last i node st parts hx hR hW
      rw [e1] at hb
      have heq : st2 = st1 := Except.ok.inj hb
      subst heq
      exact ⟨_, e5⟩
    | false =>
      obtain ⟨st2, e1, -, -, -, e5⟩ := loopBody_filter glob last i node st parts hx hR hW
      rw [e1] at hb
      have heq : st2 = st1 := Except.ok.inj hb
      subst heq
      exact ⟨_, e5⟩

/-- A body of the loop that ends keeps every registered tag registered. -/
theorem loopBody_keeps_tags (glob : String → List String) (last i : Nat) (node : Json)
    (st st1 : LoopState) (t : String) (hb : loopBody glob last i node st = .ok st1)
    (h : (TagMap.find st.tags t).isSome = true) : (TagMap.find st1.tags t).isSome = true := by
  obtain ⟨parts, hx⟩ := loopBody_ok_extract glob last i node st st1 hb
  obtain ⟨hd, e⟩ := loopBody_ok_tags glob last i node st st1 parts hx hb
  rw [e]
  exact registerTag_isSome _ _ _ _ h

/-- A run of the loop that ends keeps every registered tag registered. -/
theorem parseLoop_keeps_tags (glob : String → List String) (tree : Json) (last : Nat)
    (t : String) :
    ∀ (k i : Nat) (st st1 : LoopState), parseLoop glob tree last k i st = .ok st1 →
      (TagMap.find st.tags t).isSome = true → (TagMap.find st1.tags t).isSome = true := by
  intro k
  induction k with
  | zero =>
    intro i st st1 h ht
    simp only [parseLoop] at h
    cases h
    exact ht
  | succ k ih =>
    intro i st st1 h ht
    simp only [parseLoop] at h
    split at h
    · cases h
    · rename_i node hn
      split at h
      · cases h
      · rename_i st2 hb
        exact ih (i + 1) st2 st1 h (loopBody_keeps_tags glob last i node st st2 t hb ht)

/-- What `extractTag` returns for a node with a string under `tag`: this
string, which is no registered tag and is a tag name. -/
theorem extractTag_string (node node3 : Json) (tags : TagMap) (t tag : String)
    (hf : node.find "tag" = some (.string t))
    (h : extractTag node tags = .ok (tag, node3)) :
    tag = t ∧ TagMap.find tags t = none ∧ t.data.length ≠ 0 := by
  unfold extractTag at h
  rw [hf] at h
  simp only [Json.is_null, Bool.false_eq_true, if_false] at h
  split at h
  · cases h
  · rename_i tag1 hr
    split at hr
    · cases hr
    · rename_i hnot
      cases hr
      split at h
      · cases h
      · rename_i hp
        cases h
        refine ⟨rfl, ?_, ?_⟩
        · cases hfind : TagMap.find tags t with
          | none => rfl
          | some v => rw [hfind] at hnot; simp at hnot
        · intro hlen
          apply hp
          have hd : t.data = [] := List.length_eq_zero.mp hlen
          simp [Stage.parseTagName, hd]

/-- The duplicate-tag throw of `extractTag`. -/
theorem extractTag_duplicate (node : Json) (tags : TagMap) (t : String)
    (hf : node.find "tag" = some (.string t)) (ht : (TagMap.find tags t).isSome = true) :
    extractTag node tags =
      .error (.pdal_error ("JSON pipeline: duplicate tag '" ++ t ++ "'.")) := by
  unfold extractTag
  rw [hf]
  simp only [Json.is_null, Bool.false_eq_true, if_false, ht, if_true]

/-- A body of the loop that ends has registered the string its node has under
`tag`. -/
theorem loopBody_registers_tag (glob : String → List String) (last i : Nat) (node : Json)
    (st st1 : LoopState) (t : String) (hf : node.find "tag" = some (.string t))
    (hb : loopBody glob last i node st = .ok st1) :
    (TagMap.find st1.tags t).isSome = true := by
  obtain ⟨parts, hx⟩ := loopBody_ok_extract glob last i node st st1 hb
  obtain ⟨node1, node2, node3, node4, h1, h2, h3, -, -⟩ :=
    extractNode_steps node st.tags parts (find_some_not_string node "tag" _ hf) hx
  have hf2 : node2.find "tag" = some (.string t) := by
    rw [extractFilename_find node1 node2 _ "tag" h2 (by decide),
      extractType_find node node1 _ "tag" h1 (by decide)]
    exact hf
  obtain ⟨ht, -, hlen⟩ := extractTag_string node2 node3 st.tags t parts.tag hf2 h3
  obtain ⟨hd, e⟩ := loopBody_ok_tags glob last i node st st1 parts hx hb
  rw [e, ht]
  have hl : (t.data.length != 0) = true := by simpa using hlen
  simp only [registerTag, hl, if_true]
  rw [find_assign_self]
  rfl

/-- A throw of the body of the loop at index `j`, after the iterations before
it have ended, is the throw of the whole run. -/
theorem parsePipeline_fails_at (glob : String → List String) (elems : List Json) (j : Nat)
    (hj : j < elems.length) (manager : PipelineManager) (st : LoopState) (e : Exn)
    (m : PipelineManager)
    (hpre : parseLoop glob (.array elems) (lastIndex (.array elems)) j 0
      { manager := manager } = .ok st)
    (hb : loopBody glob (lastIndex (.array elems)) j elems[j] st = .error (e, m)) :
    parsePipeline glob (.array elems) manager = { manager := m, thrown := some e } := by
  apply parsePipeline_error
  have hsize : (Json.array elems).size = j + ((elems.length - j - 1) + 1) := by
    simp only [Json.size]; omega
  rw [hsize, parseLoop_add, hpre]
  simp only [Nat.zero_add]
  rw [parseLoop_succ glob elems _ _ j hj, hb]

/-- After the first `j` iterations the string that a node before `j` has under
`tag` is registered. -/
theorem prefix_tag_registered (glob : String → List String) (elems : List Json) (i j : Nat)
    (hi : i < elems.length) (hij : i < j) (st0 st : LoopState) (t : String)
    (hf : elems[i].find "tag" = some (.string t))
    (hpre : parseLoop glob (.array elems) (lastIndex (.array elems)) j 0 st0 = .ok st) :
    (TagMap.find st.tags t).isSome = true := by
  have hsplit : j = i + ((j - i - 1) + 1) := by omega
  rw [hsplit, parseLoop_add] at hpre
  cases h1 : parseLoop glob (.array elems) (lastIndex (.array elems)) i 0 st0 with
  | error e => rw [h1] at hpre; cases hpre
  | ok sti =>
    rw [h1] at hpre
    simp only [Nat.zero_add] at hpre
    rw [parseLoop_succ glob elems _ _ i hi] at hpre
    cases h2 : loopBody glob (lastIndex (.array elems)) i elems[i] sti with
    | error e => rw [h2] at hpre; cases hpre
    | ok sti1 =>
      rw [h2] at hpre
      exact parseLoop_keeps_tags glob _ _ t _ _ sti1 st hpre
        (loopBody_registers_tag glob _ i _ sti sti1 t hf h2)

/-! ### Facts about the extraction of the inputs -/

theorem stringList_eq (elems : List Json) :
    ∀ names, stringList elems = some names → elems = names.map Json.string := by
  induction elems with
  | nil => intro names h; simp only [stringList] at h; cases h; rfl
  | cons a rest ih =>
    intro names h
    cases a
    case string s =>
      simp only [stringList] at h
      split at h
      · rename_i names1 h1
        cases h
        simp [ih names1 h1]
      · cases h
    all_goals simp [stringList] at h

theorem extractInputList_ok (tags : TagMap) (names : List String) :
    ∀ (hs acc : List Nat), names.map (TagMap.find tags) = hs.map some →
      extractInputList tags (names.map Json.string) acc = .ok (acc ++ hs) := by
  induction names with
  | nil =>
    intro hs acc h
    cases hs with
    | nil => simp [extractInputList]
    | cons a l => simp at h
  | cons name rest ih =>
    intro hs acc h
    cases hs with
    | nil => simp at h
    | cons hd tl =>
      simp only [List.map_cons, List.cons.injEq] at h
      simp only [List.map_cons, extractInputList, handleInputTag, h.1]
      rw [ih tl (acc ++ [hd]) h.2]
      simp

theorem extractInputList_undefined (tags : TagMap) (u : String) (post : List String)
    (hu : TagMap.find tags u = none) (pre : List String) :
    ∀ (acc : List Nat), (∀ x ∈ pre, (TagMap.find tags x).isSome = true) →
      extractInputList tags ((pre ++ u :: post).map Json.string) acc = .error (undefinedTag u) := by
  induction pre with
  | nil =>
    intro acc _
    simp only [List.nil_append, List.map_cons, extractInputList, handleInputTag, hu]
    rfl
  | cons x pre ih =>
    intro acc hpre
    have hx := hpre x (List.mem_cons_self _ _)
    cases hf : TagMap.find tags x with
    | none => rw [hf] at hx; cases hx
    | some hd =>
      simp only [List.cons_append, List.map_cons, extractInputList, handleInputTag, hf]
      exact ih (acc ++ [hd]) (fun y hy => hpre y (List.mem_cons_of_mem _ hy))

/-- When every tag that `inputs` names is registered, `extractInputs` returns
the stages bound to the tags, in declared order. -/
theorem extractInputs_ok (node val : Json) (tags : TagMap) (names : List String)
    (hs : List Nat) (hf : node.find "inputs" = some val)
    (hnames : declaredInputs val = some names)
    (hres : names.map (TagMap.find tags) = hs.map some) :
    extractInputs node tags = .ok (hs, node.erase "inputs") := by
  unfold extractInputs
  rw [hf]
  cases val
  case string s =>
    simp only [declaredInputs] at hnames
    cases hnames
    cases hs with
    | nil => simp at hres
    | cons hd tl =>
      simp only [List.map_cons, List.map_nil, List.cons.injEq] at hres
      have htl : tl = [] := by
        cases tl with
        | nil => rfl
        | cons a l => simp at hres
      subst htl
      simp only [handleInputTag, hres.1, List.nil_append]
  case array elems =>
    simp only [declaredInputs] at hnames
    rw [stringList_eq elems names hnames]
    simp only [extractInputList_ok tags names hs [] hres, List.nil_append]
  all_goals simp [declaredInputs] at hnames

/-- When `inputs` names a tag that is not registered, the tags before it being
registered, `extractInputs` throws the undefined-tag error naming it. -/
theorem extractInputs_undefined (node val : Json) (tags : TagMap) (names : List String)
    (pre : List String) (u : String) (post : List String)
    (hf : node.find "inputs" = some val)
    (hnames : declaredInputs val = some names)
    (hsplit : names = pre ++ u :: post)
    (hpre : ∀ x ∈ pre, (TagMap.find tags x).isSome = true)
    (hu : TagMap.find tags u = none) :
    extractInputs node tags = .error (undefinedTag u) := by
  unfold extractInputs
  rw [hf]
  cases val
  case string s =>
    simp only [declaredInputs] at hnames
    cases hnames
    cases pre with
    | nil =>
      simp only [List.nil_append, List.cons.injEq] at hsplit
      rw [hsplit.1]
      simp only [handleInputTag, hu]
      rfl
    | cons a l =>
      simp only [List.cons_append, List.cons.injEq] at hsplit
      have := hsplit.2
      simp at this
  case array elems =>
    simp only [declaredInputs] at hnames
    rw [stringList_eq elems names hnames, hsplit]
    simp only [extractInputList_undefined tags u post hu pre [] hpre]
  all_goals simp [declaredInputs] at hnames

/-- The specified inputs among the extracted parts of a node are the stages
the tags under `inputs` are bound to. -/
theorem extractNode_inputs (node val : Json) (tags : TagMap) (parts : NodeParts)
    (names : List String) (hs : List Nat)
    (hx : extractNode node tags = .ok parts)
    (hf : node.find "inputs" = some val)
    (hnames : declaredInputs val = some names)
    (hres : names.map (TagMap.find tags) = hs.map some) :
    parts.specifiedInputs = hs := by
  obtain ⟨node1, node2, node3, node4, h1, h2, h3, h4, -⟩ :=
    extractNode_steps node tags parts (find_some_not_string node "inputs" _ hf) hx
  have hf3 : node3.find "inputs" = some val := by
    rw [extractTag_find node2 node3 tags _ "inputs" h3 (by decide),
      extractFilename_find node1 node2 _ "inputs" h2 (by decide),
      extractType_find node node1 _ "inputs" h1 (by decide)]
    exact hf
  rw [extractInputs_ok node3 val tags names hs hf3 hnames hres] at h4
  cases h4
  rfl

/-- The stages a body of the loop that ends has added: the Readers among them
have no inputs. -/
theorem loopBody_ok_stages (glob : String → List String) (last i : Nat) (node : Json)
    (st st1 : LoopState) (hb : loopBody glob last i node st = .ok st1) :
    ∃ new : List Stage, st1.manager.m_stages = st.manager.m_stages ++ new ∧
      ∀ s ∈ new, s.role = .Reader → s.m_inputs = [] := by
  obtain ⟨parts, hx⟩ := loopBody_ok_extract glob last i node st st1 hb
  cases hR : readerCond parts.type i last with
  | true =>
    by_cases h0 : parts.specifiedInputs = []
    · obtain ⟨st2, e1, e2, -, -, -⟩ := loopBody_reader_ok glob last i node st parts hx hR h0
      rw [e1] at hb
      have heq : st2 = st1 := Except.ok.inj hb
      subst heq
      refine ⟨_, e2, ?_⟩
      intro s hs _
      obtain ⟨path, -, rfl⟩ := List.mem_map.mp hs
      rfl
    · obtain ⟨path, rest, -, e⟩ := loopBody_reader_throw glob last i node st parts hx hR h0
      rw [e] at hb; cases hb
  | false =>
    cases hW : writerCond parts.type with
    | true =>
      obtain ⟨st2, e1, e2, -, -, -⟩ := loopBody_writer glob last i node st parts hx hR hW
      rw [e1] at hb
      have heq : st2 = st1 := Except.ok.inj hb
      subst heq
      refine ⟨_, e2, ?_⟩
      intro s hs hr
      rw [List.mem_singleton.mp hs] at hr
      cases hr
    | false =>
      obtain ⟨st2, e1, e2, -, -, -⟩ := loopBody_filter glob last i node st parts hx hR hW
      rw [e1] at hb
      have heq : st2 = st1 := Except.ok.inj hb
      subst heq
      refine ⟨_, e2, ?_⟩
      intro s hs hr
      rw [List.mem_singleton.mp hs] at hr
      cases hr

/-- A property of the loop state that every body of the loop that ends keeps
holds after a run that ends. -/
theorem parseLoop_invariant (glob : String → List String) (tree : Json) (last : Nat)
    (P : LoopState → Prop)
    (hstep : ∀ (i : Nat) (node : Json) (st st1 : LoopState), P st →
      loopBody glob last i node st = .ok st1 → P st1) :
    ∀ (k i : Nat) (st st1 : LoopState), P st →
      parseLoop glob tree last k i st = .ok st1 → P st1 := by
  intro k
  induction k with
  | zero =>
    intro i st st1 hP h
    simp only [parseLoop] at h
    cases h
    exact hP
  | succ k ih =>
    intro i st st1 hP h
    simp only [parseLoop] at h
    split at h
    · cases h
    · rename_i node hn
      split at h
      · cases h
      · rename_i st2 hb
        exact ih (i + 1) st2 st1 (hstep i node st st2 hP hb) h

/-- A run that ends without a throw is a run of the loop that ends. -/
theorem parsePipeline_thrown_none (glob : String → List String) (tree : Json)
    (manager : PipelineManager) (h : (parsePipeline glob tree manager).thrown = none) :
    ∃ st, parseLoop glob tree (lastIndex tree) tree.size 0 { manager := manager } = .ok st ∧
      (parsePipeline glob tree manager).manager.m_stages = st.manager.m_stages := by
  cases hl : parseLoop glob tree (lastIndex tree) tree.size 0 { manager := manager } with
  | error e =>
    obtain ⟨e1, m⟩ := e
    rw [parsePipeline_error glob tree manager e1 m hl] at h
    cases h
  | ok st => exact ⟨st, rfl, (parsePipeline_ok glob tree manager st hl).2⟩

/-- Whether it ends or throws, the body of the loop only appends stages. -/
theorem loopBody_extends (glob : String → List String) (last i : Nat) (node : Json)
    (st : LoopState) :
    ∃ new : List Stage,
      (managerAfter (loopBody glob last i node st)).m_stages = st.manager.m_stages ++ new := by
  cases hx : extractNode node st.tags with
  | error e =>
    refine ⟨[], ?_⟩
    simp only [loopBody, hx, managerAfter, List.append_nil]
  | ok parts =>
    obtain ⟨new, e1, -, -⟩ := loopBody_created glob last i node st parts hx
    exact ⟨new, e1⟩

/-- Whether it ends or throws, a run of the loop only appends stages. -/
theorem parseLoop_extends (glob : String → List String) (tree : Json) (last : Nat) :
    ∀ (k i : Nat) (st : LoopState), ∃ new : List Stage,
      (managerAfter (parseLoop glob tree last k i st)).m_stages =
        st.manager.m_stages ++ new := by
  intro k
  induction k with
  | zero => intro i st; exact ⟨[], by simp [parseLoop, managerAfter]⟩
  | succ k ih =>
    intro i st
    simp only [parseLoop]
    cases tree.at_ i with
    | error e => exact ⟨[], by simp [managerAfter]⟩
    | ok node =>
      simp only []
      obtain ⟨new1, e1⟩ := loopBody_extends glob last i node st
      cases hb : loopBody glob last i node st with
      | error e =>
        rw [hb] at e1
        exact ⟨new1, e1⟩
      | ok st1 =>
        rw [hb] at e1
        simp only [managerAfter] at e1
        simp only []
        obtain ⟨new2, e2⟩ := ih (i + 1) st1
        exact ⟨new1 ++ new2, by rw [e2, e1, List.append_assoc]⟩

/-- The stages of the manager after a call of `parsePipeline` are those of
the run of the loop. -/
theorem parsePipeline_stages (glob : String → List String) (tree : Json)
    (manager : PipelineManager) :
    (parsePipeline glob tree manager).manager.m_stages =
      (managerAfter (parseLoop glob tree (lastIndex tree) tree.size 0
        { manager := manager })).m_stages := by
  unfold parsePipeline
  cases parseLoop glob tree (lastIndex tree) tree.size 0 { manager := manager } with
  | error e => rfl
  | ok st => exact reportLeaves_stages _

theorem extractInputList_mem (tags : TagMap) (elems : List Json) :
    ∀ (acc res : List Nat), extractInputList tags elems acc = .ok res →
      ∀ h ∈ res, h ∈ acc ∨ ∃ t, TagMap.find tags t = some h := by
  induction elems with
  | nil =>
    intro acc res hr h hh
    simp only [extractInputList] at hr
    cases hr
    exact Or.inl hh
  | cons a rest ih =>
    intro acc res hr h hh
    cases a
    case string tag =>
      simp only [extractInputList, handleInputTag] at hr
      cases hf : TagMap.find tags tag with
      | none => rw [hf] at hr; cases hr
      | some s =>
        rw [hf] at hr
        simp only [] at hr
        rcases ih (acc ++ [s]) res hr h hh with h1 | h1
        · rcases List.mem_append.mp h1 with h2 | h2
          · exact Or.inl h2
          · rw [List.mem_singleton.mp h2]
            exact Or.inr ⟨tag, hf⟩
        · exact Or.inr h1
    all_goals (simp only [extractInputList] at hr; cases hr)

/-- Every stage `extractInputs` returns is bound to a tag. -/
theorem extractInputs_mem (node node4 : Json) (tags : TagMap) (hs : List Nat)
    (hr : extractInputs node tags = .ok (hs, node4)) :
    ∀ h ∈ hs, ∃ t, TagMap.find tags t = some h := by
  intro h hh
  unfold extractInputs at hr
  split at hr
  · cases hr; cases hh
  · rename_i val hf
    cases val
    case string tag =>
      simp only [handleInputTag] at hr
      cases hfind : TagMap.find tags tag with
      | none => rw [hfind] at hr; cases hr
      | some s =>
        rw [hfind] at hr
        simp only [List.nil_append] at hr
        cases hr
        rw [List.mem_singleton.mp hh]
        exact ⟨tag, hfind⟩
    case array elems =>
      simp only [] at hr
      cases hl : extractInputList tags elems [] with
      | error e => rw [hl] at hr; cases hr
      | ok res =>
        rw [hl] at hr
        cases hr
        rcases extractInputList_mem tags elems [] hs hl h hh with h1 | h1
        · cases h1
        · exact h1
    all_goals (simp only [] at hr; cases hr)

/-- Every specified input of a node is bound to a tag. -/
theorem extractNode_inputs_mem (node : Json) (tags : TagMap) (parts : NodeParts)
    (hx : extractNode node tags = .ok parts) :
    ∀ h ∈ parts.specifiedInputs, ∃ t, TagMap.find tags t = some h := by
  by_cases hs : ∃ s, node = .string s
  · obtain ⟨s, rfl⟩ := hs
    simp only [extractNode] at hx
    cases hx
    intro h hh
    cases hh
  · obtain ⟨node1, node2, node3, node4, -, -, -, h4, -⟩ :=
      extractNode_steps node tags parts (fun s hn => hs ⟨s, hn⟩) hx
    exact extractInputs_mem node3 node4 tags _ h4

theorem registerTag_find (tags : TagMap) (tag t : String) (x h : Nat)
    (hf : TagMap.find (registerTag tags tag (some x)) t = some h) :
    h = x ∨ TagMap.find tags t = some h := by
  unfold registerTag at hf
  split at hf
  · by_cases ht : t = tag
    · subst ht
      rw [find_assign_self] at hf
      cases hf
      exact Or.inl rfl
    · rw [find_assign_ne _ _ _ _ ht] at hf
      exact Or.inr hf
  · exact Or.inr hf

theorem currentInputs_mem (parts : NodeParts) (inputs : List Nat) (h : Nat)
    (hh : h ∈ currentInputs parts inputs) : h ∈ parts.specifiedInputs ∨ h ∈ inputs := by
  unfold currentInputs at hh
  split at hh
  · exact Or.inl hh
  · exact Or.inr hh

/-- The invariant after stages without inputs pointing forward are appended.
The new stage list, input set and tag map are given by what they contain. -/
theorem handlesEarlier_step (n0 : Nat) (st st1 : LoopState) (new : List Stage)
    (hinv : handlesEarlier n0 st)
    (hstages : st1.manager.m_stages = st.manager.m_stages ++ new)
    (hnew : ∀ (k : Nat) (s : Stage), new[k]? = some s →
      ∀ h ∈ s.m_inputs, n0 ≤ h ∧ h < st.manager.m_stages.length + k)
    (hinputs : ∀ h ∈ st1.inputs, n0 ≤ h ∧ h < st.manager.m_stages.length + new.length)
    (htags : ∀ (t : String) (h : Nat), TagMap.find st1.tags t = some h →
      n0 ≤ h ∧ h < st.manager.m_stages.length + new.length) :
    handlesEarlier n0 st1 := by
  obtain ⟨i1, i2, -, -⟩ := hinv
  have hlen : st1.manager.m_stages.length = st.manager.m_stages.length + new.length := by
    rw [hstages, List.length_append]
  refine ⟨by omega, ?_, ?_, ?_⟩
  · intro k s hk hs h hh
    rw [hstages] at hs
    by_cases hlt : k < st.manager.m_stages.length
    · rw [List.getElem?_append_left hlt] at hs
      exact i2 k s hk hs h hh
    · rw [List.getElem?_append_right (by omega)] at hs
      have := hnew _ s hs h hh
      omega
  · intro h hh
    rw [hlen]
    exact hinputs h hh
  · intro t h hf
    rw [hlen]
    exact htags t h hf

/-- A body of the loop that ends keeps the invariant. -/
theorem loopBody_handlesEarlier (glob : String → List String) (last i : Nat) (node : Json)
    (n0 : Nat) (st st1 : LoopState) (hinv : handlesEarlier n0 st)
    (hb : loopBody glob last i node st = .ok st1) : handlesEarlier n0 st1 := by
  obtain ⟨parts, hx⟩ := loopBody_ok_extract glob last i node st st1 hb
  have hinv2 := hinv
  obtain ⟨i1, i2, i3, i4⟩ := hinv2
  have hcur : ∀ h ∈ currentInputs parts st.inputs,
      n0 ≤ h ∧ h < st.manager.m_stages.length := by
    intro h hh
    rcases currentInputs_mem parts st.inputs h hh with h1 | h1
    · obtain ⟨t, ht⟩ := extractNode_inputs_mem node st.tags parts hx h h1
      exact i4 t h ht
    · exact i3 h h1
  cases hR : readerCond parts.type i last with
  | true =>
    by_cases h0 : parts.specifiedInputs = []
    · obtain ⟨st2, e1, e2, -, e4, e5⟩ := loopBody_reader_ok glob last i node st parts hx hR h0
      rw [e1] at hb
      have heq : st2 = st1 := Except.ok.inj hb
      subst heq
      have hpos : 0 < (readerFiles glob parts.spec.m_path).length :=
        List.length_pos.mpr (readerFiles_ne_nil glob _)
      apply handlesEarlier_step n0 st st2 _ hinv e2
      · intro k s hs h hh
        rw [List.getElem?_map] at hs
        cases hg : (readerFiles glob parts.spec.m_path)[k]? with
        | none => rw [hg] at hs; cases hs
        | some path =>
          rw [hg] at hs
          simp only [Option.map_some'] at hs
          cases hs
          cases hh
      · intro h hh
        rw [e4] at hh
        rw [List.length_map]
        rcases List.mem_append.mp hh with h1 | h1
        · have := i3 h h1
          omega
        · have := List.mem_range'_1.mp h1
          omega
      · intro t h hf
        rw [e5] at hf
        rw [List.length_map]
        rcases registerTag_find _ _ _ _ _ hf with h1 | h1
        · omega
        · have := i4 t h h1
          omega
    · obtain ⟨path, rest, -, e⟩ := loopBody_reader_throw glob last i node st parts hx hR h0
      rw [e] at hb; cases hb
  | false =>
    have hone : ∀ (w : Stage), w.m_inputs = currentInputs parts st.inputs →
        ∀ (k : Nat) (s : Stage), [w][k]? = some s →
          ∀ h ∈ s.m_inputs, n0 ≤ h ∧ h < st.manager.m_stages.length + k := by
      intro w hw k s hs h hh
      cases k with
      | zero =>
        simp only [List.getElem?_cons_zero, Option.some.injEq] at hs
        subst hs
        rw [hw] at hh
        exact hcur h hh
      | succ k => simp at hs
    cases hW : writerCond parts.type with
    | true =>
      obtain ⟨st2, e1, e2, -, e4, e5⟩ := loopBody_writer glob last i node st parts hx hR hW
      rw [e1] at hb
      have heq : st2 = st1 := Except.ok.inj hb
      subst heq
      apply handlesEarlier_step n0 st st2 _ hinv e2 (hone _ rfl)
      · intro h hh
        rw [e4] at hh
        rw [List.mem_singleton.mp hh]
        simp only [List.length_singleton]
        omega
      · intro t h hf
        rw [e5] at hf
        simp only [List.length_singleton]
        rcases registerTag_find _ _ _ _ _ hf with h1 | h1
        · omega
        · have := i4 t h h1
          omega
    | false =>
      obtain ⟨st2, e1, e2, -, e4, e5⟩ := loopBody_filter glob last i node st parts hx hR hW
      rw [e1] at hb
      have heq : st2 = st1 := Except.ok.inj hb
      subst heq
      apply handlesEarlier_step n0 st st2 _ hinv e2 (hone _ rfl)
      · intro h hh
        rw [e4] at hh
        rw [List.mem_singleton.mp hh]
        simp only [List.length_singleton]
        omega
      · intro t h hf
        rw [e5] at hf
        simp only [List.length_singleton]
        rcases registerTag_find _ _ _ _ _ hf with h1 | h1
        · omega
        · have := i4 t h h1
          omega

/-! ### Facts about the syntax of tags -/

theorem takeWhile_length_eq_iff (p : Char → Bool) (l : List Char) :
    (l.takeWhile p).length = l.length ↔ l.all p = true := by
  induction l with
  | nil => simp
  | cons c rest ih =>
    cases hp : p c with
    | true => simp [List.takeWhile_cons, hp, ih]
    | false => simp [List.takeWhile_cons, hp]

/-- The check of lines 183-184 accepts exactly the tag names. -/
theorem parseTagName_accepts_iff (t : String) :
    (!(Stage.parseTagName t 0).1 || (Stage.parseTagName t 0).2 != t.data.length) = false ↔
      validTagName t = true := by
  unfold Stage.parseTagName validTagName
  simp only [List.drop_zero]
  cases hd : t.data with
  | nil => simp
  | cons c rest =>
    simp only []
    cases hc : c.isAlpha with
    | false => simp
    | true =>
      simp only [if_true, Bool.not_true, Bool.false_or, Bool.true_and, List.length_cons,
        bne_eq_false_iff_eq]
      rw [← takeWhile_length_eq_iff]
      omega

/-- What `extractTag` does with a node that has the key `tag`. -/
theorem extractTag_of_key (node val : Json) (tags : TagMap)
    (hf : node.find "tag" = some val) :
    (val = .null → extractTag node tags = .error (invalidTagName "")) ∧
    (val.is_null = false → val.is_string = false →
      extractTag node tags =
        .error (.pdal_error "JSON pipeline: tag must be specified as a string.")) ∧
    (∀ t, val = .string t → validTagName t = false → TagMap.find tags t = none →
      extractTag node tags = .error (invalidTagName t)) ∧
    (∀ t, val = .string t → validTagName t = true → TagMap.find tags t = none →
      extractTag node tags = .ok (t, node.erase "tag")) := by
  refine ⟨?_, ?_, ?_, ?_⟩
  · intro hv
    subst hv
    have hinv : (!(Stage.parseTagName "" 0).1 ||
        (Stage.parseTagName "" 0).2 != ("" : String).data.length) = true := by decide
    simp only [extractTag, hf, Json.is_null, if_true, hinv]
    rfl
  · intro hn hs
    cases val <;> simp [Json.is_null, Json.is_string] at hn hs
    all_goals simp [extractTag, hf, Json.is_null]
  · intro t hv hvalid hnone
    subst hv
    have hinv : (!(Stage.parseTagName t 0).1 ||
        (Stage.parseTagName t 0).2 != t.data.length) = true := by
      cases hc : (!(Stage.parseTagName t 0).1 ||
          (Stage.parseTagName t 0).2 != t.data.length) with
      | true => rfl
      | false =>
        rw [(parseTagName_accepts_iff t).mp hc] at hvalid
        cases hvalid
    simp only [extractTag, hf, Json.is_null, Bool.false_eq_true, if_false, hnone,
      Option.isSome_none, hinv, if_true]
    rfl
  · intro t hv hvalid hnone
    subst hv
    have hacc := (parseTagName_accepts_iff t).mpr hvalid
    simp only [extractTag, hf, Json.is_null, Bool.false_eq_true, if_false, hnone,
      Option.isSome_none, hacc]

/-- The tag `extractTag` returns is empty or a tag name. -/
theorem extractTag_ok_valid (node node3 : Json) (tags : TagMap) (tag : String)
    (h : extractTag node tags = .ok (tag, node3)) :
    tag = "" ∨ validTagName tag = true := by
  unfold extractTag at h
  split at h
  · cases h; exact Or.inl rfl
  · simp only [] at h
    split at h
    · cases h
    · split at h
      · cases h
      · rename_i hacc
        cases h
        right
        apply (parseTagName_accepts_iff _).mp
        simpa using hacc

/-- The tag among the extracted parts of a node is empty or a tag name. -/
theorem extractNode_tag_valid (node : Json) (tags : TagMap) (parts : NodeParts)
    (hx : extractNode node tags = .ok parts) :
    parts.tag = "" ∨ validTagName parts.tag = true := by
  by_cases hs : ∃ s, node = .string s
  · obtain ⟨s, rfl⟩ := hs
    simp only [extractNode] at hx
    cases hx
    exact Or.inl rfl
  · obtain ⟨node1, node2, node3, node4, -, -, h3, -, -⟩ :=
      extractNode_steps node tags parts (fun s hn => hs ⟨s, hn⟩) hx
    exact extractTag_ok_valid node2 node3 tags _ h3

/-- A body of the loop that ends registers tag names only. -/
theorem loopBody_tags_valid (glob : String → List String) (last i : Nat) (node : Json)
    (st st1 : LoopState)
    (hP : ∀ t, (TagMap.find st.tags t).isSome = true → validTagName t = true)
    (hb : loopBody glob last i node st = .ok st1) :
    ∀ t, (TagMap.find st1.tags t).isSome = true → validTagName t = true := by
  obtain ⟨parts, hx⟩ := loopBody_ok_extract glob last i node st st1 hb
  obtain ⟨hd, e⟩ := loopBody_ok_tags glob last i node st st1 parts hx hb
  intro t ht
  rw [e] at ht
  unfold registerTag at ht
  split at ht
  · rename_i hlen
    by_cases heq : t = parts.tag
    · rcases extractNode_tag_valid node st.tags parts hx with h1 | h1
      · rw [h1] at hlen
        simp at hlen
      · rw [heq]; exact h1
    · rw [find_assign_ne _ _ _ _ heq] at ht
      exact hP t ht
  · exact hP t ht

/-- A node without the key `filename` has the empty locator. -/
theorem extractNode_no_filename (node : Json) (tags : TagMap) (parts : NodeParts)
    (hns : ∀ s, node ≠ .string s)
    (hx : extractNode node tags = .ok parts) (hf : node.find "filename" = none) :
    parts.spec = {} := by
  obtain ⟨node1, node2, node3, node4, h1, h2, -, -, -⟩ := extractNode_steps node tags parts hns hx
  have hf1 : node1.find "filename" = none := by
    rw [extractType_find node node1 _ "filename" h1 (by decide)]
    exact hf
  simp only [extractFilename, hf1] at h2
  exact (Prod.mk.inj (Except.ok.inj h2)).1.symm

/-! ### Facts about the log and the leaves -/

/-- A body of the loop that ends writes nothing to the log. -/
theorem loopBody_ok_log (glob : String → List String) (last i : Nat) (node : Json)
    (st st1 : LoopState) (hb : loopBody glob last i node st = .ok st1) :
    st1.manager.m_log = st.manager.m_log := by
  obtain ⟨parts, hx⟩ := loopBody_ok_extract glob last i node st st1 hb
  cases hR : readerCond parts.type i last with
  | true =>
    by_cases h0 : parts.specifiedInputs = []
    · obtain ⟨st2, e1, -, e3, -, -⟩ := loopBody_reader_ok glob last i node st parts hx hR h0
      rw [e1] at hb
      have heq : st2 = st1 := Except.ok.inj hb
      subst heq
      exact e3
    · obtain ⟨path, rest, -, e⟩ := loopBody_reader_throw glob last i node st parts hx hR h0
      rw [e] at hb; cases hb
  | false =>
    cases hW : writerCond parts.type with
    | true =>
      obtain ⟨st2, e1, -, e3, -, -⟩ := loopBody_writer glob last i node st parts hx hR hW
      rw [e1] at hb
      have heq : st2 = st1 := Except.ok.inj hb
      subst heq
      exact e3
    | false =>
      obtain ⟨st2, e1, -, e3, -, -⟩ := loopBody_filter glob last i node st parts hx hR hW
      rw [e1] at hb
      have heq : st2 = st1 := Except.ok.inj hb
      subst heq
      exact e3

theorem foldl_logError_log (names : List (Nat × Stage)) :
    ∀ m : PipelineManager,
      (names.foldl (fun m s => m.logError ("    " ++ leafName s.2 ++ "\n")) m).m_log =
        m.m_log ++ names.map (fun s => "    " ++ leafName s.2 ++ "\n") := by
  induction names with
  | nil => intro m; simp
  | cons a rest ih =>
    intro m
    simp only [List.foldl_cons, List.map_cons]
    rw [ih]
    simp [PipelineManager.logError]

/-- The leaves depend on the stages only. -/
theorem leaves_congr (m1 m2 : PipelineManager) (h : m1.m_stages = m2.m_stages) :
    m1.leaves = m2.leaves := by
  simp only [PipelineManager.leaves, h]

/-- The log after the warning about several leaves. -/
theorem reportLeaves_log (m : PipelineManager) :
    (reportLeaves m).m_log =
      if m.leaves.length > 1 then
        m.m_log ++ ["Pipeline has multiple leaf nodes.\n",
          "Only the first of the following leaf nodes will be run.\n"] ++
          m.leaves.map (fun s => "    " ++ leafName s.2 ++ "\n")
      else m.m_log := by
  unfold reportLeaves
  by_cases h : m.leaves.length > 1
  · simp only [h, if_true]
    rw [foldl_logError_log]
    simp [PipelineManager.logError]
  · simp only [h, if_false]

/-- The leaves are the stages that are no input of a stage, each once. -/
theorem leaves_spec (m : PipelineManager) :
    (m.leaves.map Prod.fst).Nodup ∧
    ∀ (h : Nat) (s : Stage), (h, s) ∈ m.leaves ↔
      (m.m_stages[h]? = some s ∧ ∀ st ∈ m.m_stages, h ∉ st.m_inputs) := by
  constructor
  · unfold PipelineManager.leaves
    have hsub : List.Sublist ((m.m_stages.enum.filter
        (fun hs => m.m_stages.all (fun st => !st.m_inputs.contains hs.1))).map Prod.fst)
        (m.m_stages.enum.map Prod.fst) := (List.filter_sublist _).map _
    rw [List.enum_map_fst] at hsub
    exact (List.nodup_range _).sublist hsub
  · intro h s
    unfold PipelineManager.leaves
    rw [List.mem_filter, List.mk_mem_enum_iff_getElem?]
    simp [List.all_eq_true]

/-! ### Facts about the extraction of the options -/

/-- What `extractOption` does with a value that is no object. -/
theorem extractOption_eq (options : Options) (name : String) (node : Json)
    (h : node.is_object = false) :
    extractOption options name node = (true, options ++ [(name, entryValue node)]) := by
  cases node <;> first | rfl | (simp [Json.is_object] at h)

/-- What the loop over the elements of a list value does. -/
theorem extractOptionList_eq (name : String) (elems : List Json) :
    ∀ options : Options,
      extractOptionList name elems options =
        .ok (options ++ elems.map (fun v => (name, entryValue v))) := by
  induction elems with
  | nil => intro options; simp [extractOptionList]
  | cons v rest ih =>
    intro options
    cases hv : v.is_object with
    | true =>
      have hval : OptionValue.json v = entryValue v := by
        cases v <;> first | rfl | (simp [Json.is_object] at hv)
      simp only [extractOptionList, hv, if_true, Options.add, ih, hval]
      simp
    | false =>
      simp only [extractOptionList, hv, Bool.false_eq_true, if_false,
        extractOption_eq options name v hv, ih]
      simp

/-- What the loop over the members of a node does when it ends. -/
theorem extractOptionItems_ok (items : List (String × Json)) :
    ∀ (options res : Options), extractOptionItems items options = .ok res →
      res = options ++ specEntries items := by
  induction items with
  | nil =>
    intro options res h
    simp only [extractOptionItems] at h
    cases h
    simp [specEntries]
  | cons a rest ih =>
    intro options res h
    obtain ⟨name, subnode⟩ := a
    by_cases hp : name = "plugin"
    · subst hp
      simp only [extractOptionItems, if_true] at h
      split at h
      · cases h
      · rw [ih options res h]
        simp [specEntries, memberEntries]
    · cases subnode with
      | array elems =>
        simp only [extractOptionItems, hp, if_false, extractOptionList_eq] at h
        rw [ih _ res h]
        simp [specEntries, memberEntries, hp]
      | object members =>
        simp only [extractOptionItems, hp, if_false, Options.add] at h
        rw [ih _ res h]
        simp [specEntries, memberEntries, hp, entryValue]
      | _ =>
        simp only [extractOptionItems, hp, if_false, extractOption, Options.add] at h
        rw [ih _ res h]
        simp [specEntries, memberEntries, hp, entryValue]

/-- The loop over the members of a node ends when every value under `plugin`
is a string. -/
theorem extractOptionItems_total (items : List (String × Json))
    (hplugin : ∀ v, ("plugin", v) ∈ items → v.is_string = true) :
    ∀ options : Options,
      extractOptionItems items options = .ok (options ++ specEntries items) := by
  induction items with
  | nil => intro options; simp [extractOptionItems, specEntries]
  | cons a rest ih =>
    intro options
    obtain ⟨name, subnode⟩ := a
    have ih2 := ih (fun v hv => hplugin v (List.mem_cons_of_mem _ hv))
    by_cases hp : name = "plugin"
    · subst hp
      have hs := hplugin subnode (List.mem_cons_self _ _)
      cases subnode <;> simp [Json.is_string] at hs
      simp [extractOptionItems, Json.get_string, ih2, specEntries, memberEntries]
    · cases subnode with
      | array elems =>
        simp [extractOptionItems, hp, extractOptionList_eq, ih2, specEntries, memberEntries]
      | object members =>
        simp [extractOptionItems, hp, Options.add, ih2, specEntries, memberEntries, entryValue]
      | _ =>
        simp [extractOptionItems, hp, extractOption, Options.add, ih2, specEntries,
          memberEntries, entryValue]

/-- The names of the entries are keys of the members, and none is `plugin`. -/
theorem specEntries_names (items : List (String × Json)) :
    ∀ e ∈ specEntries items, e.1 ≠ "plugin" ∧ e.1 ∈ items.map Prod.fst := by
  induction items with
  | nil => intro e he; simp [specEntries] at he
  | cons a rest ih =>
    intro e he
    obtain ⟨name, value⟩ := a
    simp only [specEntries, List.mem_append] at he
    rcases he with h | h
    · unfold memberEntries at h
      split at h
      · cases h
      · rename_i hp
        have hname : e.1 = name := by
          cases value with
          | array elems =>
            simp only [List.mem_map] at h
            obtain ⟨v, -, rfl⟩ := h
            rfl
          | _ =>
            simp only [List.mem_singleton] at h
            rw [h]
        rw [hname]
        exact ⟨hp, by simp⟩
    · obtain ⟨h1, h2⟩ := ih e h
      exact ⟨h1, by simp only [List.map_cons, List.mem_cons]; exact Or.inr h2⟩

/-! ### The node that is left for the options -/

theorem eraseP_eq_filter (k : String) (ms : List (String × Json))
    (hnd : (ms.map Prod.fst).Nodup) :
    ms.eraseP (fun m => m.1 == k) = ms.filter (fun m => m.1 != k) := by
  induction ms with
  | nil => rfl
  | cons a rest ih =>
    obtain ⟨a1, a2⟩ := a
    simp only [List.map_cons, List.nodup_cons] at hnd
    by_cases hak : a1 = k
    · subst hak
      have hrest : rest.filter (fun m => m.1 != a1) = rest := by
        apply List.filter_eq_self.mpr
        intro m hm
        have : m.1 ≠ a1 := fun h => hnd.1 (h ▸ List.mem_map_of_mem Prod.fst hm)
        simpa using this
      simp [List.eraseP_cons, List.filter_cons, hrest]
    · have hf : (a1 == k) = false := by simpa using hak
      have hf2 : (a1 != k) = true := by simpa using hak
      simp only [List.eraseP_cons, hf, cond_false, List.filter_cons, hf2, if_true]
      rw [ih hnd.2]

theorem filter_of_lookup_none (k : String) (ms : List (String × Json))
    (h : ms.lookup k = none) : ms.filter (fun m => m.1 != k) = ms := by
  induction ms with
  | nil => rfl
  | cons a rest ih =>
    obtain ⟨a1, a2⟩ := a
    simp only [List.lookup_cons] at h
    split at h
    · cases h
    · rename_i hne
      have hf2 : (a1 != k) = true := by
        have : ¬ k = a1 := by simpa using hne
        simpa using fun h2 => this h2.symm
      simp only [List.filter_cons, hf2, if_true]
      rw [ih h]

theorem nodup_filter_keys (p : String × Json → Bool) (ms : List (String × Json))
    (hnd : (ms.map Prod.fst).Nodup) : ((ms.filter p).map Prod.fst).Nodup :=
  hnd.sublist ((List.filter_sublist ms).map Prod.fst)

/-- The object that is left when the key `k` was erased if it was there. -/
theorem erased_object (ms : List (String × Json)) (k : String) (node1 : Json)
    (hnd : (ms.map Prod.fst).Nodup)
    (h : (node1 = .object ms ∧ (Json.object ms).find k = none) ∨
      node1 = (Json.object ms).erase k) :
    node1 = .object (ms.filter (fun m => m.1 != k)) := by
  rcases h with ⟨h1, h2⟩ | h
  · rw [h1, filter_of_lookup_none k ms h2]
  · rw [h]
    simp only [Json.erase, eraseP_eq_filter k ms hnd]

theorem extractType_node (node node1 : Json) (type : String)
    (h : extractType node = .ok (type, node1)) :
    (node1 = node ∧ node.find "type" = none) ∨ node1 = node.erase "type" := by
  unfold extractType at h
  split at h
  · rename_i hf
    cases h
    exact Or.inl ⟨rfl, hf⟩
  · split at h
    · cases h; exact Or.inr rfl
    · split at h
      · cases h; exact Or.inr rfl
      · cases h

theorem extractFilename_node (node node2 : Json) (spec : FileSpec)
    (h : extractFilename node = .ok (spec, node2)) :
    (node2 = node ∧ node.find "filename" = none) ∨ node2 = node.erase "filename" := by
  unfold extractFilename at h
  split at h
  · rename_i hf
    exact Or.inl ⟨(Prod.mk.inj (Except.ok.inj h)).2.symm, hf⟩
  · split at h
    · cases h
    · exact Or.inr (Prod.mk.inj (Except.ok.inj h)).2.symm

theorem extractTag_node (node node3 : Json) (tags : TagMap) (tag : String)
    (h : extractTag node tags = .ok (tag, node3)) :
    (node3 = node ∧ node.find "tag" = none) ∨ node3 = node.erase "tag" := by
  unfold extractTag at h
  split at h
  · rename_i hf
    cases h
    exact Or.inl ⟨rfl, hf⟩
  · simp only [] at h
    split at h
    · cases h
    · split at h
      · cases h
      · cases h; exact Or.inr rfl

theorem extractInputs_node (node node4 : Json) (tags : TagMap) (hs : List Nat)
    (h : extractInputs node tags = .ok (hs, node4)) :
    (node4 = node ∧ node.find "inputs" = none) ∨ node4 = node.erase "inputs" := by
  unfold extractInputs at h
  split at h
  · rename_i hf
    cases h
    exact Or.inl ⟨rfl, hf⟩
  · simp only [] at h
    split at h
    · cases h
    · cases h; exact Or.inr rfl

theorem mem_specEntries (items : List (String × Json)) (name : String) (value : Json)
    (h : (name, value) ∈ items) : ∀ e ∈ memberEntries name value, e ∈ specEntries items := by
  induction items with
  | nil => cases h
  | cons a rest ih =>
    intro e he
    obtain ⟨a1, a2⟩ := a
    simp only [specEntries, List.mem_append]
    rcases List.mem_cons.mp h with h1 | h1
    · cases h1
      exact Or.inl he
    · exact Or.inr (ih h1 e he)

/-- The options of an object node with pairwise different keys are the
entries of its members other than the recognised keys. -/
theorem extractNode_object_options (ms : List (String × Json)) (tags : TagMap)
    (parts : NodeParts) (hnd : (ms.map Prod.fst).Nodup)
    (hx : extractNode (.object ms) tags = .ok parts) :
    parts.options = specEntries (ms.filter (fun m => !recognisedKeys.contains m.1)) := by
  obtain ⟨node1, node2, node3, node4, h1, h2, h3, h4, h5⟩ :=
    extractNode_steps (.object ms) tags parts (fun s hs => by cases hs) hx
  have e1 := erased_object ms "type" node1 hnd (extractType_node _ _ _ h1)
  subst e1
  have hnd1 := nodup_filter_keys (fun m => m.1 != "type") ms hnd
  have e2 := erased_object _ "filename" node2 hnd1 (extractFilename_node _ _ _ h2)
  subst e2
  have hnd2 := nodup_filter_keys (fun m => m.1 != "filename") _ hnd1
  have e3 := erased_object _ "tag" node3 hnd2 (extractTag_node _ _ _ _ h3)
  subst e3
  have hnd3 := nodup_filter_keys (fun m => m.1 != "tag") _ hnd2
  have e4 := erased_object _ "inputs" node4 hnd3 (extractInputs_node _ _ _ _ h4)
  subst e4
  have h6 := extractOptionItems_ok _ [] parts.options h5
  rw [h6]
  simp only [Json.items, List.nil_append, List.filter_filter]
  congr 1
  apply List.filter_congr
  intro m _
  rw [Bool.eq_iff_iff]
  simp only [recognisedKeys, Bool.and_eq_true, bne_iff_ne, ne_eq, Bool.not_eq_true',
    List.contains_eq_any_beq, List.any_eq_false, List.mem_cons, List.mem_singleton,
    beq_iff_eq, List.not_mem_nil, or_false]
  constructor
  · intro h x hx
    rcases hx with rfl | rfl | rfl | rfl
    · exact h.2.2.2
    · exact h.2.2.1
    · exact h.2.1
    · exact h.1
  · intro h
    exact ⟨h "inputs" (by simp), h "tag" (by simp), h "filename" (by simp),
      h "type" (by simp)⟩

/-- The options of the stages the body of the loop makes for a node. -/
theorem loopBody_created_options (glob : String → List String) (last i : Nat) (node : Json)
    (st : LoopState) (parts : NodeParts) (hx : extractNode node st.tags = .ok parts) :
    ∃ new : List Stage,
      (managerAfter (loopBody glob last i node st)).m_stages = st.manager.m_stages ++ new ∧
      ∀ s ∈ new, s.m_options = parts.options ∨ s.m_options = filterOptions parts := by
  rw [loopBody_of_extract glob last i node st parts hx]
  cases hR : readerCond parts.type i last with
  | true =>
    by_cases h0 : parts.specifiedInputs = []
    · obtain ⟨w, e1, e2, -, -, -⟩ := wireNode_reader_ok glob last i parts st.manager
        (currentInputs parts st.inputs) hR h0
      refine ⟨(readerFiles glob parts.spec.m_path).map (readerStage parts), ?_, ?_⟩
      · rw [e1]; exact e2
      · intro s hs
        obtain ⟨path, -, rfl⟩ := List.mem_map.mp hs
        exact Or.inl rfl
    · obtain ⟨path, rest, -, e1⟩ := wireNode_reader_throw glob last i parts st.manager
        (currentInputs parts st.inputs) hR h0
      refine ⟨[readerStage parts path], ?_, ?_⟩
      · rw [e1]; rfl
      · intro s hs
        rw [List.mem_singleton.mp hs]
        exact Or.inl rfl
  | false =>
    cases hW : writerCond parts.type with
    | true =>
      obtain ⟨w, e1, e2, -, -, -⟩ := wireNode_writer glob last i parts st.manager
        (currentInputs parts st.inputs) hR hW
      refine ⟨[writerStage parts (currentInputs parts st.inputs)], ?_, ?_⟩
      · rw [e1]; exact e2
      · intro s hs
        rw [List.mem_singleton.mp hs]
        exact Or.inl rfl
    | false =>
      obtain ⟨w, e1, e2, -, -, -⟩ := wireNode_filter glob last i parts st.manager
        (currentInputs parts st.inputs) hR hW
      refine ⟨[filterStage parts (currentInputs parts st.inputs)], ?_, ?_⟩
      · rw [e1]; exact e2
      · intro s hs
        rw [List.mem_singleton.mp hs]
        exact Or.inr rfl

/-! ### Facts about the part after the last separator -/

theorem afterLast_of_not_mem (sep : Char) (l : List Char) (h : sep ∉ l) :
    afterLast sep l = l := by
  unfold afterLast
  have hall : l.reverse.takeWhile (fun c => c != sep) = l.reverse := by
    apply List.takeWhile_eq_self_iff.mpr
    intro c hc
    have hne : c ≠ sep := fun heq => h (heq ▸ List.mem_reverse.mp hc)
    simpa using hne
  rw [hall, List.reverse_reverse]

theorem afterLast_append_cons (sep : Char) (pre post : List Char) (h : sep ∉ post) :
    afterLast sep (pre ++ sep :: post) = post := by
  unfold afterLast
  have hrev : (pre ++ sep :: post).reverse = post.reverse ++ sep :: pre.reverse := by
    simp
  rw [hrev, List.takeWhile_append_of_pos]
  · simp
  · intro c hc
    have hne : c ≠ sep := fun heq => h (heq ▸ List.mem_reverse.mp hc)
    simpa using hne

theorem exists_last_split (sep : Char) (l : List Char) (h : sep ∈ l) :
    ∃ pre post, l = pre ++ sep :: post ∧ sep ∉ post := by
  induction l with
  | nil => cases h
  | cons a rest ih =>
    by_cases hr : sep ∈ rest
    · obtain ⟨pre, post, e1, e2⟩ := ih hr
      exact ⟨a :: pre, post, by rw [e1]; rfl, e2⟩
    · rcases List.mem_cons.mp h with h1 | h1
      · exact ⟨[], rest, by rw [h1]; rfl, hr⟩
      · exact absurd h1 hr

theorem afterLast_not_mem (sep : Char) (l : List Char) : sep ∉ afterLast sep l := by
  by_cases h : sep ∈ l
  · obtain ⟨pre, post, e1, e2⟩ := exists_last_split sep l h
    rw [e1, afterLast_append_cons sep pre post e2]
    exact e2
  · rw [afterLast_of_not_mem sep l h]
    exact h

/-- A list that has the separator is what is before its last separator, the
separator, and what is after it. -/
theorem split_at_last (sep : Char) (l : List Char) (h : sep ∈ l) :
    l = l.take (l.length - (afterLast sep l).length - 1) ++ sep :: afterLast sep l := by
  obtain ⟨pre, post, e1, e2⟩ := exists_last_split sep l h
  subst e1
  rw [afterLast_append_cons sep pre post e2]
  have hlen : (pre ++ sep :: post).length - post.length - 1 = pre.length := by
    simp only [List.length_append, List.length_cons]
    omega
  rw [hlen, List.take_left' rfl]

/-! ### Facts about the leaves and the input set -/

/-- The handles of `leaves()` are the leaf handles of the stage list. -/
theorem leaves_handles (m : PipelineManager) :
    m.leaves.map Prod.fst = leafHandles m.m_stages := by
  unfold PipelineManager.leaves leafHandles
  rw [← List.enum_map_fst m.m_stages, List.filter_map]
  rfl

/-- A node without the key `inputs`, or with an empty list under it, specifies
no inputs. -/
theorem extractNode_no_inputs (node : Json) (tags : TagMap) (parts : NodeParts)
    (hx : extractNode node tags = .ok parts)
    (hin : node.find "inputs" = none ∨ node.find "inputs" = some (.array [])) :
    parts.specifiedInputs = [] := by
  by_cases hstr : ∃ s, node = .string s
  · obtain ⟨s, rfl⟩ := hstr
    simp only [extractNode] at hx
    cases hx
    rfl
  · have hns : ∀ s, node ≠ .string s := fun s hs => hstr ⟨s, hs⟩
    obtain ⟨node1, node2, node3, node4, h1, h2, h3, h4, -⟩ :=
      extractNode_steps node tags parts hns hx
    have hf3 : node3.find "inputs" = node.find "inputs" := by
      rw [extractTag_find node2 node3 tags _ "inputs" h3 (by decide),
        extractFilename_find node1 node2 _ "inputs" h2 (by decide),
        extractType_find node node1 _ "inputs" h1 (by decide)]
    rcases hin with hin | hin
    · rw [hin] at hf3
      simp only [extractInputs, hf3] at h4
      exact (Prod.mk.inj (Except.ok.inj h4)).1.symm
    · rw [hin] at hf3
      simp only [extractInputs, hf3, extractInputList] at h4
      exact (Prod.mk.inj (Except.ok.inj h4)).1.symm

theorem feeds_append (stages new : List Stage) (a b : Nat) (h : feeds stages a b) :
    feeds (stages ++ new) a b := by
  obtain ⟨s, hs, hb⟩ := h
  have hlt : a < stages.length := by
    by_contra hc
    rw [List.getElem?_eq_none (by omega)] at hs
    cases hs
  exact ⟨s, by rw [List.getElem?_append_left hlt]; exact hs, hb⟩

/-- What is reached along inputs stays reached when stages are appended. -/
theorem reach_append (stages new : List Stage) (a b : Nat)
    (h : Relation.ReflTransGen (feeds stages) a b) :
    Relation.ReflTransGen (feeds (stages ++ new)) a b :=
  Relation.ReflTransGen.mono (fun x y hxy => feeds_append stages new x y hxy) h

theorem contains_false_iff (l : List Nat) (h : Nat) : l.contains h = false ↔ h ∉ l := by
  simp

theorem range_add_eq (a b : Nat) : List.range (a + b) = List.range a ++ List.range' a b := by
  rw [List.range_eq_range', List.range_eq_range']
  have h := List.range'_append_1 0 a b
  simp only [Nat.zero_add] at h
  rw [h, Nat.add_comm]

/-- No stage has a handle as an input that is not below the length of the
list, when inputs point to earlier stages. -/
theorem no_input_beyond (stages : List Stage)
    (hE : ∀ (k : Nat) (s : Stage), stages[k]? = some s → ∀ h ∈ s.m_inputs, h < k)
    (h : Nat) (hh : stages.length ≤ h) :
    stages.all (fun st => !st.m_inputs.contains h) = true := by
  rw [List.all_eq_true]
  intro s hs
  obtain ⟨k, hk, rfl⟩ := List.getElem_of_mem hs
  have := hE k stages[k] (List.getElem?_eq_getElem hk)
  simp only [Bool.not_eq_true', contains_false_iff]
  intro hmem
  have := this h hmem
  omega

/-- Appended stages without inputs are new leaves and leave the old ones. -/
theorem leafHandles_append_readers (stages new : List Stage)
    (hE : ∀ (k : Nat) (s : Stage), stages[k]? = some s → ∀ h ∈ s.m_inputs, h < k)
    (hnew : ∀ s ∈ new, s.m_inputs = []) :
    leafHandles (stages ++ new) =
      leafHandles stages ++ List.range' stages.length new.length := by
  have hall : ∀ h : Nat, (stages ++ new).all (fun st => !st.m_inputs.contains h) =
      stages.all (fun st => !st.m_inputs.contains h) := by
    intro h
    rw [List.all_append]
    have : new.all (fun st => !st.m_inputs.contains h) = true := by
      rw [List.all_eq_true]
      intro s hs
      rw [hnew s hs]
      rfl
    rw [this, Bool.and_true]
  unfold leafHandles
  simp only [hall, List.length_append]
  rw [range_add_eq, List.filter_append]
  congr 1
  rw [List.filter_eq_self]
  intro h hh
  exact no_input_beyond stages hE h (List.mem_range'_1.mp hh).1

/-- An appended stage whose inputs are the leaves is the only leaf. -/
theorem leafHandles_append_consumer (stages : List Stage) (w : Stage)
    (hE : ∀ (k : Nat) (s : Stage), stages[k]? = some s → ∀ h ∈ s.m_inputs, h < k)
    (hw : w.m_inputs = leafHandles stages) :
    leafHandles (stages ++ [w]) = [stages.length] := by
  have hwlt : ∀ h ∈ w.m_inputs, h < stages.length := by
    intro h hh
    rw [hw] at hh
    exact List.mem_range.mp (List.mem_filter.mp hh).1
  unfold leafHandles
  simp only [List.length_append, List.length_singleton, List.range_succ, List.filter_append]
  have h1 : (List.range stages.length).filter
      (fun h => (stages ++ [w]).all (fun st => !st.m_inputs.contains h)) = [] := by
    rw [List.filter_eq_nil_iff]
    intro h hh hp
    rw [List.all_append, Bool.and_eq_true] at hp
    have hmem : h ∈ w.m_inputs := by
      rw [hw]
      exact List.mem_filter.mpr ⟨hh, hp.1⟩
    have hp2 := hp.2
    simp only [List.all_cons, List.all_nil, Bool.and_true, Bool.not_eq_true',
      contains_false_iff] at hp2
    exact hp2 hmem
  have h2 : [stages.length].filter
      (fun h => (stages ++ [w]).all (fun st => !st.m_inputs.contains h)) = [stages.length] := by
    rw [List.filter_eq_self]
    intro h hh
    rw [List.mem_singleton.mp hh, List.all_append, Bool.and_eq_true]
    refine ⟨no_input_beyond stages hE _ (Nat.le_refl _), ?_⟩
    simp only [List.all_cons, List.all_nil, Bool.and_true, Bool.not_eq_true',
      contains_false_iff]
    intro hmem
    exact Nat.lt_irrefl _ (hwlt _ hmem)
  rw [h1, h2, List.nil_append]

/-- A property of the loop state that the body of the loop keeps at every
node of a list holds after a run over the list that ends. -/
theorem parseLoop_array_invariant (glob : String → List String) (elems : List Json)
    (last : Nat) (P : LoopState → Prop)
    (hstep : ∀ (i : Nat) (hi : i < elems.length) (st st1 : LoopState), P st →
      loopBody glob last i elems[i] st = .ok st1 → P st1) :
    ∀ (k i : Nat) (st st1 : LoopState), P st →
      parseLoop glob (.array elems) last k i st = .ok st1 → P st1 := by
  intro k
  induction k with
  | zero =>
    intro i st st1 hP h
    simp only [parseLoop] at h
    cases h
    exact hP
  | succ k ih =>
    intro i st st1 hP h
    by_cases hi : i < elems.length
    · rw [parseLoop_succ glob elems last k i hi st] at h
      cases hb : loopBody glob last i elems[i] st with
      | error e => rw [hb] at h; cases h
      | ok st2 =>
        rw [hb] at h
        exact ih (i + 1) st2 st1 (hstep i hi st st2 hP hb) h
    · have hnone : elems.get? i = none := List.get?_eq_none.mpr (by omega)
      simp only [parseLoop, Json.at_, hnone] at h
      cases h

/-- The body of the loop for a node that specifies no inputs keeps the input
set equal to the leaves, and every stage reached from the input set. -/
theorem loopBody_leavesAreInputs (glob : String → List String) (last i : Nat) (node : Json)
    (st st1 : LoopState)
    (hin : node.find "inputs" = none ∨ node.find "inputs" = some (.array []))
    (hinv : leavesAreInputs st)
    (hb : loopBody glob last i node st = .ok st1) : leavesAreInputs st1 := by
  obtain ⟨parts, hx⟩ := loopBody_ok_extract glob last i node st st1 hb
  have h0 : parts.specifiedInputs = [] := extractNode_no_inputs node st.tags parts hx hin
  have hcur : currentInputs parts st.inputs = st.inputs := by simp [currentInputs, h0]
  have hE1 := loopBody_handlesEarlier glob last i node 0 st st1 hinv.1 hb
  obtain ⟨hE, hL, hR0⟩ := hinv
  have hE2 : ∀ (k : Nat) (s : Stage), st.manager.m_stages[k]? = some s →
      ∀ h ∈ s.m_inputs, h < k := fun k s hs h hh => (hE.2.1 k s (Nat.zero_le _) hs h hh).2
  have hconsume : ∀ w : Stage, w.m_inputs = st.inputs →
      st1.manager.m_stages = st.manager.m_stages ++ [w] →
      st1.inputs = [st.manager.m_stages.length] → leavesAreInputs st1 := by
    intro w hw e2 e4
    refine ⟨hE1, ?_, ?_⟩
    · rw [e4, e2]
      exact (leafHandles_append_consumer st.manager.m_stages w hE2 (hw.trans hL)).symm
    · intro h hh
      rw [e2, List.length_append, List.length_singleton] at hh
      refine ⟨st.manager.m_stages.length, by rw [e4]; exact List.mem_singleton.mpr rfl, ?_⟩
      rw [e2]
      by_cases hlt : h < st.manager.m_stages.length
      · obtain ⟨r, hr, hreach⟩ := hR0 h hlt
        refine Relation.ReflTransGen.head ?_ (reach_append _ [w] r h hreach)
        refine ⟨w, ?_, by rw [hw]; exact hr⟩
        rw [List.getElem?_append_right (Nat.le_refl _), Nat.sub_self]
        rfl
      · have : h = st.manager.m_stages.length := by omega
        rw [this]
  cases hR : readerCond parts.type i last with
  | true =>
    obtain ⟨st2, e1, e2, -, e4, -⟩ := loopBody_reader_ok glob last i node st parts hx hR h0
    rw [e1] at hb
    have heq : st2 = st1 := Except.ok.inj hb
    subst heq
    refine ⟨hE1, ?_, ?_⟩
    · rw [e4, e2, leafHandles_append_readers st.manager.m_stages _ hE2, hL, List.length_map]
      intro s hs
      obtain ⟨path, -, rfl⟩ := List.mem_map.mp hs
      rfl
    · intro h hh
      by_cases hlt : h < st.manager.m_stages.length
      · obtain ⟨r, hr, hreach⟩ := hR0 h hlt
        refine ⟨r, by rw [e4]; exact List.mem_append_left _ hr, ?_⟩
        rw [e2]
        exact reach_append _ _ r h hreach
      · refine ⟨h, ?_, Relation.ReflTransGen.refl⟩
        rw [e4]
        apply List.mem_append_right
        rw [e2, List.length_append, List.length_map] at hh
        exact List.mem_range'_1.mpr ⟨by omega, by omega⟩
  | false =>
    cases hW : writerCond parts.type with
    | true =>
      obtain ⟨st2, e1, e2, -, e4, -⟩ := loopBody_writer glob last i node st parts hx hR hW
      rw [e1] at hb
      have heq : st2 = st1 := Except.ok.inj hb
      subst heq
      exact hconsume _ hcur e2 e4
    | false =>
      obtain ⟨st2, e1, e2, -, e4, -⟩ := loopBody_filter glob last i node st parts hx hR hW
      rw [e1] at hb
      have heq : st2 = st1 := Except.ok.inj hb
      subst heq
      exact hconsume _ hcur e2 e4

/-! ### Facts about a run that throws -/

/-- C1: the role inferred for the node at index `i` of a list of `n` nodes is
the role of the rule of the specification.  Every stage the body of the loop
makes for the node (the stages `new` appended to the manager, at least one
when the body does not throw) has the role `specRole type i n`, where `type`
is the extracted type of the node.  In particular the stages of the single
node of a one-element list with empty type are Readers, and the stages of the
last node of a list of two or more nodes with empty type are Writers. -/
theorem role_inference_matches_spec (glob : String → List String) (elems : List Json) (i : Nat)
    (hi : i < elems.length) (hn : elems.length < 2 ^ 64) (st : LoopState) (parts : NodeParts)
    (hx : extractNode elems[i] st.tags = .ok parts) :
    ∃ new : List Stage,
      (managerAfter (loopBody glob (lastIndex (.array elems)) i elems[i] st)).m_stages =
        st.manager.m_stages ++ new ∧
      (∀ s ∈ new, s.role = specRole parts.type i elems.length) ∧
      ((∃ st1, loopBody glob (lastIndex (.array elems)) i elems[i] st = .ok st1) → new ≠ []) ∧
      (elems.length = 1 → parts.type = "" → ∀ s ∈ new, s.role = .Reader) ∧
      (2 ≤ elems.length → i = elems.length - 1 → parts.type = "" →
        ∀ s ∈ new, s.role = .Writer) := by
  obtain ⟨new, e1, e2, e3⟩ :=
    loopBody_created glob (lastIndex (.array elems)) i elems[i] st parts hx
  have hrole : codeRole parts.type i (lastIndex (.array elems)) =
      specRole parts.type i elems.length :=
    codeRole_eq_specRole parts.type i elems.length hi hn
  rw [hrole] at e2
  refine ⟨new, e1, e2, e3, ?_, ?_⟩
  · intro h1 ht s hs
    rw [e2 s hs, ht]
    have hi0 : i = 0 := by omega
    simp [specRole, hi0]
  · intro h2 hlast ht s hs
    rw [e2 s hs, ht]
    have hne : i ≠ 0 := by omega
    simp [specRole, hne, hlast, Utils.startsWith]
    omega

theorem role_inference_matches_spec_witness :
    ∃ new : List Stage,
      (managerAfter (loopBody (fun _ => []) (lastIndex (.array [.string "a.las", .string "b.las"]))
        1 (.string "b.las") { manager := {} })).m_stages = [] ++ new ∧
      (∀ s ∈ new, s.role = specRole "" 1 2) ∧
      ((∃ st1, loopBody (fun _ => []) (lastIndex (.array [.string "a.las", .string "b.las"]))
        1 (.string "b.las") { manager := {} } = .ok st1) → new ≠ []) ∧
      ((2 : Nat) = 1 → "" = "" → ∀ s ∈ new, s.role = .Reader) ∧
      (2 ≤ 2 → 1 = 2 - 1 → "" = "" → ∀ s ∈ new, s.role = .Writer) :=
  role_inference_matches_spec (fun _ => []) [.string "a.las", .string "b.las"] 1
    (by decide) (by norm_num) { manager := {} } { spec := { m_path := "b.las" } } rfl

/-- C2 (as stated it fails): in the list of the three bare paths `a.las`,
`b.las`, `c.las` the middle node has an empty type and is neither first nor
last, and the stage made for it is a Reader, not a Filter. -/
theorem middle_node_filter_counterexample :
    (parsePipeline (fun _ => []) (.array [.string "a.las", .string "b.las", .string "c.las"])
      {}).manager.m_stages.map (fun s => (s.m_fileSpec.m_path, s.role)) =
      [("a.las", Role.Reader), ("b.las", Role.Reader), ("c.las", Role.Writer)] := by
  decide

/-- C2 (amended): for every list of three or more nodes and every node in it
that has an empty type and is positioned neither first nor last, every stage
the body of the loop makes for the node is a Reader, and it makes at least one
when it does not throw. -/
theorem middle_node_empty_type_is_reader (glob : String → List String) (elems : List Json)
    (i : Nat) (hi : i < elems.length) (hn : elems.length < 2 ^ 64) (h3 : 3 ≤ elems.length)
    (hfirst : 0 < i) (hlast : i < elems.length - 1) (st : LoopState) (parts : NodeParts)
    (hx : extractNode elems[i] st.tags = .ok parts) (ht : parts.type = "") :
    ∃ new : List Stage,
      (managerAfter (loopBody glob (lastIndex (.array elems)) i elems[i] st)).m_stages =
        st.manager.m_stages ++ new ∧
      (∀ s ∈ new, s.role = .Reader) ∧
      ((∃ st1, loopBody glob (lastIndex (.array elems)) i elems[i] st = .ok st1) → new ≠ []) := by
  obtain ⟨new, e1, e2, e3⟩ :=
    loopBody_created glob (lastIndex (.array elems)) i elems[i] st parts hx
  have hrole : codeRole parts.type i (lastIndex (.array elems)) =
      specRole parts.type i elems.length :=
    codeRole_eq_specRole parts.type i elems.length hi hn
  rw [hrole, ht] at e2
  refine ⟨new, e1, ?_, e3⟩
  intro s hs
  rw [e2 s hs]
  have hne : i ≠ elems.length - 1 := by omega
  simp [specRole, hne]

theorem middle_node_empty_type_is_reader_witness :
    ∃ new : List Stage,
      (managerAfter (loopBody (fun _ => [])
        (lastIndex (.array [.string "a.las", .string "b.las", .string "c.las"]))
        1 (.string "b.las") { manager := {} })).m_stages = [] ++ new ∧
      (∀ s ∈ new, s.role = .Reader) ∧
      ((∃ st1, loopBody (fun _ => [])
        (lastIndex (.array [.string "a.las", .string "b.las", .string "c.las"]))
        1 (.string "b.las") { manager := {} } = .ok st1) → new ≠ []) :=
  middle_node_empty_type_is_reader (fun _ => [])
    [.string "a.las", .string "b.las", .string "c.las"] 1
    (by decide) (by norm_num) (by decide) (by decide) (by decide)
    { manager := {} } { spec := { m_path := "b.las" } } rfl rfl

/-- C3: for every Writer node the body of the loop makes exactly one stage, a
Writer `w`; the inputs of `w` are the current input set in order (the
specified inputs when the node specifies any, lines 92-93, else the set
accumulated so far), and afterwards the input set is the one-element list of
the handle of `w`.  For the three-node list `[a, b, c]` of bare paths, `a` and
`b` matching at most one file each, the run ends without a throw with the
three stages Reader, Reader, Writer, the inputs of the Writer being the
handles 0 and 1 of the two Readers in this order. -/
theorem writer_consumes_current_inputs :
    (∀ (glob : String → List String) (elems : List Json) (i : Nat) (hi : i < elems.length)
      (st : LoopState) (parts : NodeParts),
      elems.length < 2 ^ 64 → extractNode elems[i] st.tags = .ok parts →
      specRole parts.type i elems.length = .Writer →
      ∃ (st1 : LoopState) (w : Stage),
        loopBody glob (lastIndex (.array elems)) i elems[i] st = .ok st1 ∧
        st1.manager.m_stages = st.manager.m_stages ++ [w] ∧
        w.role = .Writer ∧
        w.m_inputs = currentInputs parts st.inputs ∧
        (parts.specifiedInputs = [] → w.m_inputs = st.inputs) ∧
        st1.inputs = [st.manager.m_stages.length]) ∧
    (∀ (glob : String → List String) (a b c : String),
      (glob a).length ≤ 1 → (glob b).length ≤ 1 →
      (parsePipeline glob (.array [.string a, .string b, .string c]) {}).thrown = none ∧
      ∃ ra rb w : Stage,
        (parsePipeline glob (.array [.string a, .string b, .string c]) {}).manager.m_stages =
          [ra, rb, w] ∧
        ra.role = .Reader ∧ rb.role = .Reader ∧ w.role = .Writer ∧
        ra.m_fileSpec.m_path ∈ readerFiles glob a ∧
        rb.m_fileSpec.m_path ∈ readerFiles glob b ∧
        w.m_fileSpec.m_path = c ∧
        w.m_inputs = [0, 1]) := by
  constructor
  · intro glob elems i hi st parts hn hx hrole
    obtain ⟨-, h2, -⟩ := cond_specRole parts.type i elems.length hi hn
    obtain ⟨hR, hW⟩ := h2.mpr hrole
    obtain ⟨st1, e1, e2, -, e4, -⟩ :=
      loopBody_writer glob (lastIndex (.array elems)) i elems[i] st parts hx hR hW
    refine ⟨st1, writerStage parts (currentInputs parts st.inputs), e1, e2, rfl, rfl, ?_, e4⟩
    intro h0
    simp [writerStage, currentInputs, h0]
  · intro glob a b c ha hb
    obtain ⟨r1, pa, pb, ea, eb, r2⟩ := run_reader_reader_writer glob a b c ha hb
    refine ⟨r1, _, _, _, r2, rfl, rfl, rfl, ?_, ?_, rfl, rfl⟩
    · rw [ea]; simp [readerStage]
    · rw [eb]; simp [readerStage]

theorem writer_consumes_current_inputs_witness :
    (∃ (st1 : LoopState) (w : Stage),
      loopBody (fun _ => []) (lastIndex (.array [.string "a.las", .string "b.las"])) 1
        (.string "b.las") { manager := {}, inputs := [7, 5] } = .ok st1 ∧
      st1.manager.m_stages = [] ++ [w] ∧
      w.role = .Writer ∧
      w.m_inputs = currentInputs { spec := { m_path := "b.las" } } [7, 5] ∧
      (([] : List Nat) = [] → w.m_inputs = [7, 5]) ∧
      st1.inputs = [0]) ∧
    ((parsePipeline (fun _ => []) (.array [.string "a.las", .string "b.las", .string "c.las"])
        {}).thrown = none ∧
      ∃ ra rb w : Stage,
        (parsePipeline (fun _ => []) (.array [.string "a.las", .string "b.las", .string "c.las"])
          {}).manager.m_stages = [ra, rb, w] ∧
        ra.role = .Reader ∧ rb.role = .Reader ∧ w.role = .Writer ∧
        ra.m_fileSpec.m_path ∈ readerFiles (fun _ => []) "a.las" ∧
        rb.m_fileSpec.m_path ∈ readerFiles (fun _ => []) "b.las" ∧
        w.m_fileSpec.m_path = "c.las" ∧
        w.m_inputs = [0, 1]) :=
  ⟨writer_consumes_current_inputs.1 (fun _ => []) [.string "a.las", .string "b.las"] 1
      (by decide) { manager := {}, inputs := [7, 5] } { spec := { m_path := "b.las" } }
      (by norm_num) rfl (by decide),
   writer_consumes_current_inputs.2 (fun _ => []) "a.las" "b.las" "c.las"
      (by decide) (by decide)⟩

/-- C4: for every Reader node (without specified inputs) whose path glob
yields `N ≥ 1` matches the body of the loop makes exactly `N` Reader stages,
one per matched path in the order of the glob, and appends their handles, in
that order, to the current input set.  The next Filter or Writer node without
specified inputs (after `k ≥ 0` further Reader nodes) gets all `N` handles as
inputs in that order: its inputs are the input set before the Reader node,
then the `N` handles, then those of the Readers in between (none when it
follows the Reader node directly). -/
theorem reader_fan_out (glob : String → List String) (elems : List Json) (i : Nat)
    (hi : i < elems.length) (hn : elems.length < 2 ^ 64) (st : LoopState) (parts : NodeParts)
    (hx : extractNode elems[i] st.tags = .ok parts)
    (hrole : specRole parts.type i elems.length = .Reader)
    (h0 : parts.specifiedInputs = [])
    (hN : 1 ≤ (glob parts.spec.m_path).length) :
    ∃ st1 : LoopState,
      loopBody glob (lastIndex (.array elems)) i elems[i] st = .ok st1 ∧
      st1.manager.m_stages =
        st.manager.m_stages ++ (glob parts.spec.m_path).map (readerStage parts) ∧
      st1.inputs = st.inputs ++
        List.range' st.manager.m_stages.length (glob parts.spec.m_path).length ∧
      ∀ (k : Nat) (hj : i + 1 + k < elems.length) (st2 : LoopState) (parts2 : NodeParts),
        (∀ m, m < k → ∀ node, elems[i + 1 + m]? = some node →
          specRole (nodeType node) (i + 1 + m) elems.length = .Reader) →
        parseLoop glob (.array elems) (lastIndex (.array elems)) k (i + 1) st1 = .ok st2 →
        extractNode elems[i + 1 + k] st2.tags = .ok parts2 →
        specRole parts2.type (i + 1 + k) elems.length ≠ .Reader →
        parts2.specifiedInputs = [] →
        ∃ (st3 : LoopState) (w : Stage) (later : List Nat),
          loopBody glob (lastIndex (.array elems)) (i + 1 + k) elems[i + 1 + k] st2 = .ok st3 ∧
          st3.manager.m_stages = st2.manager.m_stages ++ [w] ∧
          w.role = specRole parts2.type (i + 1 + k) elems.length ∧
          w.m_inputs = st.inputs ++
            List.range' st.manager.m_stages.length (glob parts.spec.m_path).length ++ later ∧
          (k = 0 → later = []) := by
  have hR := (cond_specRole parts.type i elems.length hi hn).1.mpr hrole
  have hfiles : readerFiles glob parts.spec.m_path = glob parts.spec.m_path := by
    unfold readerFiles
    cases hg : glob parts.spec.m_path with
    | nil => rw [hg] at hN; simp at hN
    | cons a l => simp
  obtain ⟨st1, e1, e2, -, e4, -⟩ := loopBody_reader_ok glob (lastIndex (.array elems)) i
    elems[i] st parts hx hR h0
  rw [hfiles] at e2 e4
  refine ⟨st1, e1, e2, e4, ?_⟩
  intro k hj st2 parts2 hread hrun hx2 hrole2 h02
  obtain ⟨later, hl⟩ := reader_segment glob elems hn k (i + 1) st1 st2 (by omega) hread hrun
  have hk : k = 0 → later = [] := by
    intro hk0
    subst hk0
    simp only [parseLoop] at hrun
    have heq : st1 = st2 := Except.ok.inj hrun
    subst heq
    exact List.self_eq_append_right.mp hl
  have hc : currentInputs parts2 st2.inputs = st2.inputs := by simp [currentInputs, h02]
  obtain ⟨c1, c2, c3⟩ := cond_specRole parts2.type (i + 1 + k) elems.length hj hn
  have hR2 : readerCond parts2.type (i + 1 + k) (lastIndex (.array elems)) = false := by
    cases hc2 : readerCond parts2.type (i + 1 + k) (lastIndex (.array elems)) with
    | false => rfl
    | true => exact absurd (c1.mp hc2) hrole2
  cases hW : writerCond parts2.type with
  | true =>
    obtain ⟨st3, f1, f2, -, -, -⟩ := loopBody_writer glob (lastIndex (.array elems))
      (i + 1 + k) elems[i + 1 + k] st2 parts2 hx2 hR2 hW
    refine ⟨st3, writerStage parts2 (currentInputs parts2 st2.inputs), later, f1, f2, ?_, ?_, hk⟩
    · exact (c2.mp ⟨hR2, hW⟩).symm
    · show currentInputs parts2 st2.inputs = _
      rw [hc, hl, e4]
  | false =>
    obtain ⟨st3, f1, f2, -, -, -⟩ := loopBody_filter glob (lastIndex (.array elems))
      (i + 1 + k) elems[i + 1 + k] st2 parts2 hx2 hR2 hW
    refine ⟨st3, filterStage parts2 (currentInputs parts2 st2.inputs), later, f1, f2, ?_, ?_, hk⟩
    · exact (c3.mp ⟨hR2, hW⟩).symm
    · show currentInputs parts2 st2.inputs = _
      rw [hc, hl, e4]

theorem reader_fan_out_witness :
    ∃ (st1 st3 : LoopState) (w : Stage),
      loopBody (fun p => if p = "*.las" then ["a.las", "b.las"] else [])
        (lastIndex (.array [.string "*.las", .string "out.las"])) 0 (.string "*.las")
        { manager := {} } = .ok st1 ∧
      st1.manager.m_stages.map (fun s => (s.role, s.m_fileSpec.m_path)) =
        [(Role.Reader, "a.las"), (Role.Reader, "b.las")] ∧
      st1.inputs = [0, 1] ∧
      loopBody (fun p => if p = "*.las" then ["a.las", "b.las"] else [])
        (lastIndex (.array [.string "*.las", .string "out.las"])) 1 (.string "out.las")
        st1 = .ok st3 ∧
      st3.manager.m_stages = st1.manager.m_stages ++ [w] ∧
      w.role = .Writer ∧ w.m_inputs = [0, 1] := by
  obtain ⟨st1, h1, h2, h3, h4⟩ :=
    reader_fan_out (fun p => if p = "*.las" then ["a.las", "b.las"] else [])
      [.string "*.las", .string "out.las"] 0 (by decide) (by norm_num) { manager := {} }
      { spec := { m_path := "*.las" } } rfl (by decide) rfl (by decide)
  obtain ⟨st3, w, later, g1, g2, g3, g4, g5⟩ := h4 0 (by decide) st1
    { spec := { m_path := "out.las" } } (fun m hm => absurd hm (by omega)) rfl rfl
    (by decide) rfl
  refine ⟨st1, st3, w, h1, ?_, ?_, g1, g2, ?_, ?_⟩
  · rw [h2]; decide
  · rw [h3]; decide
  · rw [g3]; decide
  · rw [g4, g5 rfl]; decide

/-- C5 (as stated it fails): the glob of the bare path `*.las` matches the two
files `a.las` and `b.las`; the list of this one node compiles to two stages,
none of which has the path `*.las`. -/
theorem single_path_counterexample :
    (parsePipeline (fun p => if p = "*.las" then ["a.las", "b.las"] else [])
      (.array [.string "*.las"]) {}).manager.m_stages.map
        (fun s => (s.role, s.m_fileSpec.m_path, s.m_inputs)) =
      [(Role.Reader, "a.las", []), (Role.Reader, "b.las", [])] := by
  decide

/-- C5 (amended): for every list of length 1 whose single node is a bare path
string `p` the compilation ends without a throw and adds only Reader stages
without inputs, exactly one for each file the glob of `p` matches, in the
order of the glob; it adds exactly one stage, with the path `p`, when the
glob matches nothing or only `p` itself. -/
theorem single_path_compiles_to_readers (glob : String → List String) (p : String)
    (manager : PipelineManager) :
    (parsePipeline glob (.array [.string p]) manager).thrown = none ∧
    (∃ new : List Stage,
      (parsePipeline glob (.array [.string p]) manager).manager.m_stages =
        manager.m_stages ++ new ∧
      new.map (fun s => s.m_fileSpec.m_path) = readerFiles glob p ∧
      (∀ s ∈ new, s.role = .Reader ∧ s.m_inputs = []) ∧
      (glob p ≠ [] → new.map (fun s => s.m_fileSpec.m_path) = glob p) ∧
      (glob p = [] ∨ glob p = [p] →
        ∃ s, new = [s] ∧ s.role = .Reader ∧ s.m_fileSpec.m_path = p ∧ s.m_inputs = [])) := by
  obtain ⟨r1, r2⟩ := run_single_path glob p manager
  refine ⟨r1, (readerFiles glob p).map (readerStage { spec := { m_path := p } }), r2, ?_, ?_,
    ?_, ?_⟩
  · rw [List.map_map]
    exact List.map_id _
  · intro s hs
    obtain ⟨path, -, rfl⟩ := List.mem_map.mp hs
    exact ⟨rfl, rfl⟩
  · intro hne
    rw [List.map_map]
    have hf : readerFiles glob p = glob p := by
      unfold readerFiles
      cases hg : glob p with
      | nil => exact absurd hg hne
      | cons a l => simp
    rw [hf]
    exact List.map_id _
  · intro h
    have hf : readerFiles glob p = [p] := by
      unfold readerFiles
      rcases h with h | h <;> simp [h]
    rw [hf]
    exact ⟨_, rfl, rfl, rfl, rfl⟩

theorem single_path_compiles_to_readers_witness :
    (parsePipeline (fun _ => []) (.array [.string "in.las"]) {}).thrown = none ∧
    (∃ new : List Stage,
      (parsePipeline (fun _ => []) (.array [.string "in.las"]) {}).manager.m_stages =
        [] ++ new ∧
      new.map (fun s => s.m_fileSpec.m_path) = readerFiles (fun _ => []) "in.las" ∧
      (∀ s ∈ new, s.role = .Reader ∧ s.m_inputs = []) ∧
      (([] : List String) ≠ [] → new.map (fun s => s.m_fileSpec.m_path) = []) ∧
      (([] : List String) = [] ∨ ([] : List String) = ["in.las"] →
        ∃ s, new = [s] ∧ s.role = .Reader ∧ s.m_fileSpec.m_path = "in.las" ∧ s.m_inputs = [])) :=
  single_path_compiles_to_readers (fun _ => []) "in.las" {}

/-- C6: in a list in which a node (index `i`) declares the string tag `t` and a
later node (index `j`) declares the same tag, the nodes before `j` being
processed without a throw and the type and filename of node `j` being
extractable, the compilation fails with the duplicate-tag error naming `t`.
The error is raised by the extraction of node `j`; the manager is the one the
nodes before `j` left, no stage is made for node `j`. -/
theorem duplicate_tag_fails (glob : String → List String) (elems : List Json) (i j : Nat)
    (hi : i < elems.length) (hj : j < elems.length) (hij : i < j) (t : String)
    (manager : PipelineManager) (st : LoopState) (type : String) (node1 node2 : Json)
    (spec : FileSpec)
    (hti : elems[i].find "tag" = some (.string t))
    (htj : elems[j].find "tag" = some (.string t))
    (hpre : parseLoop glob (.array elems) (lastIndex (.array elems)) j 0
      { manager := manager } = .ok st)
    (h1 : extractType elems[j] = .ok (type, node1))
    (h2 : extractFilename node1 = .ok (spec, node2)) :
    extractNode elems[j] st.tags =
      .error (.pdal_error ("JSON pipeline: duplicate tag '" ++ t ++ "'.")) ∧
    loopBody glob (lastIndex (.array elems)) j elems[j] st =
      .error (.pdal_error ("JSON pipeline: duplicate tag '" ++ t ++ "'."), st.manager) ∧
    parsePipeline glob (.array elems) manager =
      { manager := st.manager,
        thrown := some (.pdal_error ("JSON pipeline: duplicate tag '" ++ t ++ "'.")) } := by
  have hreg := prefix_tag_registered glob elems i j hi hij _ st t hti hpre
  have hf2 : node2.find "tag" = some (.string t) := by
    rw [extractFilename_find node1 node2 _ "tag" h2 (by decide),
      extractType_find _ node1 _ "tag" h1 (by decide)]
    exact htj
  have hx := extractNode_tag_throw elems[j] node1 node2 st.tags type spec _
    (find_some_not_string _ "tag" _ htj) h1 h2 (extractTag_duplicate node2 st.tags t hf2 hreg)
  have hb : loopBody glob (lastIndex (.array elems)) j elems[j] st =
      .error (.pdal_error ("JSON pipeline: duplicate tag '" ++ t ++ "'."), st.manager) := by
    simp only [loopBody, hx]
  exact ⟨hx, hb, parsePipeline_fails_at glob elems j hj manager st _ _ hpre hb⟩

theorem duplicate_tag_fails_witness :
    parsePipeline (fun _ => [])
      (.array [.object [("filename", .string "a.las"), ("tag", .string "t1")],
               .object [("tag", .string "t1"), ("type", .string "filters.x")]]) {} =
      { manager := { m_stages := [readerStage
            { spec := { m_path := "a.las" }, tag := "t1" } "a.las"], m_log := [] },
        thrown := some (.pdal_error ("JSON pipeline: duplicate tag '" ++ "t1" ++ "'.")) } :=
  (duplicate_tag_fails (fun _ => [])
    [.object [("filename", .string "a.las"), ("tag", .string "t1")],
     .object [("tag", .string "t1"), ("type", .string "filters.x")]] 0 1
    (by decide) (by decide) (by decide) "t1" {}
    { manager := { m_stages := [readerStage
          { spec := { m_path := "a.las" }, tag := "t1" } "a.las"], m_log := [] },
      tags := [("t1", 0)], inputs := [0] }
    "filters.x" (.object [("tag", .string "t1")]) (.object [("tag", .string "t1")]) {}
    rfl rfl rfl rfl rfl).2.2

/-- C7: let node `j` of a list declare `inputs` as a string or a list of
strings, `names` being the tags it names in declared order, and let its type,
filename and tag be extractable after the nodes before it were processed.
If one of the names is not registered (the names before it being registered),
`extractInputs` throws the undefined-stage-tag error naming it, the body of
the loop throws it before any stage is made and the compilation fails with it.
The tag the node declares itself is not registered at that point.  If every
name is registered, `extractInputs` returns the stages bound to the names in
declared order. -/
theorem undefined_input_tag_fails (glob : String → List String) (elems : List Json) (j : Nat)
    (hj : j < elems.length) (manager : PipelineManager) (st : LoopState) (val : Json)
    (names : List String) (type tag : String) (node1 node2 node3 : Json) (spec : FileSpec)
    (hpre : parseLoop glob (.array elems) (lastIndex (.array elems)) j 0
      { manager := manager } = .ok st)
    (hf : elems[j].find "inputs" = some val)
    (hnames : declaredInputs val = some names)
    (h1 : extractType elems[j] = .ok (type, node1))
    (h2 : extractFilename node1 = .ok (spec, node2))
    (h3 : extractTag node2 st.tags = .ok (tag, node3)) :
    (∀ pre u post, names = pre ++ u :: post →
      (∀ x ∈ pre, (TagMap.find st.tags x).isSome = true) → TagMap.find st.tags u = none →
      extractInputs node3 st.tags = .error (undefinedTag u) ∧
      loopBody glob (lastIndex (.array elems)) j elems[j] st =
        .error (undefinedTag u, st.manager) ∧
      parsePipeline glob (.array elems) manager =
        { manager := st.manager, thrown := some (undefinedTag u) }) ∧
    (elems[j].find "tag" = some (.string tag) → TagMap.find st.tags tag = none) ∧
    (∀ hs : List Nat, names.map (TagMap.find st.tags) = hs.map some →
      extractInputs node3 st.tags = .ok (hs, node3.erase "inputs")) := by
  have hf3 : node3.find "inputs" = some val := by
    rw [extractTag_find node2 node3 st.tags _ "inputs" h3 (by decide),
      extractFilename_find node1 node2 _ "inputs" h2 (by decide),
      extractType_find _ node1 _ "inputs" h1 (by decide)]
    exact hf
  refine ⟨?_, ?_, ?_⟩
  · intro pre u post hsplit hreg hu
    have he := extractInputs_undefined node3 val st.tags names pre u post hf3 hnames hsplit
      hreg hu
    have hx := extractNode_inputs_throw elems[j] node1 node2 node3 st.tags type tag spec _
      (find_some_not_string _ "inputs" _ hf) h1 h2 h3 he
    have hb : loopBody glob (lastIndex (.array elems)) j elems[j] st =
        .error (undefinedTag u, st.manager) := by
      simp only [loopBody, hx]
    exact ⟨he, hb, parsePipeline_fails_at glob elems j hj manager st _ _ hpre hb⟩
  · intro ht
    have hf2 : node2.find "tag" = some (.string tag) := by
      rw [extractFilename_find node1 node2 _ "tag" h2 (by decide),
        extractType_find _ node1 _ "tag" h1 (by decide)]
      exact ht
    exact (extractTag_string node2 node3 st.tags tag tag hf2 h3).2.1
  · intro hs hres
    exact extractInputs_ok node3 val st.tags names hs hf3 hnames hres

theorem undefined_input_tag_fails_witness :
    parsePipeline (fun _ => [])
      (.array [.string "a.las",
               .object [("inputs", .string "nope"), ("type", .string "filters.x")]]) {} =
      { manager := { m_stages := [readerStage { spec := { m_path := "a.las" } } "a.las"],
                     m_log := [] },
        thrown := some (undefinedTag "nope") } :=
  ((undefined_input_tag_fails (fun _ => [])
    [.string "a.las", .object [("inputs", .string "nope"), ("type", .string "filters.x")]] 1
    (by decide) {}
    { manager := { m_stages := [readerStage { spec := { m_path := "a.las" } } "a.las"],
                   m_log := [] },
      tags := [], inputs := [0] }
    (.string "nope") ["nope"] "filters.x" "" (.object [("inputs", .string "nope")])
    (.object [("inputs", .string "nope")]) (.object [("inputs", .string "nope")]) {}
    rfl rfl rfl rfl rfl rfl).1 [] "nope" [] rfl (fun x hx => absurd hx (List.not_mem_nil x))
    rfl).2.2

/-- C8 (as stated it fails): the second node of the list declares `inputs` as
the empty list, so the declared tags resolve to no stage, and yet the Filter
made for it has the Reader accumulated before it as input. -/
theorem declared_inputs_counterexample :
    extractInputs (.object [("inputs", .array [])]) [] = .ok ([], .object []) ∧
    (parsePipeline (fun _ => [])
      (.array [.string "a.las", .object [("inputs", .array []), ("type", .string "filters.x")]])
      {}).manager.m_stages.map (fun s => (s.role, s.m_inputs)) =
      [(Role.Reader, []), (Role.Filter, [0])] :=
  ⟨rfl, by decide⟩

/-- C8 (amended): for every Filter or Writer node that declares `inputs`, all
the names under it registered tags, one stage is made for the node and the
input set is then the handle of this stage alone.  When `inputs` names at
least one tag, the inputs of the stage are exactly the stages `hs` the declared
tags are bound to, in declared order, whatever input set `st.inputs` the nodes
before it left.  When `inputs` is the empty list, the inputs of the stage are
the accumulated input set `st.inputs`. -/
theorem declared_inputs_replace_input_set (glob : String → List String) (elems : List Json)
    (i : Nat) (hi : i < elems.length) (hn : elems.length < 2 ^ 64) (st : LoopState)
    (parts : NodeParts) (val : Json) (names : List String) (hs : List Nat)
    (hx : extractNode elems[i] st.tags = .ok parts)
    (hrole : specRole parts.type i elems.length ≠ .Reader)
    (hf : elems[i].find "inputs" = some val)
    (hnames : declaredInputs val = some names)
    (hres : names.map (TagMap.find st.tags) = hs.map some) :
    ∃ (st1 : LoopState) (w : Stage),
      loopBody glob (lastIndex (.array elems)) i elems[i] st = .ok st1 ∧
      st1.manager.m_stages = st.manager.m_stages ++ [w] ∧
      w.role = specRole parts.type i elems.length ∧
      (names ≠ [] → w.m_inputs = hs) ∧
      (names = [] → val = .array [] ∧ w.m_inputs = st.inputs) ∧
      st1.inputs = [st.manager.m_stages.length] := by
  have hspec := extractNode_inputs elems[i] val st.tags parts names hs hx hf hnames hres
  have hfull : names ≠ [] → currentInputs parts st.inputs = hs := by
    intro hne
    have hhs : hs ≠ [] := by
      intro h0
      rw [h0] at hres
      exact hne (List.map_eq_nil_iff.mp hres)
    unfold currentInputs
    rw [hspec]
    cases hs with
    | nil => exact absurd rfl hhs
    | cons a l => rfl
  have hempty : names = [] → val = .array [] ∧ currentInputs parts st.inputs = st.inputs := by
    intro h0
    have hhs : hs = [] := by
      rw [h0] at hres
      exact List.map_eq_nil_iff.mp hres.symm
    refine ⟨?_, ?_⟩
    · rw [h0] at hnames
      cases val with
      | array l =>
        cases l with
        | nil => rfl
        | cons a rest =>
          simp only [declaredInputs, stringList] at hnames
          cases a with
          | string s =>
            simp only [stringList] at hnames
            cases hr : stringList rest with
            | none => rw [hr] at hnames; cases hnames
            | some ns => rw [hr] at hnames; cases hnames
          | _ => simp only [stringList] at hnames; cases hnames
      | string s => simp only [declaredInputs] at hnames; cases hnames
      | _ => simp only [declaredInputs] at hnames; cases hnames
    · unfold currentInputs
      rw [hspec, hhs]
      rfl
  obtain ⟨c1, c2, c3⟩ := cond_specRole parts.type i elems.length hi hn
  have hR : readerCond parts.type i (lastIndex (.array elems)) = false := by
    cases hc2 : readerCond parts.type i (lastIndex (.array elems)) with
    | false => rfl
    | true => exact absurd (c1.mp hc2) hrole
  cases hW : writerCond parts.type with
  | true =>
    obtain ⟨st1, f1, f2, -, f4, -⟩ := loopBody_writer glob (lastIndex (.array elems)) i
      elems[i] st parts hx hR hW
    exact ⟨st1, writerStage parts (currentInputs parts st.inputs), f1, f2,
      (c2.mp ⟨hR, hW⟩).symm, hfull, hempty, f4⟩
  | false =>
    obtain ⟨st1, f1, f2, -, f4, -⟩ := loopBody_filter glob (lastIndex (.array elems)) i
      elems[i] st parts hx hR hW
    exact ⟨st1, filterStage parts (currentInputs parts st.inputs), f1, f2,
      (c3.mp ⟨hR, hW⟩).symm, hfull, hempty, f4⟩

theorem declared_inputs_replace_input_set_witness :
    (∃ (st1 : LoopState) (w : Stage),
      loopBody (fun _ => []) (lastIndex (.array [.string "a.las", .string "b.las",
          .object [("inputs", .string "A"), ("type", .string "filters.x")]])) 2
        (.object [("inputs", .string "A"), ("type", .string "filters.x")])
        { manager := { m_stages := [readerStage { spec := { m_path := "a.las" }, tag := "A" }
            "a.las", readerStage { spec := { m_path := "b.las" } } "b.las"], m_log := [] },
          tags := [("A", 0)], inputs := [0, 1] } = .ok st1 ∧
      st1.manager.m_stages = [readerStage { spec := { m_path := "a.las" }, tag := "A" }
            "a.las", readerStage { spec := { m_path := "b.las" } } "b.las"] ++ [w] ∧
      w.role = specRole "filters.x" 2 3 ∧
      w.m_inputs = [0] ∧
      st1.inputs = [2]) ∧
    (∃ (st1 : LoopState) (w : Stage),
      loopBody (fun _ => []) (lastIndex (.array [.string "a.las", .string "b.las",
          .object [("inputs", .array []), ("type", .string "filters.x")]])) 2
        (.object [("inputs", .array []), ("type", .string "filters.x")])
        { manager := { m_stages := [readerStage { spec := { m_path := "a.las" }, tag := "A" }
            "a.las", readerStage { spec := { m_path := "b.las" } } "b.las"], m_log := [] },
          tags := [("A", 0)], inputs := [0, 1] } = .ok st1 ∧
      st1.manager.m_stages = [readerStage { spec := { m_path := "a.las" }, tag := "A" }
            "a.las", readerStage { spec := { m_path := "b.las" } } "b.las"] ++ [w] ∧
      w.role = specRole "filters.x" 2 3 ∧
      w.m_inputs = [0, 1] ∧
      st1.inputs = [2]) := by
  refine ⟨?_, ?_⟩
  · obtain ⟨st1, w, h1, h2, h3, h4, -, h6⟩ := declared_inputs_replace_input_set (fun _ => [])
      [.string "a.las", .string "b.las",
        .object [("inputs", .string "A"), ("type", .string "filters.x")]] 2
      (by decide) (by norm_num)
      { manager := { m_stages := [readerStage { spec := { m_path := "a.las" }, tag := "A" }
          "a.las", readerStage { spec := { m_path := "b.las" } } "b.las"], m_log := [] },
        tags := [("A", 0)], inputs := [0, 1] }
      { type := "filters.x", specifiedInputs := [0] } (.string "A") ["A"] [0]
      rfl (by decide) rfl rfl rfl
    exact ⟨st1, w, h1, h2, h3, h4 (by decide), h6⟩
  · obtain ⟨st1, w, h1, h2, h3, -, h5, h6⟩ := declared_inputs_replace_input_set (fun _ => [])
      [.string "a.las", .string "b.las",
        .object [("inputs", .array []), ("type", .string "filters.x")]] 2
      (by decide) (by norm_num)
      { manager := { m_stages := [readerStage { spec := { m_path := "a.las" }, tag := "A" }
          "a.las", readerStage { spec := { m_path := "b.las" } } "b.las"], m_log := [] },
        tags := [("A", 0)], inputs := [0, 1] }
      { type := "filters.x", specifiedInputs := [] } (.array []) [] []
      rfl (by decide) rfl rfl rfl
    exact ⟨st1, w, h1, h2, h3, (h5 rfl).2, h6⟩

/-- C9: a node inferred as a Reader that declares `inputs` naming at least one
tag, all of them registered, makes the compilation fail with the error
"Inputs not permitted for reader" (naming the first file of the node), the
nodes before it being processed without a throw.  Consequently, when the
Readers the manager holds before the compilation have no inputs, every Reader
stage it holds after a compilation without a throw has no inputs. -/
theorem reader_inputs_not_permitted :
    (∀ (glob : String → List String) (elems : List Json) (j : Nat) (hj : j < elems.length)
      (manager : PipelineManager) (st : LoopState) (parts : NodeParts) (val : Json)
      (names : List String) (hs : List Nat),
      elems.length < 2 ^ 64 →
      parseLoop glob (.array elems) (lastIndex (.array elems)) j 0
        { manager := manager } = .ok st →
      extractNode elems[j] st.tags = .ok parts →
      specRole parts.type j elems.length = .Reader →
      elems[j].find "inputs" = some val →
      declaredInputs val = some names →
      names ≠ [] →
      names.map (TagMap.find st.tags) = hs.map some →
      ∃ path rest, readerFiles glob parts.spec.m_path = path :: rest ∧
        (parsePipeline glob (.array elems) manager).thrown =
          some (.pdal_error ("JSON pipeline: Inputs not permitted for " ++
            " reader: '" ++ path ++ "'."))) ∧
    (∀ (glob : String → List String) (tree : Json) (manager : PipelineManager),
      (∀ s ∈ manager.m_stages, s.role = .Reader → s.m_inputs = []) →
      (parsePipeline glob tree manager).thrown = none →
      ∀ s ∈ (parsePipeline glob tree manager).manager.m_stages,
        s.role = .Reader → s.m_inputs = []) := by
  constructor
  · intro glob elems j hj manager st parts val names hs hn hpre hx hrole hf hnames hne hres
    have hspec := extractNode_inputs elems[j] val st.tags parts names hs hx hf hnames hres
    have h0 : parts.specifiedInputs ≠ [] := by
      rw [hspec]
      intro h0
      rw [h0] at hres
      exact hne (List.map_eq_nil_iff.mp hres)
    have hR := (cond_specRole parts.type j elems.length hj hn).1.mpr hrole
    obtain ⟨path, rest, e1, e2⟩ := loopBody_reader_throw glob (lastIndex (.array elems)) j
      elems[j] st parts hx hR h0
    refine ⟨path, rest, e1, ?_⟩
    rw [parsePipeline_fails_at glob elems j hj manager st _ _ hpre e2]
  · intro glob tree manager hm hnone s hs hr
    obtain ⟨st, hrun, hst⟩ := parsePipeline_thrown_none glob tree manager hnone
    rw [hst] at hs
    have hinv := parseLoop_invariant glob tree (lastIndex tree)
      (fun st => ∀ s ∈ st.manager.m_stages, s.role = .Reader → s.m_inputs = [])
      (fun i node st0 st1 hP hb => by
        obtain ⟨new, e1, e2⟩ := loopBody_ok_stages glob (lastIndex tree) i node st0 st1 hb
        intro s hs hr
        rw [e1] at hs
        rcases List.mem_append.mp hs with h | h
        · exact hP s h hr
        · exact e2 s h hr)
      tree.size 0 { manager := manager } st hm hrun
    exact hinv s hs hr

theorem reader_inputs_not_permitted_witness :
    (∃ path rest, readerFiles (fun _ => []) "b.las" = path :: rest ∧
      (parsePipeline (fun _ => [])
        (.array [.object [("filename", .string "a.las"), ("tag", .string "A")],
                 .object [("filename", .string "b.las"), ("inputs", .string "A")],
                 .string "out.las"]) {}).thrown =
        some (.pdal_error ("JSON pipeline: Inputs not permitted for " ++
          " reader: '" ++ path ++ "'."))) ∧
    (∀ s ∈ (parsePipeline (fun _ => []) (.array [.string "a.las", .string "out.las"])
        {}).manager.m_stages, s.role = .Reader → s.m_inputs = []) :=
  ⟨reader_inputs_not_permitted.1 (fun _ => [])
      [.object [("filename", .string "a.las"), ("tag", .string "A")],
       .object [("filename", .string "b.las"), ("inputs", .string "A")],
       .string "out.las"] 1 (by decide) {}
      { manager := { m_log := [],
                     m_stages := [readerStage { spec := { m_path := "a.las" }, tag := "A" }
                       "a.las"] },
        tags := [("A", 0)], inputs := [0] }
      { spec := { m_path := "b.las" }, specifiedInputs := [0] } (.string "A") ["A"] [0]
      (by norm_num) rfl rfl (by decide) rfl rfl (by decide) rfl,
   reader_inputs_not_permitted.2 (fun _ => []) (.array [.string "a.las", .string "out.las"]) {}
      (fun s hs => absurd hs (List.not_mem_nil s)) (by decide)⟩

/-- C10 (the code at the failing input): the glob of the path of the tagged
Reader node `{"filename": "*.las", "tag": "r"}` matches two files; the
compilation ends without a throw and both Readers made for the node carry the
tag `r`, two distinct stages of the graph with the same non-empty tag. -/
theorem tagged_reader_fan_out_shares_tag :
    (parsePipeline (fun p => if p = "*.las" then ["a.las", "b.las"] else [])
      (.array [.object [("filename", .string "*.las"), ("tag", .string "r")],
               .string "out.las"]) {}).thrown = none ∧
    (parsePipeline (fun p => if p = "*.las" then ["a.las", "b.las"] else [])
      (.array [.object [("filename", .string "*.las"), ("tag", .string "r")],
               .string "out.las"]) {}).manager.m_stages.map
        (fun s => (s.role, s.m_fileSpec.m_path, s.m_tag)) =
      [(Role.Reader, "a.las", "r"), (Role.Reader, "b.las", "r"), (Role.Writer, "out.las", "")] := by
  decide

/-- C12: after every compilation that ends without a throw, every input of
every stage made by the compilation is a stage made by the compilation
strictly earlier than the stage itself (handles are positions in the order of
creation): for a manager that held `n0` stages before the call, the stage at
position `k ≥ n0` has only inputs `h` with `n0 ≤ h < k`.  So no stage is its
own input and none is an input of a stage made before it; the stages the
manager held before stay in place. -/
theorem compiled_graph_acyclic (glob : String → List String) (tree : Json)
    (manager : PipelineManager)
    (hnone : (parsePipeline glob tree manager).thrown = none) :
    (∃ new : List Stage,
      (parsePipeline glob tree manager).manager.m_stages = manager.m_stages ++ new) ∧
    ∀ (k : Nat) (s : Stage), manager.m_stages.length ≤ k →
      (parsePipeline glob tree manager).manager.m_stages[k]? = some s →
      ∀ h ∈ s.m_inputs, manager.m_stages.length ≤ h ∧ h < k := by
  constructor
  · obtain ⟨new, e⟩ := parseLoop_extends glob tree (lastIndex tree) tree.size 0
      { manager := manager }
    exact ⟨new, by rw [parsePipeline_stages, e]⟩
  · obtain ⟨st, hrun, hst⟩ := parsePipeline_thrown_none glob tree manager hnone
    have h0 : handlesEarlier manager.m_stages.length { manager := manager } := by
      refine ⟨le_refl _, ?_, ?_, ?_⟩
      · intro k s hk hs
        have hnone : manager.m_stages[k]? = none := List.getElem?_eq_none (by omega)
        rw [hnone] at hs
        cases hs
      · intro h hh; cases hh
      · intro t h hf; cases hf
    have hinv := parseLoop_invariant glob tree (lastIndex tree)
      (handlesEarlier manager.m_stages.length)
      (fun i node st0 st1 hP hb =>
        loopBody_handlesEarlier glob (lastIndex tree) i node _ st0 st1 hP hb)
      tree.size 0 { manager := manager } st h0 hrun
    intro k s hk hs
    rw [hst] at hs
    exact hinv.2.1 k s hk hs

theorem compiled_graph_acyclic_witness :
    (parsePipeline (fun _ => [])
      (.array [.object [("filename", .string "a.las"), ("tag", .string "A")],
               .object [("inputs", .string "A"), ("type", .string "filters.x")],
               .string "out.las"]) {}).thrown = none ∧
    ∀ h ∈ (filterStage { type := "filters.x", specifiedInputs := [0] } [0]).m_inputs,
      0 ≤ h ∧ h < 1 :=
  ⟨by decide,
   (compiled_graph_acyclic (fun _ => [])
    (.array [.object [("filename", .string "a.las"), ("tag", .string "A")],
             .object [("inputs", .string "A"), ("type", .string "filters.x")],
             .string "out.las"]) {} (by decide)).2 1
    (filterStage { type := "filters.x", specifiedInputs := [0] } [0]) (Nat.zero_le 1) rfl⟩

/-- C13: `extractTag` on a node without the key `tag` returns the empty tag
and the node as it is.  On a node with the key `tag` (the registered tags
being tag names, as they are throughout a compilation) it throws "tag must be
specified as a string" for a value that is neither null nor a string, and the
invalid-tag-name error for null (naming the empty tag) and for every string
that does not start with a letter or does not continue with letters, digits
or underscores only, the empty string included; whenever it returns, the
value is a string with the syntax of a tag name and is the tag returned.  The
tags a run of the loop has registered, starting from no tag, are tag names. -/
theorem extractTag_validates :
    (∀ (node : Json) (tags : TagMap),
      (∀ t, (TagMap.find tags t).isSome = true → validTagName t = true) →
      (node.find "tag" = none → extractTag node tags = .ok ("", node)) ∧
      (∀ val, node.find "tag" = some val →
        (val.is_null = false → val.is_string = false →
          extractTag node tags =
            .error (.pdal_error "JSON pipeline: tag must be specified as a string.")) ∧
        (val = .null → extractTag node tags = .error (invalidTagName "")) ∧
        (∀ t, val = .string t → validTagName t = false →
          extractTag node tags = .error (invalidTagName t)) ∧
        (∀ tag node3, extractTag node tags = .ok (tag, node3) →
          val = .string tag ∧ validTagName tag = true))) ∧
    (∀ (glob : String → List String) (tree : Json) (manager : PipelineManager) (k : Nat)
      (st : LoopState),
      parseLoop glob tree (lastIndex tree) k 0 { manager := manager } = .ok st →
      ∀ t, (TagMap.find st.tags t).isSome = true → validTagName t = true) := by
  constructor
  · intro node tags hreg
    constructor
    · intro hf
      simp only [extractTag, hf]
    · intro val hf
      obtain ⟨k1, k2, k3, -⟩ := extractTag_of_key node val tags hf
      have hnone : ∀ t, validTagName t = false → TagMap.find tags t = none := by
        intro t hv
        cases hfind : TagMap.find tags t with
        | none => rfl
        | some x =>
          have := hreg t (by rw [hfind]; rfl)
          rw [this] at hv
          cases hv
      refine ⟨k2, k1, fun t hv hinv => k3 t hv hinv (hnone t hinv), ?_⟩
      intro tag node3 hok
      cases val
      case null => rw [k1 rfl] at hok; cases hok
      case string t =>
        obtain ⟨e1, -, e3⟩ := extractTag_string node node3 tags t tag hf hok
        subst e1
        refine ⟨rfl, ?_⟩
        rcases extractTag_ok_valid node node3 tags tag hok with h1 | h1
        · rw [h1] at e3
          exact absurd rfl e3
        · exact h1
      all_goals (rw [k2 rfl rfl] at hok; cases hok)
  · intro glob tree manager k st hrun
    exact parseLoop_invariant glob tree (lastIndex tree)
      (fun st => ∀ t, (TagMap.find st.tags t).isSome = true → validTagName t = true)
      (fun i node st0 st1 hP hb => loopBody_tags_valid glob (lastIndex tree) i node st0 st1 hP hb)
      k 0 { manager := manager } st (fun t ht => by cases ht) hrun

theorem extractTag_validates_witness :
    extractTag (.object [("tag", .string "1a")]) [] = .error (invalidTagName "1a") ∧
    extractTag (.object [("tag", .string "")]) [] = .error (invalidTagName "") ∧
    extractTag (.object [("tag", .null)]) [] = .error (invalidTagName "") ∧
    extractTag (.object [("tag", .number_unsigned 3)]) [] =
      .error (.pdal_error "JSON pipeline: tag must be specified as a string.") ∧
    extractTag (.object [("type", .string "filters.x")]) [] =
      .ok ("", .object [("type", .string "filters.x")]) ∧
    validTagName "A" = true :=
  ⟨((extractTag_validates.1 (.object [("tag", .string "1a")]) []
      (fun t ht => by cases ht)).2 (.string "1a") rfl).2.2.1 "1a" rfl (by decide),
   ((extractTag_validates.1 (.object [("tag", .string "")]) []
      (fun t ht => by cases ht)).2 (.string "") rfl).2.2.1 "" rfl (by decide),
   ((extractTag_validates.1 (.object [("tag", .null)]) []
      (fun t ht => by cases ht)).2 .null rfl).2.1 rfl,
   ((extractTag_validates.1 (.object [("tag", .number_unsigned 3)]) []
      (fun t ht => by cases ht)).2 (.number_unsigned 3) rfl).1 rfl rfl,
   (extractTag_validates.1 (.object [("type", .string "filters.x")]) []
      (fun t ht => by cases ht)).1 rfl,
   extractTag_validates.2 (fun _ => [])
      (.array [.object [("filename", .string "a.las"), ("tag", .string "A")]]) {} 1
      { manager := { m_stages := [readerStage { spec := { m_path := "a.las" }, tag := "A" }
          "a.las"] }, tags := [("A", 0)], inputs := [0] } rfl "A" rfl⟩

/-- C14: for every Reader node whose path glob yields no matches the body of
the loop makes exactly one stage, a Reader whose file is the locator of the
node with its original path verbatim (also when the node specifies inputs and
the body throws after making it); without specified inputs the body ends and
appends the handle of this Reader to the input set.  The glob itself returns
the empty list for a pattern that no existing file matches. -/
theorem unmatched_reader_path_kept :
    (∀ (glob : String → List String) (elems : List Json) (i : Nat) (hi : i < elems.length)
      (st : LoopState) (parts : NodeParts),
      elems.length < 2 ^ 64 →
      extractNode elems[i] st.tags = .ok parts →
      specRole parts.type i elems.length = .Reader →
      glob parts.spec.m_path = [] →
      ∃ r : Stage,
        (managerAfter (loopBody glob (lastIndex (.array elems)) i elems[i] st)).m_stages =
          st.manager.m_stages ++ [r] ∧
        r.role = .Reader ∧ r.m_fileSpec = parts.spec ∧ r.m_inputs = [] ∧
        (parts.specifiedInputs = [] →
          ∃ st1, loopBody glob (lastIndex (.array elems)) i elems[i] st = .ok st1 ∧
            st1.inputs = st.inputs ++ [st.manager.m_stages.length])) ∧
    (∀ (files : List String) (fits : String → String → Bool) (pattern : String),
      (∀ path ∈ files, fits pattern path = false) →
      Utils.glob files fits pattern = []) := by
  constructor
  · intro glob elems i hi st parts hn hx hrole hg
    have hR := (cond_specRole parts.type i elems.length hi hn).1.mpr hrole
    have hfiles : readerFiles glob parts.spec.m_path = [parts.spec.m_path] := by
      simp [readerFiles, hg]
    refine ⟨readerStage parts parts.spec.m_path, ?_, rfl, rfl, rfl, ?_⟩
    · by_cases h0 : parts.specifiedInputs = []
      · obtain ⟨st1, e1, e2, -, -, -⟩ := loopBody_reader_ok glob (lastIndex (.array elems)) i
          elems[i] st parts hx hR h0
        rw [e1, hfiles] at *
        exact e2
      · obtain ⟨path, rest, e1, e2⟩ := loopBody_reader_throw glob (lastIndex (.array elems)) i
          elems[i] st parts hx hR h0
        rw [hfiles] at e1
        cases e1
        rw [e2]
        rfl
    · intro h0
      obtain ⟨st1, e1, -, -, e4, -⟩ := loopBody_reader_ok glob (lastIndex (.array elems)) i
        elems[i] st parts hx hR h0
      rw [hfiles] at e4
      exact ⟨st1, e1, e4⟩
  · intro files fits pattern h
    unfold Utils.glob
    exact List.filter_eq_nil_iff.mpr (fun path hp => by simp [h path hp])

theorem unmatched_reader_path_kept_witness :
    (∃ r : Stage,
      (managerAfter (loopBody (Utils.glob ["a.las"] (fun p f => p == f))
        (lastIndex (.array [.string "missing.las", .string "out.las"])) 0
        (.string "missing.las") { manager := {} })).m_stages = [] ++ [r] ∧
      r.role = .Reader ∧ r.m_fileSpec = { m_path := "missing.las" } ∧ r.m_inputs = [] ∧
      (([] : List Nat) = [] →
        ∃ st1, loopBody (Utils.glob ["a.las"] (fun p f => p == f))
          (lastIndex (.array [.string "missing.las", .string "out.las"])) 0
          (.string "missing.las") { manager := {} } = .ok st1 ∧
          st1.inputs = [] ++ [0])) ∧
    Utils.glob ["a.las"] (fun p f => p == f) "missing.las" = [] :=
  ⟨unmatched_reader_path_kept.1 (Utils.glob ["a.las"] (fun p f => p == f))
      [.string "missing.las", .string "out.las"] 0 (by decide) { manager := {} }
      { spec := { m_path := "missing.las" } } (by norm_num) rfl (by decide) (by decide),
   unmatched_reader_path_kept.2 ["a.las"] (fun p f => p == f) "missing.las" (by decide)⟩

/-- C15: for every Filter node the body of the loop makes exactly one stage, a
Filter `w`; its inputs are the current input set (the specified inputs when
the node specifies any, else the accumulated set) and the input set is then
the handle of `w` alone.  The options of `w` are the extracted options of the
node, followed by one entry named `filename` holding the path of the locator
exactly when the locator is valid, that is when its path is not empty; they
are the extracted options alone when the node has no key `filename`. -/
theorem filter_node_wiring (glob : String → List String) (elems : List Json) (i : Nat)
    (hi : i < elems.length) (hn : elems.length < 2 ^ 64) (st : LoopState) (parts : NodeParts)
    (hx : extractNode elems[i] st.tags = .ok parts)
    (hrole : specRole parts.type i elems.length = .Filter) :
    ∃ (st1 : LoopState) (w : Stage),
      loopBody glob (lastIndex (.array elems)) i elems[i] st = .ok st1 ∧
      st1.manager.m_stages = st.manager.m_stages ++ [w] ∧
      w.role = .Filter ∧
      w.m_inputs = currentInputs parts st.inputs ∧
      (parts.specifiedInputs = [] → w.m_inputs = st.inputs) ∧
      st1.inputs = [st.manager.m_stages.length] ∧
      (parts.spec.valid = true ↔ parts.spec.m_path ≠ "") ∧
      (parts.spec.m_path ≠ "" →
        w.m_options = parts.options ++ [("filename", OptionValue.string parts.spec.m_path)]) ∧
      (parts.spec.m_path = "" → w.m_options = parts.options) ∧
      (elems[i].find "filename" = none → w.m_options = parts.options) := by
  obtain ⟨-, -, h3⟩ := cond_specRole parts.type i elems.length hi hn
  obtain ⟨hR, hW⟩ := h3.mpr hrole
  obtain ⟨st1, e1, e2, -, e4, -⟩ :=
    loopBody_filter glob (lastIndex (.array elems)) i elems[i] st parts hx hR hW
  have hvalid : parts.spec.valid = true ↔ parts.spec.m_path ≠ "" := by
    simp [FileSpec.valid, data_eq_nil_iff]
  have hempty : parts.spec.m_path = "" → filterOptions parts = parts.options := by
    intro h
    have hv : parts.spec.valid = false := by
      cases hc : parts.spec.valid with
      | false => rfl
      | true => exact absurd h (hvalid.mp hc)
    simp [filterOptions, hv]
  refine ⟨st1, filterStage parts (currentInputs parts st.inputs), e1, e2, rfl, rfl, ?_, e4,
    hvalid, ?_, hempty, ?_⟩
  · intro h0
    simp [filterStage, currentInputs, h0]
  · intro hne
    show filterOptions parts = _
    simp [filterOptions, hvalid.mpr hne, Options.add]
  · intro hf
    have hns : ∀ s, elems[i] ≠ .string s := by
      intro s hs
      rw [hs] at hx
      simp only [extractNode] at hx
      cases hx
      simp [specRole, Utils.startsWith] at hrole
      split at hrole <;> cases hrole
    have hspec := extractNode_no_filename elems[i] st.tags parts hns hx hf
    exact hempty (by rw [hspec])

theorem filter_node_wiring_witness :
    ∃ (st1 : LoopState) (w : Stage),
      loopBody (fun _ => []) (lastIndex (.array [.string "a.las",
          .object [("filename", .string "dem.tif"), ("type", .string "filters.hag")]])) 1
        (.object [("filename", .string "dem.tif"), ("type", .string "filters.hag")])
        { manager := { m_stages := [readerStage { spec := { m_path := "a.las" } } "a.las"] },
          inputs := [0] } = .ok st1 ∧
      st1.manager.m_stages = [readerStage { spec := { m_path := "a.las" } } "a.las"] ++ [w] ∧
      w.role = .Filter ∧
      w.m_inputs = [0] ∧
      w.m_options = [("filename", OptionValue.string "dem.tif")] := by
  obtain ⟨st1, w, h1, h2, h3, h4, -, -, -, h8, -, -⟩ :=
    filter_node_wiring (fun _ => [])
      [.string "a.las",
        .object [("filename", .string "dem.tif"), ("type", .string "filters.hag")]] 1
      (by decide) (by norm_num)
      { manager := { m_stages := [readerStage { spec := { m_path := "a.las" } } "a.las"] },
        inputs := [0] }
      { spec := { m_path := "dem.tif" }, type := "filters.hag" } rfl (by decide)
  exact ⟨st1, w, h1, h2, h3, h4, h8 (by decide)⟩

/-- C16: `readPipeline` compiles the value under the key `pipeline` when the
parsed root is an object that has this key, compiles the root itself when the
root is an array, and in every other case throws "root element is not a
pipeline" and leaves the manager as it is.  Hence a list given bare and the
same list wrapped in an object under the key `pipeline` compile to the same
graph or the same failure. -/
theorem readPipeline_root (parse : String → Except String Json) (glob : String → List String)
    (input : String) (manager : PipelineManager) (root : Json)
    (hparse : parse input = .ok root) :
    (∀ members tree, root = .object members → members.lookup "pipeline" = some tree →
      readPipeline parse glob input manager = parsePipeline glob tree manager) ∧
    (∀ elems, root = .array elems →
      readPipeline parse glob input manager = parsePipeline glob (.array elems) manager) ∧
    (root.is_array = false → (root.is_object = false ∨ root.find "pipeline" = none) →
      readPipeline parse glob input manager =
        { manager := manager,
          thrown := some (.pdal_error "Pipeline: root element is not a pipeline.") }) ∧
    (∀ (input2 : String) (elems : List Json) (members : List (String × Json)),
      root = .array elems → parse input2 = .ok (.object members) →
      members.lookup "pipeline" = some (.array elems) →
      readPipeline parse glob input2 manager = readPipeline parse glob input manager) := by
  have hobj : ∀ (inp : String) members tree, parse inp = .ok (.object members) →
      members.lookup "pipeline" = some tree →
      readPipeline parse glob inp manager = parsePipeline glob tree manager := by
    intro inp members tree hp hl
    simp only [readPipeline, hp, readRoot, Json.is_object, Json.find, hl]
  have harr : ∀ elems, root = .array elems →
      readPipeline parse glob input manager = parsePipeline glob (.array elems) manager := by
    intro elems hr
    subst hr
    simp only [readPipeline, hparse, readRoot, Json.is_object, Json.find, Json.is_array, if_true]
  refine ⟨?_, harr, ?_, ?_⟩
  · intro members tree hr hl
    subst hr
    exact hobj input members tree hparse hl
  · intro ha ho
    simp only [readPipeline, hparse, readRoot]
    rcases ho with h | h
    · rw [h]
      simp only [ha, Bool.false_eq_true, if_false]
    · rw [h]
      cases root.is_object <;> simp only [ha, Bool.false_eq_true, if_false]
  · intro input2 elems members hr hp2 hl
    rw [hobj input2 members (.array elems) hp2 hl, harr elems hr]

theorem readPipeline_root_witness :
    readPipeline (fun text => if text = "bare" then .ok (.array [.string "a.las"])
        else .ok (.object [("pipeline", .array [.string "a.las"])]))
      (fun _ => []) "wrapped" {} =
    readPipeline (fun text => if text = "bare" then .ok (.array [.string "a.las"])
        else .ok (.object [("pipeline", .array [.string "a.las"])]))
      (fun _ => []) "bare" {} :=
  (readPipeline_root (fun text => if text = "bare" then .ok (.array [.string "a.las"])
        else .ok (.object [("pipeline", .array [.string "a.las"])]))
    (fun _ => []) "bare" {} (.array [.string "a.las"]) rfl).2.2.2 "wrapped" [.string "a.las"]
    [("pipeline", .array [.string "a.las"])] rfl rfl rfl

/-- C17: a run of the loop that ends is a compilation without a throw,
however many leaves the graph has.  With more than one leaf the log gets the
two lines of the warning and then one line for every leaf, in the order of
`leaves()`, with the tag of the leaf when it is not empty and its stage-type
name otherwise; `leaves()` holds every stage that is no input of a stage
exactly once.  With at most one leaf nothing is logged. -/
theorem leaf_warning (glob : String → List String) (tree : Json) (manager : PipelineManager)
    (st : LoopState)
    (hrun : parseLoop glob tree (lastIndex tree) tree.size 0 { manager := manager } = .ok st) :
    (parsePipeline glob tree manager).thrown = none ∧
    (parsePipeline glob tree manager).manager.leaves = st.manager.leaves ∧
    (st.manager.leaves.length > 1 →
      (parsePipeline glob tree manager).manager.m_log =
        manager.m_log ++ ["Pipeline has multiple leaf nodes.\n",
          "Only the first of the following leaf nodes will be run.\n"] ++
          st.manager.leaves.map
            (fun s => "    " ++ (if s.2.m_tag = "" then s.2.getName else s.2.m_tag) ++ "\n")) ∧
    (st.manager.leaves.length ≤ 1 →
      (parsePipeline glob tree manager).manager.m_log = manager.m_log) ∧
    (st.manager.leaves.map Prod.fst).Nodup ∧
    (∀ (h : Nat) (s : Stage), (h, s) ∈ st.manager.leaves ↔
      (st.manager.m_stages[h]? = some s ∧ ∀ x ∈ st.manager.m_stages, h ∉ x.m_inputs)) := by
  have hlog : st.manager.m_log = manager.m_log :=
    parseLoop_invariant glob tree (lastIndex tree)
      (fun s => s.manager.m_log = manager.m_log)
      (fun i node st0 st1 hP hb =>
        (loopBody_ok_log glob (lastIndex tree) i node st0 st1 hb).trans hP)
      tree.size 0 { manager := manager } st rfl hrun
  have hname : ∀ s : Stage, leafName s = if s.m_tag = "" then s.getName else s.m_tag := by
    intro s
    unfold leafName
    by_cases h : s.m_tag = ""
    · simp [h]
    · have hd : s.m_tag.data ≠ [] := fun hd => h ((data_eq_nil_iff _).mp hd)
      have hl : (s.m_tag.data.length != 0) = true := by
        have hne : s.m_tag.data.length ≠ 0 := fun h0 => hd (List.length_eq_zero.mp h0)
        exact bne_iff_ne.mpr hne
      simp only [hl, if_true, h, if_false]
  obtain ⟨r1, r2⟩ := parsePipeline_ok glob tree manager st hrun
  have hman : (parsePipeline glob tree manager).manager = reportLeaves st.manager := by
    unfold parsePipeline
    rw [hrun]
  refine ⟨r1, leaves_congr _ _ r2, ?_, ?_, (leaves_spec st.manager).1, (leaves_spec st.manager).2⟩
  · intro h
    rw [hman, reportLeaves_log, if_pos h, hlog]
    congr 1
    exact List.map_congr_left (fun s _ => by rw [hname])
  · intro h
    rw [hman, reportLeaves_log, if_neg (by omega), hlog]

theorem leaf_warning_witness :
    (parsePipeline (fun _ => [])
      (.array [.object [("filename", .string "a.las"), ("tag", .string "A")],
               .object [("inputs", .string "A"), ("tag", .string "F1"),
                        ("type", .string "filters.x")],
               .object [("inputs", .string "A"), ("type", .string "filters.y")]])
      {}).thrown = none ∧
    (parsePipeline (fun _ => [])
      (.array [.object [("filename", .string "a.las"), ("tag", .string "A")],
               .object [("inputs", .string "A"), ("tag", .string "F1"),
                        ("type", .string "filters.x")],
               .object [("inputs", .string "A"), ("type", .string "filters.y")]])
      {}).manager.m_log =
      ["Pipeline has multiple leaf nodes.\n",
       "Only the first of the following leaf nodes will be run.\n",
       "    F1\n", "    filters.y\n"] := by
  have h := leaf_warning (fun _ => [])
    (.array [.object [("filename", .string "a.las"), ("tag", .string "A")],
             .object [("inputs", .string "A"), ("tag", .string "F1"),
                      ("type", .string "filters.x")],
             .object [("inputs", .string "A"), ("type", .string "filters.y")]]) {}
    { manager := { m_stages := [readerStage { spec := { m_path := "a.las" }, tag := "A" } "a.las",
        filterStage { type := "filters.x", tag := "F1", specifiedInputs := [0] } [0],
        filterStage { type := "filters.y", specifiedInputs := [0] } [0]] },
      tags := [("F1", 1), ("A", 0)], inputs := [2] } rfl
  exact ⟨h.1, by decide⟩

/-- C19: `extractOption` coerces a scalar JSON value to exactly one typed
value: a string to a string, a non-negative integer (stored by the parser as
an unsigned number) to an unsigned integer, a negative integer (stored as a
signed number) to a signed integer, a number that is no integer to a double,
a boolean to a bool and null to the empty string.  In each case exactly one
entry with the given name is appended and `true` is returned. -/
theorem extractOption_coerces (options : Options) (name : String) :
    (∀ s, extractOption options name (.string s) =
      (true, options ++ [(name, OptionValue.string s)])) ∧
    (∀ i : Int, 0 ≤ i → extractOption options name (Json.ofInteger i) =
      (true, options ++ [(name, OptionValue.unsigned i.toNat)])) ∧
    (∀ i : Int, i < 0 → extractOption options name (Json.ofInteger i) =
      (true, options ++ [(name, OptionValue.signed i)])) ∧
    (∀ n, extractOption options name (.number_unsigned n) =
      (true, options ++ [(name, OptionValue.unsigned n)])) ∧
    (∀ i, extractOption options name (.number_integer i) =
      (true, options ++ [(name, OptionValue.signed i)])) ∧
    (∀ d, extractOption options name (.number_float d) =
      (true, options ++ [(name, OptionValue.double d)])) ∧
    (∀ b, extractOption options name (.boolean b) =
      (true, options ++ [(name, OptionValue.bool b)])) ∧
    extractOption options name .null = (true, options ++ [(name, OptionValue.string "")]) := by
  refine ⟨fun _ => rfl, ?_, ?_, fun _ => rfl, fun _ => rfl, fun _ => rfl, fun _ => rfl, rfl⟩
  · intro i hi
    simp only [Json.ofInteger, hi, if_true]
    rfl
  · intro i hi
    have hn : ¬ (0 ≤ i) := by omega
    simp only [Json.ofInteger, hn, if_false]
    rfl

theorem extractOption_coerces_witness :
    extractOption [("limit", OptionValue.unsigned 1)] "limit" (Json.ofInteger 5) =
      (true, [("limit", OptionValue.unsigned 1)] ++ [("limit", OptionValue.unsigned 5)]) ∧
    extractOption [] "offset" (Json.ofInteger (-3)) =
      (true, [] ++ [("offset", OptionValue.signed (-3))]) :=
  ⟨(extractOption_coerces [("limit", OptionValue.unsigned 1)] "limit").2.1 5 (by decide),
   (extractOption_coerces [] "offset").2.2.1 (-3) (by decide)⟩

/-- C20: for an option key `name` whose value is a list of `m` elements,
`extractOptions` appends exactly `m` entries under this name, in the order of
the elements, after the options collected before, none of which is changed:
an element that is an object is passed through as a structured value, every
other element gives the value `extractOption` coerces it to.  The empty list
adds no entry. -/
theorem list_option_entries (name : String) (elems : List Json) (options : Options)
    (rest : List (String × Json)) (hname : name ≠ "plugin") :
    extractOptionList name elems options =
      .ok (options ++ elems.map (fun v => (name, entryValue v))) ∧
    extractOptionItems ((name, .array elems) :: rest) options =
      extractOptionItems rest (options ++ elems.map (fun v => (name, entryValue v))) ∧
    (options ++ elems.map (fun v => (name, entryValue v))).length =
      options.length + elems.length ∧
    (∀ v ∈ elems, v.is_object = true → entryValue v = OptionValue.json v) ∧
    (∀ v ∈ elems, v.is_object = false →
      extractOption [] name v = (true, [(name, entryValue v)])) ∧
    extractOptionList name [] options = .ok options := by
  refine ⟨extractOptionList_eq name elems options, ?_, by simp, ?_, ?_, rfl⟩
  · simp only [extractOptionItems, hname, if_false, extractOptionList_eq]
  · intro v _ hv
    cases v <;> first | rfl | (simp [Json.is_object] at hv)
  · intro v _ hv
    exact extractOption_eq [] name v hv

theorem list_option_entries_witness :
    extractOptions (.object [("dims", .array [.string "X", .number_unsigned 2,
        .object [("a", .null)]]), ("none", .array [])]) =
      .ok [("dims", OptionValue.string "X"), ("dims", OptionValue.unsigned 2),
           ("dims", OptionValue.json (.object [("a", .null)]))] := by
  have h := (list_option_entries "dims" [.string "X", .number_unsigned 2,
    .object [("a", .null)]] [] [("none", .array [])] (by decide)).2.1
  exact h.trans rfl

/-- C18: for every structured node (an object, its keys pairwise different)
whose keys can be extracted, the Option Bag holds the entries of the members
that remain after `type`, `filename`, `tag` and `inputs` are removed, in
their order, and no entry for `plugin`: every entry is named by a key of the
node other than these five, every member with another key contributes its
entries (one per element for a list, else one) under its own name, and no
stage made for the node has an option named `type`, `tag`, `inputs` or
`plugin`. -/
theorem options_exclude_recognised_keys (glob : String → List String) (last i : Nat)
    (members : List (String × Json)) (st : LoopState) (parts : NodeParts)
    (hnd : (members.map Prod.fst).Nodup)
    (hx : extractNode (.object members) st.tags = .ok parts) :
    parts.options = specEntries (members.filter (fun m => !recognisedKeys.contains m.1)) ∧
    (∀ e ∈ parts.options, e.1 ∈ members.map Prod.fst ∧
      e.1 ∉ ["type", "filename", "tag", "inputs", "plugin"]) ∧
    (∀ name value, (name, value) ∈ members →
      name ∉ ["type", "filename", "tag", "inputs", "plugin"] →
      ∀ e ∈ memberEntries name value, e ∈ parts.options ∧ e.1 = name) ∧
    (∃ new : List Stage,
      (managerAfter (loopBody glob last i (.object members) st)).m_stages =
        st.manager.m_stages ++ new ∧
      ∀ s ∈ new, ∀ e ∈ s.m_options, e.1 ∉ ["type", "tag", "inputs", "plugin"]) := by
  have hopt := extractNode_object_options members st.tags parts hnd hx
  have hnames : ∀ e ∈ parts.options, e.1 ∈ members.map Prod.fst ∧
      e.1 ∉ ["type", "filename", "tag", "inputs", "plugin"] := by
    intro e he
    rw [hopt] at he
    obtain ⟨h1, h2⟩ := specEntries_names _ e he
    obtain ⟨m, hm, hme⟩ := List.mem_map.mp h2
    obtain ⟨hm1, hm2⟩ := List.mem_filter.mp hm
    refine ⟨hme ▸ List.mem_map_of_mem Prod.fst hm1, ?_⟩
    intro hin
    simp only [List.mem_cons, List.mem_singleton, List.not_mem_nil, or_false] at hin
    have hrec : recognisedKeys.contains m.1 = false := by simpa using hm2
    rw [← hme] at hin h1
    rcases hin with h | h | h | h | h
    · rw [h] at hrec; simp [recognisedKeys] at hrec
    · rw [h] at hrec; simp [recognisedKeys] at hrec
    · rw [h] at hrec; simp [recognisedKeys] at hrec
    · rw [h] at hrec; simp [recognisedKeys] at hrec
    · exact h1 h
  refine ⟨hopt, hnames, ?_, ?_⟩
  · intro name value hmem hname e he
    have hkeep : (name, value) ∈ members.filter (fun m => !recognisedKeys.contains m.1) := by
      apply List.mem_filter.mpr
      refine ⟨hmem, ?_⟩
      simp only [List.mem_cons, List.mem_singleton, List.not_mem_nil, or_false, not_or] at hname
      simp [recognisedKeys, hname.1, hname.2.1, hname.2.2.1, hname.2.2.2.1]
    refine ⟨by rw [hopt]; exact mem_specEntries _ name value hkeep e he, ?_⟩
    have hp : name ≠ "plugin" := by
      intro h
      apply hname
      simp [h]
    unfold memberEntries at he
    simp only [hp, if_false] at he
    cases value with
    | array elems =>
      simp only [List.mem_map] at he
      obtain ⟨v, -, rfl⟩ := he
      rfl
    | _ =>
      simp only [List.mem_singleton] at he
      rw [he]
  · obtain ⟨new, e1, e2⟩ := loopBody_created_options glob last i (.object members) st parts hx
    refine ⟨new, e1, ?_⟩
    intro s hs e he hin
    have hfrom : e ∈ parts.options ∨ e.1 = "filename" := by
      rcases e2 s hs with h | h
      · rw [h] at he; exact Or.inl he
      · rw [h] at he
        unfold filterOptions at he
        split at he
        · simp only [Options.add, List.mem_append, List.mem_singleton] at he
          rcases he with h1 | h1
          · exact Or.inl h1
          · rw [h1]; exact Or.inr rfl
        · exact Or.inl he
    simp only [List.mem_cons, List.mem_singleton, List.not_mem_nil, or_false] at hin
    rcases hfrom with h | h
    · apply (hnames e h).2
      simp only [List.mem_cons, List.mem_singleton, List.not_mem_nil, or_false]
      tauto
    · rw [h] at hin
      revert hin
      decide

theorem options_exclude_recognised_keys_witness :
    ({ spec := { m_path := "a.las" }, tag := "A", type := "readers.las",
       options := [("count", OptionValue.unsigned 5)] } : NodeParts).options =
      specEntries ([("count", Json.number_unsigned 5), ("filename", .string "a.las"),
        ("plugin", .string "libx"), ("tag", .string "A"),
        ("type", .string "readers.las")].filter (fun m => !recognisedKeys.contains m.1)) :=
  (options_exclude_recognised_keys (fun _ => []) 0 0
    [("count", .number_unsigned 5), ("filename", .string "a.las"),
     ("plugin", .string "libx"), ("tag", .string "A"), ("type", .string "readers.las")]
    { manager := {} }
    { spec := { m_path := "a.las" }, tag := "A", type := "readers.las",
      options := [("count", OptionValue.unsigned 5)] }
    (by decide) rfl).1

/-- C21 (as stated it fails): the value of the option key `dims` is a list
whose only element is itself a list, neither an object nor a scalar;
`extractOptions` does not throw but adds one entry holding the inner list, and
the compilation of the pipeline with this node ends without a throw. -/
theorem nested_list_option_counterexample :
    extractOptions (.object [("dims", .array [.array [.number_unsigned 1]])]) =
      .ok [("dims", OptionValue.list [.number_unsigned 1])] ∧
    (parsePipeline (fun _ => [])
      (.array [.string "a.las",
               .object [("dims", .array [.array [.number_unsigned 1]]),
                        ("type", .string "filters.x")]]) {}).thrown = none :=
  ⟨rfl, by decide⟩

/-- C21 (amended): for every option key whose value is a list, whatever its
elements are, the loop over the elements does not throw "Invalid value type
for option list": an element that is itself a list is converted by
`extractOption`, which returns `true`, to one entry holding the list of its
elements, like every other element that is no object. -/
theorem nested_list_element_is_kept (name : String) (elems : List Json) (options : Options) :
    (∀ e : Exn, extractOptionList name elems options ≠ .error e) ∧
    (∀ inner : List Json, extractOption options name (.array inner) =
      (true, options ++ [(name, OptionValue.list inner)])) ∧
    (∀ v : Json, v.is_object = false → (extractOption options name v).1 = true) ∧
    (∀ inner : List Json, Json.array inner ∈ elems →
      ∃ res, extractOptionList name elems options = .ok res ∧
        (name, OptionValue.list inner) ∈ res) := by
  refine ⟨?_, fun _ => rfl, ?_, ?_⟩
  · intro e h
    rw [extractOptionList_eq] at h
    cases h
  · intro v hv
    rw [extractOption_eq options name v hv]
  · intro inner hmem
    refine ⟨_, extractOptionList_eq name elems options, ?_⟩
    apply List.mem_append_right
    exact List.mem_map.mpr ⟨.array inner, hmem, rfl⟩

theorem nested_list_element_is_kept_witness :
    (extractOption [] "dims" (.array [.number_unsigned 1])).1 = true ∧
    ∃ res, extractOptionList "dims" [.array [.number_unsigned 1]] [] = .ok res ∧
      ("dims", OptionValue.list [.number_unsigned 1]) ∈ res :=
  ⟨(nested_list_element_is_kept "dims" [.array [.number_unsigned 1]] []).2.2.1
      (.array [.number_unsigned 1]) rfl,
   (nested_list_element_is_kept "dims" [.array [.number_unsigned 1]] []).2.2.2
      [.number_unsigned 1] (List.mem_singleton.mpr rfl)⟩

/-- C22: for every FileSpec `valid()` is true iff the path is not empty and
`onlyFilename()` is true iff both the headers and the query are empty.  The
locator the compiler builds for a bare string node `s` has the path `s`, has
`onlyFilename()` true, and is valid iff `s` is not empty. -/
theorem fileSpec_valid_onlyFilename (spec : FileSpec) (s : String) (tags : TagMap) :
    (spec.valid = true ↔ spec.m_path ≠ "") ∧
    (spec.onlyFilename = true ↔ (spec.m_headers = [] ∧ spec.m_query = [])) ∧
    (∃ parts : NodeParts, extractNode (.string s) tags = .ok parts ∧
      parts.spec.m_path = s ∧ parts.spec.onlyFilename = true ∧
      (parts.spec.valid = true ↔ s ≠ "")) := by
  have hvalid : ∀ sp : FileSpec, sp.valid = true ↔ sp.m_path ≠ "" := by
    intro sp
    simp [FileSpec.valid, data_eq_nil_iff]
  refine ⟨hvalid spec, ?_, ?_⟩
  · simp [FileSpec.onlyFilename, List.isEmpty_iff]
  · exact ⟨{ spec := { m_path := s } }, rfl, rfl, rfl, hvalid _⟩

/-- C27: for the empty configuration list, bare or under the key `pipeline`,
`last` wraps around to the largest value of `size_t`, the loop runs no
iteration (no node is indexed), and `parsePipeline` ends without a throw,
making no stage and registering no tag; for the empty manager nothing
changes at all. -/
theorem empty_list_compiles (glob : String → List String) (manager : PipelineManager) :
    lastIndex (.array []) = 2 ^ 64 - 1 ∧
    parseLoop glob (.array []) (lastIndex (.array [])) (Json.array []).size 0
      { manager := manager } = .ok { manager := manager, tags := [], inputs := [] } ∧
    (parsePipeline glob (.array []) manager).thrown = none ∧
    (parsePipeline glob (.array []) manager).manager.m_stages = manager.m_stages ∧
    parsePipeline glob (.array []) {} = { manager := {}, thrown := none } ∧
    readRoot glob (.array []) manager = parsePipeline glob (.array []) manager ∧
    readRoot glob (.object [("pipeline", .array [])]) manager =
      parsePipeline glob (.array []) manager := by
  have hrun : parseLoop glob (.array []) (lastIndex (.array [])) (Json.array []).size 0
      { manager := manager } = .ok { manager := manager, tags := [], inputs := [] } := rfl
  obtain ⟨r1, r2⟩ := parsePipeline_ok glob (.array []) manager _ hrun
  exact ⟨by decide, hrun, r1, r2, rfl, rfl, rfl⟩

/-- C24: for every path string `p` (no Windows platform) `getFilename p` is
the part of `p` after its last separator `/`: it is `post` when `p` is
`pre/post` and `post` has no `/`, however many separators `pre` has and
repeats; it is empty when `p` is empty or ends with `/`; it is `p` itself
when `p` has no `/`, a backslash being no separator; it never has a `/`.  The
expectations of the unit test hold. -/
theorem getFilename_after_last_separator (p : String) :
    ('/' ∉ p.data → FileUtils.getFilename p = p) ∧
    (∀ pre post : String, p = pre ++ "/" ++ post → '/' ∉ post.data →
      FileUtils.getFilename p = post) ∧
    (p = "" → FileUtils.getFilename p = "") ∧
    (∀ pre : String, p = pre ++ "/" → FileUtils.getFilename p = "") ∧
    '/' ∉ (FileUtils.getFilename p).data ∧
    FileUtils.getFilename "" = "" ∧
    FileUtils.getFilename "/" = "" ∧
    FileUtils.getFilename "/foo/bar/" = "" ∧
    FileUtils.getFilename "/foo//bar//baz.c" = "baz.c" ∧
    FileUtils.getFilename "C:\\foo\\bar\\baz.c" = "C:\\foo\\bar\\baz.c" := by
  have hsplit : ∀ pre post : String, p = pre ++ "/" ++ post → '/' ∉ post.data →
      FileUtils.getFilename p = post := by
    intro pre post hp hpost
    subst hp
    unfold FileUtils.getFilename
    have hd : (pre ++ "/" ++ post).data = pre.data ++ '/' :: post.data := by
      simp [String.data_append]
    rw [hd, afterLast_append_cons '/' pre.data post.data hpost]
  refine ⟨?_, hsplit, ?_, ?_, afterLast_not_mem '/' p.data, by decide, by decide, by decide,
    by decide, by decide⟩
  · intro h
    unfold FileUtils.getFilename
    rw [afterLast_of_not_mem '/' p.data h]
  · intro h
    subst h
    decide
  · intro pre hp
    exact hsplit pre "" (by rw [hp, String.append_empty]) (by simp)

theorem getFilename_after_last_separator_witness :
    FileUtils.getFilename "/foo//bar//baz.c" = "baz.c" ∧
    FileUtils.getFilename "C:\\foo\\bar\\baz.c" = "C:\\foo\\bar\\baz.c" ∧
    FileUtils.getFilename "/foo/bar/" = "" :=
  ⟨(getFilename_after_last_separator "/foo//bar//baz.c").2.1 "/foo//bar/" "baz.c"
      (by decide) (by decide),
   (getFilename_after_last_separator "C:\\foo\\bar\\baz.c").1 (by decide),
   (getFilename_after_last_separator "/foo/bar/").2.2.2.1 "/foo/bar" (by decide)⟩

/-- C25 (as stated it fails): the final component of the path `.` contains a
`.`, so the extension the claim describes is `.`, while the stem of `.` is `.`
itself, as the claim says and the unit test expects; the stem followed by this
extension is `..` and not the component.  No pair of functions has the three
properties the claim states. -/
theorem extension_of_dot_counterexample :
    FileUtils.getFilename "." = "." ∧
    FileUtils.stem "." ++ FileUtils.extension "." = ".." ∧
    ¬ ∃ (ext st : String → String),
      (∀ p : String, ext p =
        if (FileUtils.getFilename p).data.contains '.' then
          String.mk ('.' :: afterLast '.' (FileUtils.getFilename p).data)
        else "") ∧
      st "." = "." ∧
      (∀ p : String, st p ++ ext p = FileUtils.getFilename p) := by
  refine ⟨by decide, by decide, ?_⟩
  rintro ⟨ext, st, hA, hC, hD⟩
  have h := hD "."
  rw [hC, hA "."] at h
  exact absurd h (by decide)

/-- C25 (amended): for every path string `p` whose final component `c` is
neither `.` nor `..`, the extension is the suffix of `c` from its last `.` on,
or empty when `c` has no `.`, the stem is `c` without the extension, and the
stem followed by the extension is `c`.  The components `.` and `..` are their
own stems.  Extension and stem depend on the final component only (dots in
directory components are ignored).  The expectations of the unit test hold. -/
theorem extension_stem_of_final_component (p : String) :
    (FileUtils.getFilename p ≠ "." → FileUtils.getFilename p ≠ ".." →
      ('.' ∈ (FileUtils.getFilename p).data →
        FileUtils.extension p =
          String.mk ('.' :: afterLast '.' (FileUtils.getFilename p).data)) ∧
      ('.' ∉ (FileUtils.getFilename p).data → FileUtils.extension p = "") ∧
      FileUtils.stem p = String.mk ((FileUtils.getFilename p).data.take
        ((FileUtils.getFilename p).data.length - (FileUtils.extension p).data.length)) ∧
      FileUtils.stem p ++ FileUtils.extension p = FileUtils.getFilename p) ∧
    (FileUtils.getFilename p = "." ∨ FileUtils.getFilename p = ".." →
      FileUtils.stem p = FileUtils.getFilename p) ∧
    FileUtils.extension p = FileUtils.extension (FileUtils.getFilename p) ∧
    FileUtils.stem p = FileUtils.stem (FileUtils.getFilename p) ∧
    (∀ dir name : String, '/' ∉ name.data →
      FileUtils.extension (dir ++ "/" ++ name) = FileUtils.extension name ∧
      FileUtils.stem (dir ++ "/" ++ name) = FileUtils.stem name) ∧
    (FileUtils.extension "/foo//bar//baz.c" = ".c" ∧ FileUtils.extension "foobar" = "" ∧
      FileUtils.extension "/foo/bar" = "" ∧ FileUtils.extension "/fo.o/b.ar.baz23" = ".baz23") ∧
    (FileUtils.stem "/foo//bar//baz.c" = "baz" ∧ FileUtils.stem "foobar" = "foobar" ∧
      FileUtils.stem "/foo/bar" = "bar" ∧ FileUtils.stem "/fo.o/b.ar.baz23" = "b.ar" ∧
      FileUtils.stem "." = "." ∧ FileUtils.stem ".." = "..") := by
  have hdot : FileUtils.getFilename p = "." ↔ (FileUtils.getFilename p).data = ['.'] :=
    ⟨fun h => by rw [h], fun h => String.ext h⟩
  have hdots : FileUtils.getFilename p = ".." ↔ (FileUtils.getFilename p).data = ['.', '.'] :=
    ⟨fun h => by rw [h], fun h => String.ext h⟩
  have hsame : ∀ q r : String, FileUtils.getFilename q = FileUtils.getFilename r →
      FileUtils.extension q = FileUtils.extension r ∧ FileUtils.stem q = FileUtils.stem r := by
    intro q r h
    have he : FileUtils.extension q = FileUtils.extension r := by
      unfold FileUtils.extension
      rw [h]
    refine ⟨he, ?_⟩
    unfold FileUtils.stem
    rw [h, he]
  have hown : ∀ q : String, '/' ∉ q.data → FileUtils.getFilename q = q := by
    intro q hq
    show String.mk (afterLast '/' q.data) = q
    rw [afterLast_of_not_mem '/' _ hq]
  have hidem : FileUtils.getFilename (FileUtils.getFilename p) = FileUtils.getFilename p :=
    hown _ (afterLast_not_mem '/' p.data)
  have hwith : '.' ∈ (FileUtils.getFilename p).data →
      FileUtils.extension p =
        String.mk ('.' :: afterLast '.' (FileUtils.getFilename p).data) := by
    intro h3
    have h5 : (FileUtils.getFilename p).data.contains '.' = true := by simpa using h3
    simp only [FileUtils.extension, h5, if_true]
  have hwithout : '.' ∉ (FileUtils.getFilename p).data → FileUtils.extension p = "" := by
    intro h3
    have h5 : (FileUtils.getFilename p).data.contains '.' = false := by simpa using h3
    simp only [FileUtils.extension, h5, Bool.false_eq_true, if_false]
  have hspecial : FileUtils.getFilename p = "." ∨ FileUtils.getFilename p = ".." →
      FileUtils.stem p = FileUtils.getFilename p := by
    intro h
    have h2 : (FileUtils.getFilename p).data = ['.'] ∨
        (FileUtils.getFilename p).data = ['.', '.'] := h.imp hdot.mp hdots.mp
    simp only [FileUtils.stem, h2, if_true]
  have hstem : FileUtils.getFilename p ≠ "." → FileUtils.getFilename p ≠ ".." →
      FileUtils.stem p = String.mk ((FileUtils.getFilename p).data.take
        ((FileUtils.getFilename p).data.length - (FileUtils.extension p).data.length)) := by
    intro h1 h2
    have h4 : ¬ ((FileUtils.getFilename p).data = ['.'] ∨
        (FileUtils.getFilename p).data = ['.', '.']) := by
      rintro (h | h)
      · exact h1 (hdot.mpr h)
      · exact h2 (hdots.mpr h)
    simp only [FileUtils.stem, h4, if_false]
  have hcat : FileUtils.getFilename p ≠ "." → FileUtils.getFilename p ≠ ".." →
      FileUtils.stem p ++ FileUtils.extension p = FileUtils.getFilename p := by
    intro h1 h2
    rw [hstem h1 h2]
    by_cases h3 : '.' ∈ (FileUtils.getFilename p).data
    · apply String.ext
      rw [String.data_append, hwith h3]
      simp only [List.length_cons]
      have hsp := split_at_last '.' (FileUtils.getFilename p).data h3
      have hlen : (FileUtils.getFilename p).data.length -
          ((afterLast '.' (FileUtils.getFilename p).data).length + 1) =
          (FileUtils.getFilename p).data.length -
            (afterLast '.' (FileUtils.getFilename p).data).length - 1 := by omega
      rw [hlen]
      exact hsp.symm
    · rw [hwithout h3, String.append_empty]
      apply String.ext
      simp
  refine ⟨fun h1 h2 => ⟨hwith, hwithout, hstem h1 h2, hcat h1 h2⟩, hspecial,
    (hsame p _ hidem.symm).1, (hsame p _ hidem.symm).2, ?_,
    ⟨by decide, by decide, by decide, by decide⟩,
    ⟨by decide, by decide, by decide, by decide, by decide, by decide⟩⟩
  intro dir name hname
  apply hsame
  rw [hown name hname]
  show String.mk (afterLast '/' (dir ++ "/" ++ name).data) = name
  have hd : (dir ++ "/" ++ name).data = dir.data ++ '/' :: name.data := by
    simp [String.data_append]
  rw [hd, afterLast_append_cons '/' dir.data name.data hname]

theorem extension_stem_of_final_component_witness :
    (FileUtils.extension "/fo.o/b.ar.baz23" =
        String.mk ('.' :: afterLast '.' (FileUtils.getFilename "/fo.o/b.ar.baz23").data) ∧
      FileUtils.stem "/fo.o/b.ar.baz23" ++ FileUtils.extension "/fo.o/b.ar.baz23" =
        FileUtils.getFilename "/fo.o/b.ar.baz23") ∧
    FileUtils.extension "/fo.o/bar" = "" ∧
    FileUtils.stem "/foo/.." = FileUtils.getFilename "/foo/.." ∧
    FileUtils.extension ("/fo.o" ++ "/" ++ "bar") = FileUtils.extension "bar" :=
  ⟨⟨((extension_stem_of_final_component "/fo.o/b.ar.baz23").1 (by decide) (by decide)).1
      (by decide),
    ((extension_stem_of_final_component "/fo.o/b.ar.baz23").1 (by decide) (by decide)).2.2.2⟩,
   ((extension_stem_of_final_component "/fo.o/bar").1 (by decide) (by decide)).2.1 (by decide),
   (extension_stem_of_final_component "/foo/..").2.1 (Or.inr (by decide)),
   ((extension_stem_of_final_component "").2.2.2.2.1 "/fo.o" "bar" (by decide)).1⟩

/-- C26: for every non-empty configuration list (of fewer than 2^64 nodes,
compiled into a manager without stages) in which every node has no `inputs`
or an empty list under it, the input set after each processed node is the
list of the handles of `leaves()`, the stages that are no input of a stage.
When the last node is not inferred as a Reader, a compilation that ends
without a throw has added exactly one stage for the last node, with the
inferred role; this stage is the only leaf, and every stage is reached from
it along inputs. -/
theorem input_set_is_leaves (glob : String → List String) (elems : List Json)
    (manager : PipelineManager) (hne : elems ≠ []) (hn : elems.length < 2 ^ 64)
    (hM : manager.m_stages = [])
    (hin : ∀ node ∈ elems,
      node.find "inputs" = none ∨ node.find "inputs" = some (.array [])) :
    (∀ (k : Nat) (st : LoopState),
      parseLoop glob (.array elems) (lastIndex (.array elems)) k 0
        { manager := manager } = .ok st →
      st.inputs = st.manager.leaves.map Prod.fst) ∧
    (specRole (nodeType (elems.getLast hne)) (elems.length - 1) elems.length ≠ .Reader →
      (parsePipeline glob (.array elems) manager).thrown = none →
      ∃ (stp : LoopState) (s : Stage),
        parseLoop glob (.array elems) (lastIndex (.array elems)) (elems.length - 1) 0
          { manager := manager } = .ok stp ∧
        (parsePipeline glob (.array elems) manager).manager.m_stages =
          stp.manager.m_stages ++ [s] ∧
        s.role = specRole (nodeType (elems.getLast hne)) (elems.length - 1) elems.length ∧
        (parsePipeline glob (.array elems) manager).manager.leaves =
          [(stp.manager.m_stages.length, s)] ∧
        ∀ h : Nat, h < (parsePipeline glob (.array elems) manager).manager.m_stages.length →
          Relation.ReflTransGen
            (feeds (parsePipeline glob (.array elems) manager).manager.m_stages)
            stp.manager.m_stages.length h) := by
  have hpos : 0 < elems.length := List.length_pos.mpr hne
  have hinit : leavesAreInputs { manager := manager } := by
    refine ⟨⟨Nat.zero_le _, ?_, ?_, ?_⟩, ?_, ?_⟩
    · intro k s _ hs
      rw [hM] at hs
      simp at hs
    · intro h hh
      simp at hh
    · intro t h hf
      simp [TagMap.find] at hf
    · rw [hM]
      rfl
    · intro h hh
      rw [hM] at hh
      simp at hh
  have hall : ∀ (k : Nat) (st : LoopState),
      parseLoop glob (.array elems) (lastIndex (.array elems)) k 0
        { manager := manager } = .ok st → leavesAreInputs st :=
    fun k st h =>
      parseLoop_array_invariant glob elems (lastIndex (.array elems)) leavesAreInputs
        (fun i hi st0 st1 hP hb =>
          loopBody_leavesAreInputs glob (lastIndex (.array elems)) i elems[i] st0 st1
            (hin _ (List.getElem_mem hi)) hP hb)
        k 0 _ st hinit h
  refine ⟨?_, ?_⟩
  · intro k st h
    rw [leaves_handles]
    exact (hall k st h).2.1
  · intro hrole hthrown
    obtain ⟨st, hrun, hst⟩ := parsePipeline_thrown_none glob _ manager hthrown
    have hsize : (Json.array elems).size = (elems.length - 1) + 1 := by
      simp only [Json.size]
      omega
    have hi : elems.length - 1 < elems.length := by omega
    have hget : elems.getLast hne = elems[elems.length - 1] := List.getLast_eq_getElem elems hne
    rw [hsize, parseLoop_add] at hrun
    cases hp : parseLoop glob (.array elems) (lastIndex (.array elems)) (elems.length - 1) 0
        { manager := manager } with
    | error e => rw [hp] at hrun; cases hrun
    | ok stp =>
      rw [hp] at hrun
      simp only [] at hrun
      rw [Nat.zero_add, parseLoop_succ glob elems _ 0 (elems.length - 1) hi stp] at hrun
      cases hb : loopBody glob (lastIndex (.array elems)) (elems.length - 1)
          elems[elems.length - 1] stp with
      | error e => rw [hb] at hrun; cases hrun
      | ok st1 =>
        rw [hb] at hrun
        simp only [parseLoop] at hrun
        have heq : st1 = st := Except.ok.inj hrun
        subst heq
        have hinv1 : leavesAreInputs st1 :=
          loopBody_leavesAreInputs glob (lastIndex (.array elems)) (elems.length - 1)
            elems[elems.length - 1] stp st1 (hin _ (List.getElem_mem hi)) (hall _ stp hp) hb
        obtain ⟨parts, hx⟩ := loopBody_ok_extract glob _ _ _ stp st1 hb
        have htype : parts.type = nodeType (elems.getLast hne) := by
          rw [hget]
          exact extractNode_type _ _ parts hx
        obtain ⟨c1, c2, c3⟩ := cond_specRole parts.type (elems.length - 1) elems.length hi hn
        rw [htype] at c1 c2 c3
        have hfinish : ∀ s : Stage, st1.manager.m_stages = stp.manager.m_stages ++ [s] →
            st1.inputs = [stp.manager.m_stages.length] →
            s.role = specRole (nodeType (elems.getLast hne)) (elems.length - 1)
              elems.length →
            ∃ (stp1 : LoopState) (s : Stage), Except.ok stp = Except.ok
                (ε := Exn × PipelineManager) stp1 ∧
              (parsePipeline glob (.array elems) manager).manager.m_stages =
                stp1.manager.m_stages ++ [s] ∧
              s.role = specRole (nodeType (elems.getLast hne)) (elems.length - 1)
                elems.length ∧
              (parsePipeline glob (.array elems) manager).manager.leaves =
                [(stp1.manager.m_stages.length, s)] ∧
              ∀ h : Nat,
                h < (parsePipeline glob (.array elems) manager).manager.m_stages.length →
                Relation.ReflTransGen
                  (feeds (parsePipeline glob (.array elems) manager).manager.m_stages)
                  stp1.manager.m_stages.length h := by
          intro s e2 e4 hr
          refine ⟨stp, s, rfl, hst.trans e2, hr, ?_, ?_⟩
          · rw [leaves_congr _ _ hst]
            have hmap : st1.manager.leaves.map Prod.fst = [stp.manager.m_stages.length] := by
              rw [leaves_handles, ← hinv1.2.1, e4]
            cases hlv : st1.manager.leaves with
            | nil => rw [hlv] at hmap; cases hmap
            | cons x rest =>
              rw [hlv] at hmap
              simp only [List.map_cons, List.cons.injEq, List.map_eq_nil_iff] at hmap
              obtain ⟨hx1, hrest⟩ := hmap
              rw [hrest]
              have hmem : (x.1, x.2) ∈ st1.manager.leaves := by
                rw [hlv]
                exact List.mem_cons_self _ _
              have hsome := ((leaves_spec st1.manager).2 x.1 x.2).mp hmem
              rw [hx1, e2, List.getElem?_append_right (Nat.le_refl _), Nat.sub_self] at hsome
              have hx2 : s = x.2 := Option.some.inj hsome.1
              rw [hx2, ← hx1]
          · rw [hst]
            intro h hh
            obtain ⟨r, hr1, hr2⟩ := hinv1.2.2 h hh
            rw [e4] at hr1
            rw [List.mem_singleton.mp hr1] at hr2
            exact hr2
        have hR : readerCond parts.type (elems.length - 1) (lastIndex (.array elems)) =
            false := by
          cases hc : readerCond parts.type (elems.length - 1) (lastIndex (.array elems)) with
          | false => rfl
          | true =>
            rw [htype] at hc
            exact absurd (c1.mp hc) hrole
        cases hW : writerCond parts.type with
        | true =>
          obtain ⟨st2, e1, e2, -, e4, -⟩ := loopBody_writer glob _ _ _ stp parts hx hR hW
          rw [e1] at hb
          have heq : st2 = st1 := Except.ok.inj hb
          subst heq
          rw [htype] at hR hW
          exact hfinish _ e2 e4 (c2.mp ⟨hR, hW⟩).symm
        | false =>
          obtain ⟨st2, e1, e2, -, e4, -⟩ := loopBody_filter glob _ _ _ stp parts hx hR hW
          rw [e1] at hb
          have heq : st2 = st1 := Except.ok.inj hb
          subst heq
          rw [htype] at hR hW
          exact hfinish _ e2 e4 (c3.mp ⟨hR, hW⟩).symm

theorem input_set_is_leaves_witness :
    ∃ (stp : LoopState) (s : Stage),
      parseLoop (fun _ => [])
        (.array [.string "a.las", .string "b.las",
          .object [("type", .string "filters.x"), ("inputs", .array [])], .string "out.las"])
        (lastIndex (.array [.string "a.las", .string "b.las",
          .object [("type", .string "filters.x"), ("inputs", .array [])], .string "out.las"]))
        3 0 { manager := {} } = .ok stp ∧
      (parsePipeline (fun _ => [])
        (.array [.string "a.las", .string "b.las",
          .object [("type", .string "filters.x"), ("inputs", .array [])], .string "out.las"])
        {}).manager.m_stages = stp.manager.m_stages ++ [s] ∧
      s.role = .Writer ∧
      (parsePipeline (fun _ => [])
        (.array [.string "a.las", .string "b.las",
          .object [("type", .string "filters.x"), ("inputs", .array [])], .string "out.las"])
        {}).manager.leaves = [(stp.manager.m_stages.length, s)] := by
  obtain ⟨stp, s, h1, h2, h3, h4, -⟩ :=
    (input_set_is_leaves (fun _ => [])
      [.string "a.las", .string "b.las",
        .object [("type", .string "filters.x"), ("inputs", .array [])], .string "out.las"]
      {} (by simp) (by simp only [List.length_cons, List.length_nil]; norm_num) rfl
      (by
        intro node hnode
        simp only [List.mem_cons, List.mem_singleton, List.not_mem_nil, or_false] at hnode
        rcases hnode with rfl | rfl | rfl | rfl
        · exact Or.inl rfl
        · exact Or.inl rfl
        · exact Or.inr rfl
        · exact Or.inl rfl)).2 (by decide) rfl
  exact ⟨stp, s, h1, h2, h3.trans (by decide), h4⟩

end pdal
